import Mathlib

/-!
NOVA microhypervisor: execution-context core.

A shallow embedding of the reference counter (`inc/x86_64/refptr.hpp`), the
hazard word (`inc/aarch64/hazards.hpp`), the register file
(`inc/aarch64/regs.hpp`) and the continuation dispatcher
(`src/aarch64/ec_arch.cpp`), followed by the properties established for them.

Machine words are natural numbers; every operation that can wrap carries its
modulus explicitly.
-/

namespace Nova

/-! ## Reference counter (`refptr.hpp`) -/

/-- Number of values of a `uint32_t`. -/
def U32 : Nat := 2 ^ 32

/-- The class `Refcount`: a single `uint32_t ref`. -/
structure Refcount where
  ref : Nat
deriving DecidableEq

/-- The constructor `Refcount() : ref (1)`. -/
def Refcount.new : Refcount := { ref := 1 }

/-- The builtin `__atomic_compare_exchange_n (&ref, &r, desired, ...)` on one word:
the result is `(success, new value of ref, new value of r)`. -/
def atomic_compare_exchange (ref r desired : Nat) : Bool × Nat × Nat :=
  if ref = r then (true, desired, r) else (false, ref, ref)

/-- The builtin `__atomic_sub_fetch (&ref, v, ...)` on a `uint32_t`: the new value,
which is both stored and returned. -/
def atomic_sub_fetch (ref v : Nat) : Nat := (ref + U32 - v % U32) % U32

/-- Source `Refcount::add_ref` executed without interference:
`for (uint32_t r; (r = ref); ) if (CAS (&ref, &r, r + 1)) return true; return false;`
Each unit of `fuel` pays for one pass of the loop. The result is the returned
flag and the counter afterwards. -/
def Refcount.add_ref : Nat → Refcount → Option (Bool × Refcount)
  | 0, _ => none
  | fuel + 1, rc =>
    let r := rc.ref
    if r = 0 then some (false, rc)
    else
      match atomic_compare_exchange rc.ref r ((r + 1) % U32) with
      | (true, v, _) => some (true, { ref := v })
      | (false, v, _) => Refcount.add_ref fuel { ref := v }

/-- Source `Refcount::del_ref`: `return __atomic_sub_fetch (&ref, 1, ...) == 0;` -/
def Refcount.del_ref (rc : Refcount) : Bool × Refcount :=
  let v := atomic_sub_fetch rc.ref 1
  (v == 0, { ref := v })

/-- The two operations of a `Refcount`. -/
inductive RefOp where
  | add_ref
  | del_ref
deriving DecidableEq

/-- One operation applied to a counter (`fuel` bounds the loop of `add_ref`). -/
def Refcount.apply (fuel : Nat) (rc : Refcount) : RefOp → Option (Bool × Refcount)
  | .add_ref => rc.add_ref fuel
  | .del_ref => some rc.del_ref

/-- A finite sequence of operations applied in order: the flags returned, tagged
with their operation, and the final counter. -/
def Refcount.run (fuel : Nat) : List RefOp → Refcount → Option (List (RefOp × Bool) × Refcount)
  | [], rc => some ([], rc)
  | op :: ops, rc =>
    match rc.apply fuel op with
    | none => none
    | some (b, rc1) =>
      match Refcount.run fuel ops rc1 with
      | none => none
      | some (bs, rc2) => some ((op, b) :: bs, rc2)

/-! ### `add_ref` as a sequence of atomic steps

`add_ref` is a load followed by a compare-and-swap; another CPU may act between
the two. The program counter records the local `r`. -/

/-- Control state of one `add_ref` call. -/
inductive AddRefPc where
  | load
  | cas (r : Nat)
  | done (b : Bool)
deriving DecidableEq

/-- One atomic step of `add_ref` on the shared word `ref`. -/
def Refcount.add_ref_step (ref : Nat) : AddRefPc → Nat × AddRefPc
  | .load => if ref = 0 then (ref, .done false) else (ref, .cas ref)
  | .cas r =>
    match atomic_compare_exchange ref r ((r + 1) % U32) with
    | (true, v, _) => (v, .done true)
    | (false, v, _) => (v, .load)
  | .done b => (ref, .done b)

/-- At most `n` steps of `add_ref`. -/
def Refcount.add_ref_steps : Nat → Nat → AddRefPc → Nat × AddRefPc
  | 0, ref, pc => (ref, pc)
  | n + 1, ref, pc =>
    let (ref1, pc1) := Refcount.add_ref_step ref pc
    Refcount.add_ref_steps n ref1 pc1

/-- The flag returned by a finished call. -/
def AddRefPc.result : AddRefPc → Option Bool
  | .done b => some b
  | _ => none

/-- One `add_ref` on CPU Y racing one `del_ref` on CPU X. The `del_ref` (a single
atomic read-modify-write) takes effect after `k` steps of the `add_ref`; the
`add_ref` then runs for at most `fuel` further steps. The result is the flag of
the `add_ref` (if it finished), the flag of the `del_ref` and the final count. -/
def Refcount.race (fuel k c : Nat) : Option Bool × Bool × Nat :=
  let (ref1, pc1) := Refcount.add_ref_steps k c .load
  let (d, rc2) := Refcount.del_ref { ref := ref1 }
  let (ref3, pc3) := Refcount.add_ref_steps fuel rc2.ref pc1
  (pc3.result, d, ref3)

/-! ## Hazards (`hazards.hpp`) -/

/-- Modelled from the spec: the macro `BIT` of macros.hpp, which is not under src/.
The hazard word is a bitset; `BIT (b)` is the mask with only bit `b` set. -/
def BIT (b : Nat) : Nat := 1 <<< b

def HZD_SCHED : Nat := BIT 0
def HZD_RCU : Nat := BIT 4
def HZD_BOOT_HST : Nat := BIT 5
def HZD_BOOT_GST : Nat := BIT 6
def HZD_FPU : Nat := BIT 16
def HZD_RECALL : Nat := BIT 30
def HZD_ILLEGAL : Nat := BIT 31

/-- Constants that the embedded code names and whose headers (hazard.hpp,
arch.hpp, event.hpp) are not under src/. They are parameters of the model:
every property holds for each value of them, unless it says otherwise. -/
structure Consts where
  /-- The mask `Hazard::SLEEP` (hazards.hpp has no such bit). -/
  SLEEP : Nat
  /-- The mask `CPTR_TFP` of the trap-control register. -/
  CPTR_TFP : Nat
  /-- The initial `SPSR_EL0` value of a register file. -/
  SPSR_EL0 : Nat
  /-- Source `Event::hst_arch`. -/
  hst_arch : Nat
  /-- Source `Event::gst_arch`. -/
  gst_arch : Nat
  /-- Source `Event::Selector::STARTUP`. -/
  STARTUP : Nat
  /-- Source `Event::Selector::RECALL`. -/
  RECALL : Nat
deriving DecidableEq

/-- The enumerators of `Hazard` used by the dispatcher, with the masks of
hazards.hpp. -/
def Hazard.SCHED : Nat := HZD_SCHED
def Hazard.RCU : Nat := HZD_RCU
def Hazard.BOOT_HST : Nat := HZD_BOOT_HST
def Hazard.BOOT_GST : Nat := HZD_BOOT_GST
def Hazard.FPU : Nat := HZD_FPU
def Hazard.RECALL : Nat := HZD_RECALL
def Hazard.ILLEGAL : Nat := HZD_ILLEGAL

/-- The complement `~x` of an `unsigned` (32-bit) word. -/
def not32 (x : Nat) : Nat := (U32 - 1) ^^^ (x % U32)

/-- Modelled from the spec: `Hazard::clr (mask)` of hazard.hpp, which is not under
src/: the operation `clr(mask)` of the hazard word clears the bits of `mask`. -/
def Hazard.clr (hazard mask : Nat) : Nat := hazard &&& not32 mask

/-! ## Register file (`regs.hpp`) -/

/-- A pointer; `nullptr` is 0. -/
abbrev Ptr := Nat

def nullptr : Ptr := 0

/-- The struct `Exc_regs` (with the 31 registers of `Sys_regs`). -/
structure Exc_regs where
  gpr : List Nat
  el0_sp : Nat
  el0_tpidr : Nat
  el0_tpidrro : Nat
  el2_elr : Nat
  el2_spsr : Nat
  el2_esr : Nat
  el2_far : Nat
deriving DecidableEq

/-- The default member initialisers of `Exc_regs`. -/
def Exc_regs.init (K : Consts) : Exc_regs :=
  { gpr := List.replicate 31 0, el0_sp := 0, el0_tpidr := 0, el0_tpidrro := 0,
    el2_elr := 0, el2_spsr := K.SPSR_EL0, el2_esr := 0, el2_far := 0 }

/-- Source `Exc_regs::ep`: `return el2.esr >> 26;` -/
def Exc_regs.ep (r : Exc_regs) : Nat := r.el2_esr >>> 26

/-- Source `Exc_regs::set_ep`: `el2.esr = val << 26;` on a `uint64_t`. -/
def Exc_regs.set_ep (r : Exc_regs) (val : Nat) : Exc_regs :=
  { r with el2_esr := (val <<< 26) % 2 ^ 64 }

/-- The struct `Cpu_regs`. -/
structure Cpu_regs where
  exc : Exc_regs
  vmcb : Ptr
  obj : Ptr
  hst : Ptr
  gst : Ptr
  hazard : Nat
deriving DecidableEq

/-- Source `Cpu_regs (Space_obj *o, Space_hst *h, Space_pio * = nullptr)`:
`vmcb (nullptr), obj (o), hst (h)`, the rest by default initialisers. -/
def Cpu_regs.mk_hst (K : Consts) (o h _pio : Ptr) : Cpu_regs :=
  { exc := Exc_regs.init K, vmcb := nullptr, obj := o, hst := h, gst := nullptr, hazard := 0 }

/-- Source `Cpu_regs (Space_obj *o, Space_hst *h, Vmcb *v)`:
`vmcb (v), obj (o), hst (h), hazard (Hazard::ILLEGAL)`. -/
def Cpu_regs.mk_gst (K : Consts) (o h v : Ptr) : Cpu_regs :=
  { exc := Exc_regs.init K, vmcb := v, obj := o, hst := h, gst := nullptr,
    hazard := Hazard.ILLEGAL }

/-- Which of the two constructors of `Cpu_regs` built a register block, with its
arguments. -/
inductive Cpu_regs.Ctor where
  | hst (o h pio : Ptr)
  | gst (o h v : Ptr)
deriving DecidableEq

/-- The register block a constructor call yields. -/
def Cpu_regs.construct (K : Consts) : Cpu_regs.Ctor → Cpu_regs
  | .hst o h pio => Cpu_regs.mk_hst K o h pio
  | .gst o h v => Cpu_regs.mk_gst K o h v

/-- Whether the block was built by the constructor taking a VM control block. -/
def Cpu_regs.Ctor.is_vcpu : Cpu_regs.Ctor → Bool
  | .hst _ _ _ => false
  | .gst _ _ _ => true

/-! ## Execution context and per-CPU state -/

/-- The continuations (`cont_t` values) the dispatcher names; `other` stands for
any continuation defined elsewhere. -/
inductive cont_t where
  | ret_user_hypercall
  | ret_user_exception
  | ret_user_vmexit
  | set_vmm_regs
  | send_msg (c : cont_t)
  | other (id : Nat)
deriving DecidableEq

/-- The three kinds of EC, one per constructor of `Ec_arch`. -/
inductive Ec.Kind where
  | kernel
  | hst
  | gst
deriving DecidableEq

/-- The fields of an `Ec` that the embedded code reads or writes: its register
block, its continuation (`none` is `nullptr`), its event base `evt`, its CPU,
its FPU block, its kernel page, and the kind and flag `t` it was created with. -/
structure Ec where
  kind : Ec.Kind
  t : Bool
  regs : Cpu_regs
  cont : Option cont_t
  evt : Nat
  cpu : Nat
  fpu : Ptr
  kpage : Ptr
deriving DecidableEq

/-- Source `Ec::exc_regs()`: the exception register file inside the register block. -/
def Ec.exc_regs (e : Ec) : Exc_regs := e.regs.exc

/-- The per-CPU words the dispatcher touches: `Cpu::hazard`, `Cpu::cptr` and the
system register `CPTR_EL2` as last written. -/
structure Cpu where
  hazard : Nat
  cptr : Nat
  cptr_el2 : Nat
deriving DecidableEq

/-- The two `TRACE_PERF` lines of `handle_hazard`. -/
inductive Perf where
  | first_hec
  | first_gec
deriving DecidableEq

/-- One CPU together with the EC it is dispatching (`self`) and the performance
lines traced so far. -/
structure Machine where
  cpu : Cpu
  ec : Ec
  perf : List Perf
deriving DecidableEq

/-- Modelled from the spec: `Cpu::fini`, `Scheduler::schedule`, `Ec::kill` and
`send_msg` are defined outside src/. Following the spec (reloading events save
the continuation and yield, diverting events redirect the EC, and the dispatcher
is re-entered through the stored continuation), each is a transfer of control
that does not come back to its caller; the outcome records which one was entered
and the state at that moment. `ret` is a normal return from `handle_hazard`, and
`eret` is a return path that went on to its architectural return. -/
inductive Outcome where
  | fini (m : Machine)
  | schedule (m : Machine)
  | kill (reason : String) (m : Machine)
  | send_msg (c : cont_t) (m : Machine)
  | ret (m : Machine)
  | eret (m : Machine)
deriving DecidableEq

/-- The state an outcome carries. -/
def Outcome.machine : Outcome → Machine
  | .fini m => m
  | .schedule m => m
  | .kill _ m => m
  | .send_msg _ m => m
  | .ret m => m
  | .eret m => m

/-- Source `Cpu::preemption_point`: `msr daifclr, #0xf; msr daifset, #0xf`. Interrupts
are unmasked and masked again; with no interrupt taken in between, no word of
the state changes. -/
def Cpu.preemption_point (m : Machine) : Machine := m

/-- Source `Fpu::disable`: write `Cpu::cptr | CPTR_TFP` to `CPTR_EL2`, then
`Cpu::hazard &= ~Hazard::FPU`. -/
def Fpu.disable (K : Consts) (c : Cpu) : Cpu :=
  { c with cptr_el2 := c.cptr ||| K.CPTR_TFP, hazard := c.hazard &&& not32 Hazard.FPU }

/-- Source `Fpu::enable`: write `Cpu::cptr` to `CPTR_EL2`, then
`Cpu::hazard |= Hazard::FPU`. -/
def Fpu.enable (c : Cpu) : Cpu :=
  { c with cptr_el2 := c.cptr, hazard := c.hazard ||| Hazard.FPU }

/-- Write `cont = func` on the EC being dispatched. -/
def Machine.set_cont (m : Machine) (func : cont_t) : Machine :=
  { m with ec := { m.ec with cont := some func } }

/-- Replace the hazard word of the EC's register block. -/
def Machine.set_ec_hazard (m : Machine) (hz : Nat) : Machine :=
  { m with ec := { m.ec with regs := { m.ec.regs with hazard := hz } } }

/-- Apply `exc_regs().set_ep (val)` on the EC being dispatched. -/
def Machine.set_ep (m : Machine) (val : Nat) : Machine :=
  { m with ec := { m.ec with regs := { m.ec.regs with exc := m.ec.regs.exc.set_ep val } } }

/-- The part of `Ec::handle_hazard` after the comment "Point of no return after
checking all diversions: this EC will run": the FPU, `BOOT_HST` and `BOOT_GST`
hazards, then the return to the caller. -/
def Ec.handle_hazard_run (K : Consts) (h : Nat) (m : Machine) : Outcome :=
  let m1 : Machine :=
    if h &&& Hazard.FPU ≠ 0 then
      { m with cpu := if m.cpu.hazard &&& Hazard.FPU ≠ 0 then Fpu.disable K m.cpu
                      else Fpu.enable m.cpu }
    else m
  let m2 : Machine :=
    if h &&& Hazard.BOOT_HST ≠ 0 then
      { m1 with cpu := { m1.cpu with hazard := m1.cpu.hazard &&& not32 Hazard.BOOT_HST },
                perf := m1.perf ++ [Perf.first_hec] }
    else m1
  let m3 : Machine :=
    if h &&& Hazard.BOOT_GST ≠ 0 then
      { m2 with cpu := { m2.cpu with hazard := m2.cpu.hazard &&& not32 Hazard.BOOT_GST },
                perf := m2.perf ++ [Perf.first_gec] }
    else m2
  .ret m3

/-- Source `Ec::handle_hazard (unsigned h, cont_t func)` on the EC being dispatched. -/
def Ec.handle_hazard (K : Consts) (h : Nat) (func : cont_t) (m : Machine) : Outcome :=
  if h &&& (Hazard.ILLEGAL ||| Hazard.RECALL ||| K.SLEEP ||| Hazard.SCHED) ≠ 0 then
    let m0 := Cpu.preemption_point m
    if m0.cpu.hazard &&& K.SLEEP ≠ 0 then
      .fini (m0.set_cont func)
    else if m0.cpu.hazard &&& Hazard.SCHED ≠ 0 then
      .schedule (m0.set_cont func)
    else if h &&& Hazard.ILLEGAL ≠ 0 then
      .kill "Illegal execution state" m0
    else if m0.ec.regs.hazard &&& Hazard.RECALL ≠ 0 then
      let m1 := m0.set_ec_hazard (Hazard.clr m0.ec.regs.hazard Hazard.RECALL)
      if func = cont_t.ret_user_vmexit then
        .send_msg cont_t.ret_user_vmexit (m1.set_ep (K.gst_arch + K.RECALL))
      else
        .send_msg cont_t.ret_user_exception (m1.set_ep (K.hst_arch + K.RECALL))
    else Ec.handle_hazard_run K h m0
  else Ec.handle_hazard_run K h m

/-- The mask of `ret_user_hypercall` and `ret_user_exception`. -/
def Ec_arch.mask_hst (K : Consts) : Nat :=
  Hazard.ILLEGAL ||| Hazard.RECALL ||| Hazard.FPU ||| Hazard.BOOT_HST ||| Hazard.RCU
    ||| K.SLEEP ||| Hazard.SCHED

/-- The mask of `ret_user_vmexit`. -/
def Ec_arch.mask_gst (K : Consts) : Nat :=
  Hazard.ILLEGAL ||| Hazard.RECALL ||| Hazard.FPU ||| Hazard.BOOT_GST ||| Hazard.RCU
    ||| K.SLEEP ||| Hazard.SCHED

/-- The value `h` of `ret_user_hypercall`:
`(Cpu::hazard ^ self->regs.hazard) & (ILLEGAL | RECALL | FPU | BOOT_HST | RCU | SLEEP | SCHED)`. -/
def Ec_arch.hazard_hypercall (K : Consts) (c e : Nat) : Nat := (c ^^^ e) &&& Ec_arch.mask_hst K

/-- The value `h` of `ret_user_exception` (the same expression). -/
def Ec_arch.hazard_exception (K : Consts) (c e : Nat) : Nat := (c ^^^ e) &&& Ec_arch.mask_hst K

/-- The value `h` of `ret_user_vmexit`:
`(Cpu::hazard ^ self->regs.hazard) & (ILLEGAL | RECALL | FPU | BOOT_GST | RCU | SLEEP | SCHED)`. -/
def Ec_arch.hazard_vmexit (K : Consts) (c e : Nat) : Nat := (c ^^^ e) &&& Ec_arch.mask_gst K

/-- The end of a return path once `handle_hazard` is done: a diversion or reload
ends the pass; otherwise the path goes on to reload the VM control block, switch
the address space and execute `ERET`. -/
def Outcome.then_eret : Outcome → Outcome
  | .ret m => .eret m
  | o => o

/-- Source `Ec_arch::ret_user_hypercall (self)`. -/
def Ec_arch.ret_user_hypercall (K : Consts) (m : Machine) : Outcome :=
  let h := Ec_arch.hazard_hypercall K m.cpu.hazard m.ec.regs.hazard
  (if h ≠ 0 then Ec.handle_hazard K h cont_t.ret_user_hypercall m else .ret m).then_eret

/-- Source `Ec_arch::ret_user_exception (self)`. -/
def Ec_arch.ret_user_exception (K : Consts) (m : Machine) : Outcome :=
  let h := Ec_arch.hazard_exception K m.cpu.hazard m.ec.regs.hazard
  (if h ≠ 0 then Ec.handle_hazard K h cont_t.ret_user_exception m else .ret m).then_eret

/-- Source `Ec_arch::ret_user_vmexit (self)`. -/
def Ec_arch.ret_user_vmexit (K : Consts) (m : Machine) : Outcome :=
  let h := Ec_arch.hazard_vmexit K m.cpu.hazard m.ec.regs.hazard
  (if h ≠ 0 then Ec.handle_hazard K h cont_t.ret_user_vmexit m else .ret m).then_eret

/-! ## Constructors of `Ec_arch` (`ec_arch.cpp`) -/

/-- Modelled from the spec: the constructors of the base class `Ec` (ec.hpp, not
under src/). Each stores its arguments in the fields of the same role and builds
the register block from its space arguments, with the constructor of `Cpu_regs`
that takes a VM control block for a vCPU and with the other one for a kernel
thread or a host EC. This one is the kernel-thread constructor
`Ec (Space_hst *, cpu_t, cont_t)`. -/
def Ec.mk_kernel (K : Consts) (hst : Ptr) (c : Nat) (x : cont_t) : Ec :=
  { kind := .kernel, t := false, regs := Cpu_regs.mk_hst K nullptr hst nullptr,
    cont := some x, evt := 0, cpu := c, fpu := nullptr, kpage := nullptr }

/-- Modelled from the spec: the host-EC constructor of the base class `Ec`
(ec.hpp, not under src/), `Ec (t, f, obj, hst, pio, k, c, e, x)`. -/
def Ec.mk_hst (K : Consts) (t : Bool) (f obj hst pio k : Ptr) (c e : Nat)
    (x : Option cont_t) : Ec :=
  { kind := .hst, t := t, regs := Cpu_regs.mk_hst K obj hst pio,
    cont := x, evt := e, cpu := c, fpu := f, kpage := k }

/-- Modelled from the spec: the vCPU constructor of the base class `Ec`
(ec.hpp, not under src/), `Ec (t, f, obj, hst, v, k, c, e, x)`. -/
def Ec.mk_gst (K : Consts) (t : Bool) (f obj hst v k : Ptr) (c e : Nat)
    (x : Option cont_t) : Ec :=
  { kind := .gst, t := t, regs := Cpu_regs.mk_gst K obj hst v,
    cont := x, evt := e, cpu := c, fpu := f, kpage := k }

/-- Write `exc_regs().sp() = sp` and `exc_regs().set_ep (val)` on an EC, the two
statements that end the bodies of the host and vCPU constructors. -/
def Ec.set_sp_ep (ec : Ec) (sp val : Nat) : Ec :=
  { ec with regs := { ec.regs with exc := ({ ec.regs.exc with el0_sp := sp }).set_ep val } }

/-- Constructor: Kernel Thread. `Ec_arch (cpu_t c, cont_t x) : Ec (&Space_hst::nova, c, x) {}`;
`nova` is the address of `Space_hst::nova`. -/
def Ec_arch.mk_kernel (K : Consts) (nova : Ptr) (c : Nat) (x : cont_t) : Ec :=
  Ec.mk_kernel K nova c x

/-- The request `hst->update (hva, Kmem::ptr_to_phys (kpage), 0, K | U | W | R, ram)`
by which the host constructor maps the UTCB. -/
structure Utcb_map where
  hst : Ptr
  hva : Nat
  kpage : Ptr
  order : Nat
deriving DecidableEq

/-- Constructor: HST EC, with the UTCB mapping it requests. -/
def Ec_arch.mk_hst (K : Consts) (t : Bool) (f obj hst pio : Ptr) (c e sp hva : Nat) (k : Ptr) :
    Ec × Utcb_map :=
  let ec := Ec.mk_hst K t f obj hst pio k c e
    (if t then some (cont_t.send_msg cont_t.ret_user_exception) else none)
  (ec.set_sp_ep sp (K.hst_arch + K.STARTUP),
   { hst := hst, hva := hva, kpage := ec.kpage, order := 0 })

/-- Constructor: GST EC. -/
def Ec_arch.mk_gst (K : Consts) (t : Bool) (f obj hst v : Ptr) (c e sp : Nat) : Ec :=
  let ec := Ec.mk_gst K t f obj hst v nullptr c e (some cont_t.set_vmm_regs)
  ec.set_sp_ep sp (K.gst_arch + K.STARTUP)

/-! ## Sample values and the stated form of the effective hazard -/

/-- A sample valuation of the constants that src/ does not define, used only to
instantiate properties at concrete inputs. -/
def Consts.sample : Consts :=
  { SLEEP := BIT 1, CPTR_TFP := BIT 10, SPSR_EL0 := 0, hst_arch := 0, gst_arch := 64,
    STARTUP := 62, RECALL := 63 }

/-- A sample vCPU: created by the GST constructor with event base `evt`, then
given the hazard word `e`. -/
def Ec.sample_vcpu (K : Consts) (evt e : Nat) : Ec :=
  let ec := Ec_arch.mk_gst K false nullptr 1 2 3 0 evt 0
  { ec with regs := { ec.regs with hazard := e } }

/-- A sample machine: CPU hazard word `c`, dispatching the sample vCPU with event
base `evt` and hazard word `e`. -/
def Machine.sample (K : Consts) (c evt e : Nat) : Machine :=
  { cpu := { hazard := c, cptr := 0, cptr_el2 := 0 }, ec := Ec.sample_vcpu K evt e, perf := [] }

/-- The event-style bits of the mask of `ret_user_hypercall` and
`ret_user_exception`, as the specification lists them. -/
def Spec.events_hst (K : Consts) : Nat :=
  Hazard.ILLEGAL ||| Hazard.RECALL ||| Hazard.BOOT_HST ||| Hazard.RCU ||| K.SLEEP ||| Hazard.SCHED

/-- The event-style bits of the mask of `ret_user_vmexit`, as the specification
lists them. -/
def Spec.events_gst (K : Consts) : Nat :=
  Hazard.ILLEGAL ||| Hazard.RECALL ||| Hazard.BOOT_GST ||| Hazard.RCU ||| K.SLEEP ||| Hazard.SCHED

/-- The effective hazard in the specification's words: the OR of the two words on
the event-style bits, combined with their XOR on the FPU bit. -/
def Spec.effective_hazard (events c e : Nat) : Nat :=
  ((c ||| e) &&& events) ||| ((c ^^^ e) &&& Hazard.FPU)

/-! ## Factory of a vCPU (`Ec::create_gst`, `ec_arch.cpp`) -/

/-- Modelled from the spec: the error codes a factory writes through its `Status &`
argument (status.hpp is not under src/); the code embedded here names `ABORTED`
and `MEM_OBJ`. -/
inductive Status where
  | SUCCESS
  | ABORTED
  | BAD_CAP
  | BAD_PAR
  | MEM_OBJ
deriving DecidableEq

/-- The two pointers `create_gst` reads from a `Pd`: what `pd->get_obj()` and
`pd->get_hst()` return (`nullptr` when the space is missing). -/
structure Pd where
  obj : Ptr
  hst : Ptr
deriving DecidableEq

/-- What the three allocators answer during one call: `cache.alloc()` on
`pd->fpu_cache`, the `operator new` of `Vmcb` and the `operator new` of `Ec` on
its cache. Each answer is the block, or `nullptr` when memory is exhausted. -/
structure Alloc where
  fpu : Ptr
  vmcb : Ptr
  ec : Ptr
deriving DecidableEq

/-- The allocations attempted and the blocks released, in program order. -/
inductive Mem_op where
  | fpu_alloc (p : Ptr)
  | vmcb_new (p : Ptr)
  | ec_new (p : Ptr)
  | vmcb_delete (p : Ptr)
  | fpu_free (p : Ptr)
deriving DecidableEq

/-- Source `Fpu::operator new (size_t, Slab_cache &cache)`: `return cache.alloc();`.
The result is the block and the operation performed. -/
def Fpu.operator_new (a : Alloc) : Ptr × List Mem_op := (a.fpu, [Mem_op.fpu_alloc a.fpu])

/-- Source `Fpu::operator delete (void *ptr, Slab_cache &cache)`:
`if (EXPECT_TRUE (ptr)) cache.free (ptr);` -/
def Fpu.operator_delete (ptr : Ptr) : List Mem_op :=
  if ptr ≠ nullptr then [Mem_op.fpu_free ptr] else []

/-- The expression `delete v` on a `Vmcb *`: nothing for a null pointer, otherwise
the block is destroyed and released. -/
def Vmcb.delete (v : Ptr) : List Mem_op :=
  if v ≠ nullptr then [Mem_op.vmcb_delete v] else []

/-- What `create_gst` leaves behind: the pointer it returns, the EC constructed at
that address (if any), the value of the `Status &` argument afterwards, and the
memory operations it performed. -/
structure Create_gst where
  ec : Ptr
  obj : Option Ec
  s : Status
  ops : List Mem_op
deriving DecidableEq

/-- Source `Ec::create_gst (Status &s, Pd *pd, bool t, bool fpu, cpu_t cpu,
unsigned long evt, uintptr_t sp, uintptr_t)`; `s` is the value of the status
argument on entry and `a` the answers of the allocators. -/
def Ec.create_gst (K : Consts) (a : Alloc) (s : Status) (pd : Pd) (t fpu : Bool)
    (cpu evt sp : Nat) : Create_gst :=
  let obj := pd.obj
  let hst := pd.hst
  if obj = nullptr ∨ hst = nullptr then
    { ec := nullptr, obj := none, s := Status.ABORTED, ops := [] }
  else
    let f : Ptr × List Mem_op := if fpu then Fpu.operator_new a else (nullptr, [])
    let v : Ptr × List Mem_op := (a.vmcb, [Mem_op.vmcb_new a.vmcb])
    let ops := f.2 ++ v.2
    if (!fpu || decide (f.1 ≠ nullptr)) && decide (v.1 ≠ nullptr) then
      if a.ec ≠ nullptr then
        { ec := a.ec, obj := some (Ec_arch.mk_gst K t f.1 obj hst v.1 cpu evt sp), s := s,
          ops := ops ++ [Mem_op.ec_new a.ec] }
      else
        { ec := nullptr, obj := none, s := Status.MEM_OBJ,
          ops := ops ++ [Mem_op.ec_new a.ec] ++ Vmcb.delete v.1 ++ Fpu.operator_delete f.1 }
    else
      { ec := nullptr, obj := none, s := Status.MEM_OBJ,
        ops := ops ++ Vmcb.delete v.1 ++ Fpu.operator_delete f.1 }

/-- The blocks an operation list obtained: the non-null answers of its
allocations, in order. -/
def Mem_op.allocated : List Mem_op → List Ptr
  | [] => []
  | Mem_op.fpu_alloc p :: ops => if p ≠ nullptr then p :: Mem_op.allocated ops else Mem_op.allocated ops
  | Mem_op.vmcb_new p :: ops => if p ≠ nullptr then p :: Mem_op.allocated ops else Mem_op.allocated ops
  | Mem_op.ec_new p :: ops => if p ≠ nullptr then p :: Mem_op.allocated ops else Mem_op.allocated ops
  | _ :: ops => Mem_op.allocated ops

/-- The blocks an operation list released, in order. -/
def Mem_op.released : List Mem_op → List Ptr
  | [] => []
  | Mem_op.vmcb_delete p :: ops => p :: Mem_op.released ops
  | Mem_op.fpu_free p :: ops => p :: Mem_op.released ops
  | _ :: ops => Mem_op.released ops

/-- Some allocation along the chain of `create_gst` fails: the Fpu block when one
is requested, the Vmcb, or the EC. -/
def Alloc.fails (a : Alloc) (fpu : Bool) : Prop :=
  (fpu = true ∧ a.fpu = nullptr) ∨ a.vmcb = nullptr ∨ a.ec = nullptr

/-! ## Stage-2 page-table pointer (`npt.hpp`, `space_hst.hpp`) -/

/-- Modelled from the spec: the macro `BIT64_RANGE` of macros.hpp, which is not
under src/: the 64-bit mask of the bits `h` down to `l`. -/
def BIT64_RANGE (h l : Nat) : Nat := 2 ^ (h + 1) - 2 ^ l

/-- Source `Npt::ADDR_MASK = BIT64_RANGE (47, 12)`. -/
def Npt.ADDR_MASK : Nat := BIT64_RANGE 47 12

/-- The complement `~x` of a 64-bit word. -/
def not64 (x : Nat) : Nat := (2 ^ 64 - 1) ^^^ (x % 2 ^ 64)

/-- The per-CPU word `Nptp::current` together with the values written to the
translation register `VTTBR_EL2` so far, oldest first. -/
structure Nptp_cpu where
  current : Nat
  writes : List Nat
deriving DecidableEq

/-- The condition `!(val & ~ADDR_MASK)` that `make_current` asserts on entry. -/
abbrev Nptp.make_current_assert (val : Nat) : Prop := val &&& not64 Npt.ADDR_MASK = 0

/-- The value `static_cast<uint64>(vmid) << 48 | val` that `make_current` builds. -/
def Nptp.vttbr (val vmid : Nat) : Nat := ((vmid <<< 48) % 2 ^ 64) ||| val

/-- Source `Nptp::make_current (Vmid vmid)` on the table pointer `val`, after its
assertion: `if (current != vttbr) msr vttbr_el2 <- (current = vttbr)`. -/
def Nptp.make_current (val vmid : Nat) (c : Nptp_cpu) : Nptp_cpu :=
  let vttbr := Nptp.vttbr val vmid
  if c.current ≠ vttbr then { current := vttbr, writes := c.writes ++ [vttbr] } else c

/-- The members `vmid` and `nptp` of a `Space_hst`. -/
structure Space_hst where
  vmid : Nat
  nptp : Nat
deriving DecidableEq

/-- Source `Space_hst::make_current`: `nptp.make_current (vmid);` -/
def Space_hst.make_current (s : Space_hst) (c : Nptp_cpu) : Nptp_cpu :=
  Nptp.make_current s.nptp s.vmid c

/-! ## Grace-period coordinator (`rcu.cpp`) -/

/-- The enum `State` of rcu.hpp, the argument of `start_batch`. -/
inductive Rcu.State where
  | RCU_CMP
  | RCU_PND
deriving DecidableEq

/-- What rcu.cpp uses from rcu.hpp, which is not under src/: the values of the two
enumerators of `State` and the predicate `complete (b)`, given the global state
word and `b`. They are parameters of the model. -/
structure Rcu.Env where
  /-- The mask `RCU_CMP`. -/
  RCU_CMP : Nat
  /-- The mask `RCU_PND`. -/
  RCU_PND : Nat
  /-- The helper `Rcu::complete (b)` as a function of `state` and `b`. -/
  complete : Nat → Nat → Bool

/-- The value of an enumerator. -/
def Rcu.Env.val (E : Rcu.Env) : Rcu.State → Nat
  | .RCU_CMP => E.RCU_CMP
  | .RCU_PND => E.RCU_PND

/-- The other phase bit. -/
def Rcu.State.other : Rcu.State → Rcu.State
  | .RCU_CMP => .RCU_PND
  | .RCU_PND => .RCU_CMP

/-- The two enumerators are the two bits below the batch number, which the code
reads as `state >> 2`: one of them is bit 0 and the other bit 1. -/
def Rcu.Env.phase_bits (E : Rcu.Env) : Prop :=
  (E.RCU_CMP = 1 ∧ E.RCU_PND = 2) ∨ (E.RCU_CMP = 2 ∧ E.RCU_PND = 1)

/-- What the coordinator does that is visible from outside: a call of
`start_batch` and the invocation of the callback of the element at an address. -/
inductive Rcu.Event where
  | start_batch (s : Rcu.State)
  | invoke (e : Ptr)
deriving DecidableEq

/-- Modelled from the spec: the class `Rcu_list` of rcu.hpp, which is not under
src/: a singly linked list of callback elements with head and tail, here the
sequence of the addresses of its elements, first to last. -/
abbrev Rcu_list := List Ptr

/-- Modelled from the spec: the member `head` of an `Rcu_list`: the first element,
null for the empty list. -/
def Rcu_list.head (l : Rcu_list) : Ptr := l.headD nullptr

/-- Modelled from the spec: `Rcu_list::clear`: the list becomes empty. -/
def Rcu_list.clear (_l : Rcu_list) : Rcu_list := []

/-- Modelled from the spec: `Rcu_list::append (Rcu_list *l)`: the elements of `l`
are spliced after those of this list, in their order, and `l` is cleared. The
result is this list and `l` afterwards. -/
def Rcu_list.append (this l : Rcu_list) : Rcu_list × Rcu_list := (this ++ l, Rcu_list.clear l)

/-- The variables of rcu.cpp as one CPU sees them: the global `state` and `count`,
this CPU's `l_batch`, `c_batch` and lists `next`, `curr`, `done`, together with
`Cpu::hazard`, `Cpu::count` and the events so far, oldest first. -/
structure Rcu where
  state : Nat
  count : Nat
  l_batch : Nat
  c_batch : Nat
  next : Rcu_list
  curr : Rcu_list
  done : Rcu_list
  hazard : Nat
  cpu_count : Nat
  log : List Rcu.Event
deriving DecidableEq

/-- The static initialisers of rcu.cpp: `state = RCU_CMP`, everything else zero or
empty, on a machine with `n` CPUs. -/
def Rcu.init (E : Rcu.Env) (n : Nat) : Rcu :=
  { state := E.RCU_CMP, count := 0, l_batch := 0, c_batch := 0, next := [], curr := [],
    done := [], hazard := 0, cpu_count := n, log := [] }

/-- Modelled from the spec: `Rcu::batch ()` of rcu.hpp: the batch number, the state
word without its two phase bits (the `state >> 2` that `start_batch` computes). -/
def Rcu.batch (r : Rcu) : Nat := r.state >>> 2

/-- The builtin `__atomic_sub_fetch (&x, v, ...)` on a 64-bit word. -/
def atomic_sub_fetch64 (x v : Nat) : Nat := (x + 2 ^ 64 - v % 2 ^ 64) % 2 ^ 64

/-- The end of `start_batch`, once the loop has left `v`:
`if ((v ^ ~s) & m) return; count = Cpu::count; barrier (); state++;` -/
def Rcu.start_batch_advance (E : Rcu.Env) (s : Rcu.State) (v : Nat) (r : Rcu) : Rcu :=
  let m := E.RCU_CMP ||| E.RCU_PND
  if (v ^^^ not64 (E.val s)) &&& m ≠ 0 then r
  else { r with count := r.cpu_count, state := (r.state + 1) % 2 ^ 64 }

/-- The loop of `start_batch` and what follows it:
`do if ((v = state) >> 2 != l_batch) return;
 while (!(v & s) && !CAS (&state, &v, v | s));`
Each unit of `fuel` pays for one pass. -/
def Rcu.start_batch_loop (E : Rcu.Env) : Nat → Rcu.State → Rcu → Option Rcu
  | 0, _, _ => none
  | fuel + 1, s, r =>
    let v := r.state
    if v >>> 2 ≠ r.l_batch then some r
    else if v &&& E.val s ≠ 0 then some (Rcu.start_batch_advance E s v r)
    else
      match atomic_compare_exchange r.state v (v ||| E.val s) with
      | (true, st, _) => some (Rcu.start_batch_advance E s v { r with state := st })
      | (false, st, _) => Rcu.start_batch_loop E fuel s { r with state := st }

/-- Source `Rcu::start_batch (State s)`, executed without interference; the call is
recorded in the log. -/
def Rcu.start_batch (E : Rcu.Env) (fuel : Nat) (s : Rcu.State) (r : Rcu) : Option Rcu :=
  Rcu.start_batch_loop E fuel s { r with log := r.log ++ [Rcu.Event.start_batch s] }

/-- Source `Rcu::quiet`: `Cpu::hazard &= ~Hazard::RCU;
if (__atomic_sub_fetch (&count, 1, ...) == 0) start_batch (RCU_CMP);` -/
def Rcu.quiet (E : Rcu.Env) (fuel : Nat) (r : Rcu) : Option Rcu :=
  let r1 := { r with hazard := r.hazard &&& not32 Hazard.RCU }
  let c := atomic_sub_fetch64 r1.count 1
  let r2 := { r1 with count := c }
  if c = 0 then Rcu.start_batch E fuel Rcu.State.RCU_CMP r2 else some r2

/-- The loop of `invoke_batch` on the sequence of the elements of `done`: the
element `e` is the head of what is left, its successor `n = e->next` is the rest,
and the call `(e->func)(e)` is recorded. -/
def Rcu.invoke_list : Rcu_list → List Rcu.Event → List Rcu.Event
  | [], log => log
  | e :: n, log => Rcu.invoke_list n (log ++ [Rcu.Event.invoke e])

/-- Source `Rcu::invoke_batch` on the sequence model of `done`; the loop over the
pointers themselves is `Rcu.invoke_batch`. -/
def Rcu.invoke_batch_seq (r : Rcu) : Rcu :=
  { r with log := Rcu.invoke_list r.done r.log, done := Rcu_list.clear r.done }

/-- The first statement of `update`:
`if (l_batch != batch ()) { l_batch = batch (); Cpu::hazard |= Hazard::RCU; }` -/
def Rcu.update_owe (r : Rcu) : Rcu :=
  if r.l_batch ≠ r.batch then { r with l_batch := r.batch, hazard := r.hazard ||| Hazard.RCU }
  else r

/-- The completion step of `update`:
`if (curr.head && complete (c_batch)) done.append (&curr);` -/
def Rcu.update_complete (E : Rcu.Env) (r : Rcu) : Rcu :=
  if r.curr.head ≠ nullptr ∧ E.complete r.state r.c_batch = true then
    { r with done := (Rcu_list.append r.done r.curr).1, curr := (Rcu_list.append r.done r.curr).2 }
  else r

/-- The promotion step of `update`: `if (!curr.head && next.head)
{ curr.append (&next); c_batch = l_batch + 1; start_batch (RCU_PND); }` -/
def Rcu.update_promote (E : Rcu.Env) (fuel : Nat) (r : Rcu) : Option Rcu :=
  if r.curr.head = nullptr ∧ r.next.head ≠ nullptr then
    Rcu.start_batch E fuel Rcu.State.RCU_PND
      { r with curr := (Rcu_list.append r.curr r.next).1, next := (Rcu_list.append r.curr r.next).2,
               c_batch := (r.l_batch + 1) % 2 ^ 64 }
  else some r

/-- The last statement of `update`: `if (done.head) invoke_batch ();` -/
def Rcu.update_invoke (r : Rcu) : Rcu :=
  if r.done.head ≠ nullptr then r.invoke_batch_seq else r

/-- Source `Rcu::update`: its four statements in order. -/
def Rcu.update (E : Rcu.Env) (fuel : Nat) (r : Rcu) : Option Rcu :=
  match Rcu.update_promote E fuel (Rcu.update_complete E (Rcu.update_owe r)) with
  | none => none
  | some r3 => some (Rcu.update_invoke r3)

/-! ### `invoke_batch` on the pointers -/

/-- The two members of an `Rcu_elem` that rcu.cpp reads: `next` and `func` (the
callback, named by a number). -/
structure Rcu_elem where
  next : Ptr
  func : Nat
deriving DecidableEq

/-- The memory holding callback elements: the element at an address, or nothing
when the address holds no element (any more). -/
abbrev Rcu_heap := Ptr → Option Rcu_elem

/-- What a call `(f)(e)` of callback number `f` on the element at `e` does to the
memory of elements. -/
abbrev Rcu_callbacks := Nat → Ptr → Rcu_heap → Rcu_heap

/-- The `done` list as pointers, with the calls made so far as pairs of callback
and argument, oldest first. -/
structure Rcu_mem where
  heap : Rcu_heap
  done_head : Ptr
  calls : List (Nat × Ptr)

/-- The loop `for (Rcu_elem *e = done.head, *n; e; e = n) { n = e->next; (e->func)(e); }`,
one pass for each unit of `fuel`; reading an address that holds no element has no
defined result. -/
def Rcu.invoke_batch_loop (cb : Rcu_callbacks) :
    Nat → Ptr → Rcu_heap → List (Nat × Ptr) → Option (Rcu_heap × List (Nat × Ptr))
  | 0, e, h, calls => if e = nullptr then some (h, calls) else none
  | fuel + 1, e, h, calls =>
    if e = nullptr then some (h, calls)
    else
      match h e with
      | none => none
      | some el =>
        let n := el.next
        Rcu.invoke_batch_loop cb fuel n (cb el.func e h) (calls ++ [(el.func, e)])

/-- Source `Rcu::invoke_batch`: the loop, then `done.clear ();`. -/
def Rcu.invoke_batch (cb : Rcu_callbacks) (fuel : Nat) (m : Rcu_mem) : Option Rcu_mem :=
  match Rcu.invoke_batch_loop cb fuel m.done_head m.heap m.calls with
  | none => none
  | some (h, calls) => some { heap := h, done_head := nullptr, calls := calls }

/-- The list starting at `p` in memory `h` consists of the elements at the
addresses `xs`, in this order: each is non-null and holds an element whose `next`
is the following address, the last one with `next` null. -/
def Rcu.is_list (h : Rcu_heap) : Ptr → List Ptr → Bool
  | p, [] => p == nullptr
  | p, e :: es =>
    p == e && e != nullptr &&
      (match h e with
       | none => false
       | some el => Rcu.is_list h el.next es)

/-- The callback stored in the element at `e`. -/
def Rcu.func_of (h : Rcu_heap) (e : Ptr) : Nat :=
  match h e with
  | none => 0
  | some el => el.func

/-- A call on the element at `e` may free or relink that element and change any
other memory, but not the other elements of the list `xs`. -/
def Rcu.own_element_only (cb : Rcu_callbacks) (xs : List Ptr) : Prop :=
  ∀ (f : Nat) (e : Ptr) (h : Rcu_heap) (a : Ptr), a ∈ xs → a ≠ e → cb f e h a = h a

/-- A sample parameter valuation: `RCU_CMP` bit 0, `RCU_PND` bit 1, and a batch
`b` complete once the global batch has passed it. -/
def Rcu.Env.sample : Rcu.Env :=
  { RCU_CMP := 1, RCU_PND := 2, complete := fun state b => decide (b < state >>> 2) }

/-- A sample memory of three elements at 8, 16 and 24, linked in this order, with
callbacks 1, 2 and 3. -/
def Rcu_heap.sample : Rcu_heap := fun a =>
  if a = 8 then some { next := 16, func := 1 }
  else if a = 16 then some { next := 24, func := 2 }
  else if a = 24 then some { next := nullptr, func := 3 }
  else none

/-- A sample callback behaviour: every callback frees the element it is called on. -/
def Rcu_callbacks.free : Rcu_callbacks := fun _ e h a => if a = e then none else h a

/-! ## Further sample values and the event-style bits -/

/-- A sample host EC: created by the HST constructor with event base `evt`, then
given the hazard word `e`. -/
def Ec.sample_hec (K : Consts) (evt e : Nat) : Ec :=
  let ec := (Ec_arch.mk_hst K true nullptr 1 2 nullptr 0 evt 0 4096 4).1
  { ec with regs := { ec.regs with hazard := e } }

/-- A sample machine: CPU hazard word `c` and base value `Cpu::cptr` 0, dispatching
the sample host EC with hazard word `e`. -/
def Machine.sample_hst (K : Consts) (c e : Nat) : Machine :=
  { cpu := { hazard := c, cptr := 0, cptr_el2 := 0 }, ec := Ec.sample_hec K 0 e, perf := [] }

/-- The event-style bits of the hazard word, as the specification lists them:
every bit but the ownership-style FPU bit. -/
def Spec.events (K : Consts) : Nat :=
  Hazard.ILLEGAL ||| Hazard.RECALL ||| Hazard.BOOT_HST ||| Hazard.BOOT_GST ||| Hazard.RCU
    ||| K.SLEEP ||| Hazard.SCHED

/-! ## Sequences of FPU accesses (`fpu.hpp`) -/

/-- The two calls that switch FPU access on a CPU. -/
inductive Fpu.Op where
  | enable
  | disable
deriving DecidableEq

/-- One call of `Fpu::enable` or `Fpu::disable`. -/
def Fpu.apply (K : Consts) (c : Cpu) : Fpu.Op → Cpu
  | .enable => Fpu.enable c
  | .disable => Fpu.disable K c

/-- A sequence of calls, made in order. -/
def Fpu.run (K : Consts) (ops : List Fpu.Op) (c : Cpu) : Cpu := ops.foldl (Fpu.apply K) c

/-! ## Stage-2 leaf attributes (`npt.hpp`) -/

/-- Modelled from the spec: the macro `BIT64` of macros.hpp, which is not under
src/: the 64-bit mask with only bit `b` set. -/
def BIT64 (b : Nat) : Nat := 1 <<< b

def Npt.ATTR_P : Nat := BIT64 0
def Npt.ATTR_nL : Nat := BIT64 1
def Npt.ATTR_R : Nat := BIT64 6
def Npt.ATTR_W : Nat := BIT64 7
def Npt.ATTR_A : Nat := BIT64 10
def Npt.ATTR_nX0 : Nat := BIT64 53
def Npt.ATTR_nX1 : Nat := BIT64 54
def Npt.ATTR_K : Nat := BIT64 55

/-- Modelled from the spec: the enumerators of `Paging::Permissions` that npt.hpp
names (paging.hpp is not under src/). Each permission is a single bit of the
permission set; the positions of the bits are parameters. -/
structure Paging where
  /-- Position of the bit `Paging::R`. -/
  r : Nat
  /-- Position of the bit `Paging::W`. -/
  w : Nat
  /-- Position of the bit `Paging::XU`. -/
  xu : Nat
  /-- Position of the bit `Paging::XS`. -/
  xs : Nat
  /-- Position of the bit `Paging::K`. -/
  k : Nat
deriving DecidableEq

def Paging.R (P : Paging) : Nat := BIT P.r
def Paging.W (P : Paging) : Nat := BIT P.w
def Paging.XU (P : Paging) : Nat := BIT P.xu
def Paging.XS (P : Paging) : Nat := BIT P.xs
def Paging.K (P : Paging) : Nat := BIT P.k

/-- Modelled from the spec: `Paging::API`, the permissions of the programming
interface: R, W, XU and XS. -/
def Paging.API (P : Paging) : Nat := P.XS ||| P.XU ||| P.W ||| P.R

/-- Source `Npt::page_attr (l, pm, ca, sh)`: the attributes of a PTE that refers to
a leaf page. `xnx` is the flag `Npt::xnx`; `npt_attr` stands for
`Memattr::npt_attr` (memattr.hpp is not under src/). A C truth value is 0 or 1:
`!x` is `decide (x = 0)` and `!!x` is `decide (x ≠ 0)`, taken as a number. -/
def Npt.page_attr (P : Paging) (npt_attr : Nat → Nat) (xnx : Bool) (l pm ca sh : Nat) : Nat :=
  let nxs : Bool := decide (pm &&& P.XS = 0)
  let nxu : Bool := decide (pm &&& P.XU = 0)
  if pm &&& P.API = 0 then 0
  else
    Npt.ATTR_K * (decide (pm &&& P.K ≠ 0)).toNat |||
    Npt.ATTR_nX1 * ((nxs && nxu) || (xnx && nxu)).toNat |||
    Npt.ATTR_nX0 * ((xor nxs nxu) && xnx).toNat |||
    Npt.ATTR_W * (decide (pm &&& P.W ≠ 0)).toNat |||
    Npt.ATTR_R * (decide (pm &&& P.R ≠ 0)).toNat |||
    ((sh % 2 ^ 64) &&& 0x3) <<< 8 ||| (npt_attr ca &&& 0xf) <<< 2 |||
    (decide (l = 0)).toNat * Npt.ATTR_nL ||| Npt.ATTR_A ||| Npt.ATTR_P

/-- Source `Npt::page_pm (a)`: the permissions that the attributes `a` of a leaf
PTE grant. -/
def Npt.page_pm (P : Paging) (a : Nat) : Nat :=
  if a = 0 then 0
  else
    (decide (a &&& Npt.ATTR_K ≠ 0)).toNat * P.K |||
    (!(xor (decide (a &&& Npt.ATTR_nX1 = 0)) (decide (a &&& Npt.ATTR_nX0 = 0)))).toNat * P.XS |||
    (decide (a &&& Npt.ATTR_nX1 = 0)).toNat * P.XU |||
    (decide (a &&& Npt.ATTR_W ≠ 0)).toNat * P.W |||
    (decide (a &&& Npt.ATTR_R ≠ 0)).toNat * P.R

/-- A sample placement of the permission bits: R, W, XU, XS at bits 0 to 3 and K at
bit 13. -/
def Paging.sample : Paging := { r := 0, w := 1, xu := 2, xs := 3, k := 13 }

/-! ## Per-CPU identity (`cpu.hpp`) -/

/-- The bits of `HCR_EL2` that cpu.hpp names; their masks are defined in arch.hpp,
which is not under src/, and are parameters. -/
structure Hcr where
  ATA : Nat
  ENSCXT : Nat
  FIEN : Nat
  NV2 : Nat
  NV1 : Nat
  NV : Nat
  APK : Nat
  E2H : Nat
  ID : Nat
  CD : Nat
  TGE : Nat
  DC : Nat
  TID5 : Nat
  TERR : Nat
  TLOR : Nat
  TSW : Nat
  TACR : Nat
  TIDCP : Nat
  TSC : Nat
  TID3 : Nat
  TID1 : Nat
  TID0 : Nat
  TWE : Nat
  TWI : Nat
  BSU_INNER : Nat
  FB : Nat
  AMO : Nat
  IMO : Nat
  FMO : Nat
  PTW : Nat
  SWIO : Nat
  VM : Nat
deriving DecidableEq

/-- Source `Cpu::hyp0_hcr`: the bits a guest value of `HCR_EL2` must have clear. -/
def Cpu.hyp0_hcr (H : Hcr) : Nat :=
  H.ATA ||| H.ENSCXT ||| H.FIEN ||| H.NV2 ||| H.NV1 ||| H.NV |||
  H.APK ||| H.E2H ||| H.ID ||| H.CD ||| H.TGE ||| H.DC

/-- Source `Cpu::hyp1_hcr`: the bits a guest value of `HCR_EL2` must have set. -/
def Cpu.hyp1_hcr (H : Hcr) : Nat :=
  H.TID5 ||| H.TERR ||| H.TLOR ||| H.TSW ||| H.TACR ||| H.TIDCP |||
  H.TSC ||| H.TID3 ||| H.TID1 ||| H.TID0 ||| H.TWE ||| H.TWI |||
  H.BSU_INNER ||| H.FB ||| H.AMO ||| H.IMO ||| H.FMO ||| H.PTW |||
  H.SWIO ||| H.VM

/-- Source `Cpu::constrain_hcr (uint64 v)`:
`return (v | hyp1_hcr) & ~(hyp0_hcr | res0_hcr);` where `res0_hcr` is the per-CPU
word of the RES0 bits. -/
def Cpu.constrain_hcr (H : Hcr) (res0_hcr v : Nat) : Nat :=
  (v ||| Cpu.hyp1_hcr H) &&& not64 (Cpu.hyp0_hcr H ||| res0_hcr)

/-- The value that `Cpu::fill_info_regs` stores in `hcr`: `constrain_hcr (0)`. -/
def Cpu.fill_info_regs_hcr (H : Hcr) (res0_hcr : Nat) : Nat := Cpu.constrain_hcr H res0_hcr 0

/-- A sample placement of the named bits of `HCR_EL2`, one bit each. -/
def Hcr.sample : Hcr :=
  { ATA := BIT64 0, ENSCXT := BIT64 1, FIEN := BIT64 2, NV2 := BIT64 3,
    NV1 := BIT64 4, NV := BIT64 5, APK := BIT64 6, E2H := BIT64 7,
    ID := BIT64 8, CD := BIT64 9, TGE := BIT64 10, DC := BIT64 11,
    TID5 := BIT64 12, TERR := BIT64 13, TLOR := BIT64 14, TSW := BIT64 15,
    TACR := BIT64 16, TIDCP := BIT64 17, TSC := BIT64 18, TID3 := BIT64 19,
    TID1 := BIT64 20, TID0 := BIT64 21, TWE := BIT64 22, TWI := BIT64 23,
    BSU_INNER := BIT64 24, FB := BIT64 25, AMO := BIT64 26, IMO := BIT64 27,
    FMO := BIT64 28, PTW := BIT64 29, SWIO := BIT64 30, VM := BIT64 31 }

/-- Modelled from the spec: the macro `BIT_RANGE` of macros.hpp, which is not under
src/: the mask with the bits `h` down to `l` set. -/
def BIT_RANGE (h l : Nat) : Nat := 2 ^ (h + 1) - 2 ^ l

/-- The enumeration `Cpu::Cpu_feature`. -/
inductive Cpu.Cpu_feature where
  | EL0
  | EL1
  | EL2
  | EL3
  | FP
  | ADVSIMD
  | GIC
  | RAS
  | SVE
  | SEL2
  | MPAM
  | AMU
  | DIT
  | RME
  | CSV2
  | CSV3
  | BT
  | SSBS
  | MTE
  | RAS_FRAC
  | MPAM_FRAC
  | RNDR_TRAP
  | CSV2_FRAC
deriving DecidableEq

/-- The value of an enumerator of `Cpu::Cpu_feature`, as cpu.hpp assigns it. -/
def Cpu.Cpu_feature.val : Cpu.Cpu_feature → Nat
  | .EL0 => 0
  | .EL1 => 1
  | .EL2 => 2
  | .EL3 => 3
  | .FP => 4
  | .ADVSIMD => 5
  | .GIC => 6
  | .RAS => 7
  | .SVE => 8
  | .SEL2 => 9
  | .MPAM => 10
  | .AMU => 11
  | .DIT => 12
  | .RME => 13
  | .CSV2 => 14
  | .CSV3 => 15
  | .BT => 16
  | .SSBS => 17
  | .MTE => 18
  | .RAS_FRAC => 19
  | .MPAM_FRAC => 20
  | .RNDR_TRAP => 23
  | .CSV2_FRAC => 24

/-- The enumeration `Cpu::Dbg_feature`. -/
inductive Cpu.Dbg_feature where
  | DEBUGVER
  | TRACEVER
  | PMUVER
  | BRPS
  | WRPS
  | CTXCMPS
  | PMSVER
  | DOUBLELOCK
  | TRACEFILT
  | TRACEBUFFER
  | MTPMU
  | BRBE
  | CSRE
deriving DecidableEq

/-- The value of an enumerator of `Cpu::Dbg_feature`, as cpu.hpp assigns it. -/
def Cpu.Dbg_feature.val : Cpu.Dbg_feature → Nat
  | .DEBUGVER => 0
  | .TRACEVER => 1
  | .PMUVER => 2
  | .BRPS => 3
  | .WRPS => 5
  | .CTXCMPS => 7
  | .PMSVER => 8
  | .DOUBLELOCK => 9
  | .TRACEFILT => 10
  | .TRACEBUFFER => 11
  | .MTPMU => 12
  | .BRBE => 13
  | .CSRE => 14

/-- The enumeration `Cpu::Isa_feature`. -/
inductive Cpu.Isa_feature where
  | AES
  | SHA1
  | SHA2
  | CRC32
  | ATOMIC
  | TME
  | RDM
  | SHA3
  | SM3
  | SM4
  | DP
  | FHM
  | TS
  | TLB
  | RNDR
  | DPB
  | APA
  | API
  | JSCVT
  | FCMA
  | LRCPC
  | GPA
  | GPI
  | FRINTTS
  | SB
  | SPECRES
  | BF16
  | DGH
  | I8MM
  | XS
  | LS64
  | WFXT
  | RPRES
deriving DecidableEq

/-- The value of an enumerator of `Cpu::Isa_feature`, as cpu.hpp assigns it. -/
def Cpu.Isa_feature.val : Cpu.Isa_feature → Nat
  | .AES => 1
  | .SHA1 => 2
  | .SHA2 => 3
  | .CRC32 => 4
  | .ATOMIC => 5
  | .TME => 6
  | .RDM => 7
  | .SHA3 => 8
  | .SM3 => 9
  | .SM4 => 10
  | .DP => 11
  | .FHM => 12
  | .TS => 13
  | .TLB => 14
  | .RNDR => 15
  | .DPB => 16
  | .APA => 17
  | .API => 18
  | .JSCVT => 19
  | .FCMA => 20
  | .LRCPC => 21
  | .GPA => 22
  | .GPI => 23
  | .FRINTTS => 24
  | .SB => 25
  | .SPECRES => 26
  | .BF16 => 27
  | .DGH => 28
  | .I8MM => 29
  | .XS => 30
  | .LS64 => 31
  | .WFXT => 32
  | .RPRES => 33

/-- The enumeration `Cpu::Mem_feature`. -/
inductive Cpu.Mem_feature where
  | PARANGE
  | ASIDBITS
  | BIGEND
  | SNSMEM
  | BIGEND_EL0
  | TGRAN16
  | TGRAN64
  | TGRAN4
  | TGRAN16_2
  | TGRAN64_2
  | TGRAN4_2
  | EXS
  | FGT
  | ECV
  | HAFDBS
  | VMIDBITS
  | VH
  | HPDS
  | LO
  | PAN
  | SPECSEI
  | XNX
  | TWED
  | ETS
  | HCX
  | AFP
  | NTLBPA
  | CNP
  | UAO
  | LSM
  | IESB
  | VARANGE
  | CCIDX
  | NV
  | ST
  | AT
  | IDS
  | FWB
  | TTL
  | BBM
  | EVT
  | E0PD
deriving DecidableEq

/-- The value of an enumerator of `Cpu::Mem_feature`, as cpu.hpp assigns it. -/
def Cpu.Mem_feature.val : Cpu.Mem_feature → Nat
  | .PARANGE => 0
  | .ASIDBITS => 1
  | .BIGEND => 2
  | .SNSMEM => 3
  | .BIGEND_EL0 => 4
  | .TGRAN16 => 5
  | .TGRAN64 => 6
  | .TGRAN4 => 7
  | .TGRAN16_2 => 8
  | .TGRAN64_2 => 9
  | .TGRAN4_2 => 10
  | .EXS => 11
  | .FGT => 14
  | .ECV => 15
  | .HAFDBS => 16
  | .VMIDBITS => 17
  | .VH => 18
  | .HPDS => 19
  | .LO => 20
  | .PAN => 21
  | .SPECSEI => 22
  | .XNX => 23
  | .TWED => 24
  | .ETS => 25
  | .HCX => 26
  | .AFP => 27
  | .NTLBPA => 28
  | .CNP => 32
  | .UAO => 33
  | .LSM => 34
  | .IESB => 35
  | .VARANGE => 36
  | .CCIDX => 37
  | .NV => 38
  | .ST => 39
  | .AT => 40
  | .IDS => 41
  | .FWB => 42
  | .TTL => 44
  | .BBM => 45
  | .EVT => 46
  | .E0PD => 47

/-- The 64-bit feature arrays of a CPU: `feat_cpu64`, `feat_dbg64`, `feat_isa64` and
`feat_mem64`, as the sequences of their words. -/
structure Cpu.Feat where
  feat_cpu64 : List Nat
  feat_dbg64 : List Nat
  feat_isa64 : List Nat
  feat_mem64 : List Nat
deriving DecidableEq

/-- The lengths that cpu.hpp declares: `feat_cpu64[2]`, `feat_dbg64[2]`,
`feat_isa64[3]` and `feat_mem64[3]`. -/
def Cpu.Feat.declared (F : Cpu.Feat) : Prop :=
  F.feat_cpu64.length = 2 ∧ F.feat_dbg64.length = 2 ∧ F.feat_isa64.length = 3 ∧
    F.feat_mem64.length = 3

/-- The expression `feat[f / 16] >> f % 16 * 4 & BIT_RANGE (3, 0)` that the four
overloads of `Cpu::feature` share, returned as an `unsigned`; an index outside
the array has no result. -/
def Cpu.feature_of (feat : List Nat) (f : Nat) : Option Nat :=
  match feat[f / 16]? with
  | none => none
  | some w => some (((w >>> (f % 16 * 4)) &&& BIT_RANGE 3 0) % 2 ^ 32)

/-- Source `Cpu::feature (Cpu_feature f)`. -/
def Cpu.feature_cpu (F : Cpu.Feat) (f : Cpu.Cpu_feature) : Option Nat :=
  Cpu.feature_of F.feat_cpu64 f.val

/-- Source `Cpu::feature (Dbg_feature f)`. -/
def Cpu.feature_dbg (F : Cpu.Feat) (f : Cpu.Dbg_feature) : Option Nat :=
  Cpu.feature_of F.feat_dbg64 f.val

/-- Source `Cpu::feature (Isa_feature f)`. -/
def Cpu.feature_isa (F : Cpu.Feat) (f : Cpu.Isa_feature) : Option Nat :=
  Cpu.feature_of F.feat_isa64 f.val

/-- Source `Cpu::feature (Mem_feature f)`. -/
def Cpu.feature_mem (F : Cpu.Feat) (f : Cpu.Mem_feature) : Option Nat :=
  Cpu.feature_of F.feat_mem64 f.val

/-- Sample feature arrays of the declared lengths. -/
def Cpu.Feat.sample : Cpu.Feat :=
  { feat_cpu64 := [0x1122, 0x21], feat_dbg64 := [0x6, 0], feat_isa64 := [0x120, 0, 0x3],
    feat_mem64 := [0x5, 0, 0x1000000000000000] }

/-! ## Reference-counted pointer (`refptr.hpp`) -/

/-- What is done to the object a `Refptr` refers to. -/
inductive Obj_op where
  | add_ref
  | del_ref
  | delete
deriving DecidableEq

/-- An object that derives from `Refcount`: its counter, and the operations applied
to it so far, oldest first. -/
structure Obj where
  rc : Refcount
  ops : List Obj_op
deriving DecidableEq

/-- The class `Refptr`: its only member `T * const ptr`. -/
structure Refptr where
  ptr : Ptr
deriving DecidableEq

/-- Source `Refptr (T *p) : ptr (p->add_ref() ? p : nullptr) {}` for the object `o`
at address `p`; `fuel` bounds the loop of `add_ref`. -/
def Refptr.new (fuel : Nat) (p : Ptr) (o : Obj) : Option (Refptr × Obj) :=
  match o.rc.add_ref fuel with
  | none => none
  | some (b, rc1) =>
    some ({ ptr := if b then p else nullptr }, { rc := rc1, ops := o.ops ++ [Obj_op.add_ref] })

/-- Source `~Refptr()`: `if (ptr && ptr->del_ref()) delete ptr;` for the object `o`
that `ptr` refers to when it is not null. -/
def Refptr.delete (r : Refptr) (o : Obj) : Obj :=
  if r.ptr ≠ nullptr then
    match o.rc.del_ref with
    | (true, rc1) => { rc := rc1, ops := o.ops ++ [Obj_op.del_ref, Obj_op.delete] }
    | (false, rc1) => { rc := rc1, ops := o.ops ++ [Obj_op.del_ref] }
  else o

/-! ## The grace-period coordinator on several CPUs (`rcu.cpp`)

`state` and `count` are shared by all CPUs; `l_batch`, `c_batch`, the three lists
and the hazard word exist once per CPU. An operation runs on one CPU and is
taken as one step. -/

/-- The CPU-local variables that rcu.cpp uses. -/
structure Rcu_cpu where
  l_batch : Nat
  c_batch : Nat
  next : Rcu_list
  curr : Rcu_list
  done : Rcu_list
  hazard : Nat
deriving DecidableEq

/-- What is recorded of an execution: the registration of a callback element on a
CPU and the batch number at that moment, a call of `quiet` on a CPU and the batch
number at that moment, a call of `start_batch`, and the invocation of the
callback of an element. -/
inductive Rcu_sys.Event where
  | call (cpu : Nat) (e : Ptr) (batch : Nat)
  | quiet (cpu : Nat) (batch : Nat)
  | start_batch (cpu : Nat) (s : Rcu.State)
  | invoke (cpu : Nat) (e : Ptr)
deriving DecidableEq

/-- The coordinator on `cpu_count` CPUs (`Cpu::count`): the shared words, the local
variables of each CPU, and the events so far, oldest first. -/
structure Rcu_sys where
  state : Nat
  count : Nat
  cpu_count : Nat
  cpus : Nat → Rcu_cpu
  trace : List Rcu_sys.Event

/-- The static initialisers of rcu.cpp on every CPU: batch 0 with only `RCU_CMP`
set, everything else zero or empty. -/
def Rcu_sys.init (E : Rcu.Env) (n : Nat) : Rcu_sys :=
  { state := E.RCU_CMP, count := 0, cpu_count := n,
    cpus := fun _ => { l_batch := 0, c_batch := 0, next := [], curr := [], done := [],
                       hazard := 0 },
    trace := [] }

/-- The variables as CPU `i` sees them, with an empty log. -/
def Rcu_sys.view (s : Rcu_sys) (i : Nat) : Rcu :=
  { state := s.state, count := s.count, l_batch := (s.cpus i).l_batch,
    c_batch := (s.cpus i).c_batch, next := (s.cpus i).next, curr := (s.cpus i).curr,
    done := (s.cpus i).done, hazard := (s.cpus i).hazard, cpu_count := s.cpu_count, log := [] }

/-- The CPU-local part of what a CPU sees. -/
def Rcu.cpu_part (r : Rcu) : Rcu_cpu :=
  { l_batch := r.l_batch, c_batch := r.c_batch, next := r.next, curr := r.curr, done := r.done,
    hazard := r.hazard }

/-- An event of one CPU as an event of the system. -/
def Rcu_sys.Event.of_rcu (i : Nat) : Rcu.Event → Rcu_sys.Event
  | .start_batch s => .start_batch i s
  | .invoke e => .invoke i e

/-- The system after CPU `i` has run an operation that left it `r`: the shared
words and the local variables of CPU `i` are taken from `r`, and the trace grows
by `pre` and the events that the operation logged. -/
def Rcu_sys.store (s : Rcu_sys) (i : Nat) (pre : List Rcu_sys.Event) (r : Rcu) : Rcu_sys :=
  { state := r.state, count := r.count, cpu_count := s.cpu_count,
    cpus := fun j => if j = i then r.cpu_part else s.cpus j,
    trace := s.trace ++ pre ++ r.log.map (Rcu_sys.Event.of_rcu i) }

/-- Modelled from the spec: `Rcu::call (e)` of rcu.hpp, which is not under src/:
"append `cb` to the local `next` list". -/
def Rcu.call (e : Ptr) (r : Rcu) : Rcu := { r with next := r.next ++ [e] }

/-- The operations of the coordinator, each on one CPU. -/
inductive Rcu_sys.Op where
  | call (cpu : Nat) (e : Ptr)
  | update (cpu : Nat)
  | quiet (cpu : Nat)
  | start_batch (cpu : Nat) (s : Rcu.State)
deriving DecidableEq

/-- The CPU an operation runs on. -/
def Rcu_sys.Op.cpu : Rcu_sys.Op → Nat
  | .call i _ => i
  | .update i => i
  | .quiet i => i
  | .start_batch i _ => i

/-- One operation as one step of the system. Only the CPUs below `Cpu::count`
exist; `fuel` bounds the loop of `start_batch`. -/
def Rcu_sys.step (E : Rcu.Env) (fuel : Nat) (s : Rcu_sys) (op : Rcu_sys.Op) : Option Rcu_sys :=
  if op.cpu < s.cpu_count then
    match op with
    | .call i e =>
      some (s.store i [Rcu_sys.Event.call i e (s.state >>> 2)] (Rcu.call e (s.view i)))
    | .update i => (Rcu.update E fuel (s.view i)).map (s.store i [])
    | .quiet i =>
      (Rcu.quiet E fuel (s.view i)).map (s.store i [Rcu_sys.Event.quiet i (s.state >>> 2)])
    | .start_batch i st => (Rcu.start_batch E fuel st (s.view i)).map (s.store i [])
  else none

/-- A finite sequence of operations, in order. -/
def Rcu_sys.run (E : Rcu.Env) (fuel : Nat) : List Rcu_sys.Op → Rcu_sys → Option Rcu_sys
  | [], s => some s
  | op :: ops, s =>
    match Rcu_sys.step E fuel s op with
    | none => none
    | some s1 => Rcu_sys.run E fuel ops s1

/-- The calling discipline of the coordinator: an element that is registered is not
null; `quiet` is called on a CPU only while the RCU bit of its hazard word is set
(the bit by which `update` asks for the report); `start_batch` is not called from
outside (it runs inside `quiet` and `update`). -/
def Rcu_sys.Op.allowed (s : Rcu_sys) : Rcu_sys.Op → Bool
  | .call _ e => decide (e ≠ nullptr)
  | .update _ => true
  | .quiet i => decide ((s.cpus i).hazard &&& Hazard.RCU ≠ 0)
  | .start_batch _ _ => false

/-- Whether every operation of a sequence is allowed in the state it is run in; the
check ends where a step does not return. -/
def Rcu_sys.guarded (E : Rcu.Env) (fuel : Nat) : List Rcu_sys.Op → Rcu_sys → Bool
  | [], _ => true
  | op :: ops, s =>
    op.allowed s &&
      (match Rcu_sys.step E fuel s op with
       | none => true
       | some s1 => Rcu_sys.guarded E fuel ops s1)

/-- What `complete (b)` may be taken to mean, in the spec's words "its batch is
complete": it holds only if the global batch is beyond `b`, or is `b` with
`RCU_CMP` set. -/
def Rcu.Env.complete_sound (E : Rcu.Env) : Prop :=
  ∀ state b : Nat, E.complete state b = true →
    b < state >>> 2 ∨ (b = state >>> 2 ∧ state &&& E.RCU_CMP ≠ 0)

/-- Modelled from the spec: the parameters of rcu.hpp with `RCU_CMP` bit 0, `RCU_PND`
bit 1 ("the phase word encodes `(batch << 2) | PND | CMP`") and `complete (b)`
true exactly when batch `b` is complete: the global batch is beyond `b`, or is `b`
with `RCU_CMP` set. -/
def Rcu.Env.standard : Rcu.Env :=
  { RCU_CMP := 1, RCU_PND := 2,
    complete := fun state b =>
      decide (b < state >>> 2) || (decide (b = state >>> 2) && decide (state &&& 1 ≠ 0)) }

/-- The number of CPUs, among the first `n`, that have called `quiet` during batch
`b` according to a trace. -/
def Rcu_sys.quieted (t : List Rcu_sys.Event) (n b : Nat) : Nat :=
  (List.range n).countP (fun j => decide (Rcu_sys.Event.quiet j b ∈ t))

/-- The registration that an event is, if it is one on CPU `i`: the element and the
batch number at the registration. -/
def Rcu_sys.Event.call_on (i : Nat) : Rcu_sys.Event → Option (Ptr × Nat)
  | .call j e b => if j = i then some (e, b) else none
  | _ => none

/-- The element that an event invokes, if it is an invocation on CPU `i`. -/
def Rcu_sys.Event.invoke_on (i : Nat) : Rcu_sys.Event → Option Ptr
  | .invoke j e => if j = i then some e else none
  | _ => none

/-- The registrations on CPU `i` in a trace, oldest first. -/
def Rcu_sys.calls (i : Nat) (t : List Rcu_sys.Event) : List (Ptr × Nat) :=
  t.filterMap (Rcu_sys.Event.call_on i)

/-- The elements invoked on CPU `i` in a trace, oldest first. -/
def Rcu_sys.invokes (i : Nat) (t : List Rcu_sys.Event) : List Ptr :=
  t.filterMap (Rcu_sys.Event.invoke_on i)

/-- A grace period in a trace for registration number `k` (counted from 0) on CPU
`i`: that registration is of the element `e`, at some batch `b`, and after it
every one of the `n` CPUs called `quiet` during one batch `c` later than `b`. -/
def Rcu_sys.grace (n : Nat) (t : List Rcu_sys.Event) (i k : Nat) (e : Ptr) : Prop :=
  ∃ (p1 p2 : List Rcu_sys.Event) (b c : Nat),
    t = p1 ++ Rcu_sys.Event.call i e b :: p2 ∧ (Rcu_sys.calls i p1).length = k ∧ b < c ∧
      ∀ j, j < n → Rcu_sys.Event.quiet j c ∈ p2

/-- Every invocation in a trace belongs to a registration of its own and comes
after the grace period of that registration: invocation number `k` on a CPU is of
the element of registration number `k` on that CPU, and that registration has had
its grace period before the invocation. -/
def Rcu_sys.safe (n : Nat) (t : List Rcu_sys.Event) : Prop :=
  ∀ (pre post : List Rcu_sys.Event) (i : Nat) (e : Ptr),
    t = pre ++ Rcu_sys.Event.invoke i e :: post →
      Rcu_sys.grace n pre i (Rcu_sys.invokes i pre).length e

/-- The batch numbers recorded in a trace do not go back: a report that precedes a
registration belongs to the batch of the registration or to an earlier one. -/
def Rcu_sys.ordered (t : List Rcu_sys.Event) : Prop :=
  ∀ (p1 p2 : List Rcu_sys.Event) (j : Nat) (e : Ptr) (b : Nat),
    t = p1 ++ Rcu_sys.Event.call j e b :: p2 →
      ∀ i c, Rcu_sys.Event.quiet i c ∈ p1 → c ≤ b

/-- The lists of CPU `j` against the trace: the registrations on `j`, in order, are
those already invoked, then those in `done`, then those in `curr`, then those in
`next`; the ones in `curr` were made before batch `c_batch`; the ones in `done`
have had their grace period. -/
def Rcu_sys.Queue (n : Nat) (t : List Rcu_sys.Event) (j : Nat)
    (done curr next : Rcu_list) (c_batch : Nat) : Prop :=
  ∃ ci cd cc cn : List (Ptr × Nat),
    Rcu_sys.calls j t = ci ++ (cd ++ (cc ++ cn)) ∧
    ci.map Prod.fst = Rcu_sys.invokes j t ∧
    cd.map Prod.fst = done ∧ cc.map Prod.fst = curr ∧ cn.map Prod.fst = next ∧
    (∀ x, x ∈ cc → x.2 < c_batch) ∧
    (∀ d1 x d2, cd = d1 ++ x :: d2 → Rcu_sys.grace n t j (ci.length + d1.length) x.1)

/-- The invariant of the disciplined executions, after at most `k` steps. -/
structure Rcu_sys.Inv (E : Rcu.Env) (k : Nat) (s : Rcu_sys) : Prop where
  /-- The state word is a 64-bit word. -/
  state_lt : s.state < 2 ^ 64
  /-- Every step starts at most one batch. -/
  batch_le : s.state >>> 2 ≤ k
  /-- The number of CPUs fits the 64-bit counter. -/
  count_lt : s.cpu_count < 2 ^ 64
  /-- No CPU has seen a batch that has not started. -/
  l_batch_le : ∀ j, j < s.cpu_count → (s.cpus j).l_batch ≤ s.state >>> 2
  /-- Batch 0 is complete from the start. -/
  first : s.state >>> 2 = 0 → s.state &&& E.RCU_CMP ≠ 0
  /-- A CPU that owes a report has seen the current batch, which is not complete,
  and has not reported in it. -/
  owes : ∀ j, j < s.cpu_count → (s.cpus j).hazard &&& Hazard.RCU ≠ 0 →
    (s.cpus j).l_batch = s.state >>> 2 ∧ s.state &&& E.RCU_CMP = 0 ∧
      Rcu_sys.Event.quiet j (s.state >>> 2) ∉ s.trace
  /-- A batch after the first is complete only when every CPU has reported in it. -/
  completed : s.state &&& E.RCU_CMP ≠ 0 → 1 ≤ s.state >>> 2 →
    ∀ j, j < s.cpu_count → Rcu_sys.Event.quiet j (s.state >>> 2) ∈ s.trace
  /-- A CPU that has reported in the current batch has seen it and owes nothing. -/
  reported : ∀ j, j < s.cpu_count → Rcu_sys.Event.quiet j (s.state >>> 2) ∈ s.trace →
    (s.cpus j).l_batch = s.state >>> 2 ∧ (s.cpus j).hazard &&& Hazard.RCU = 0
  /-- While the batch is not complete, `count` is the number of CPUs still to report. -/
  counted : s.state &&& E.RCU_CMP = 0 →
    s.count + Rcu_sys.quieted s.trace s.cpu_count (s.state >>> 2) = s.cpu_count
  /-- No report belongs to a batch that has not started. -/
  recent : ∀ j c, Rcu_sys.Event.quiet j c ∈ s.trace → c ≤ s.state >>> 2
  /-- In every earlier batch after the first, every CPU has reported. -/
  earlier : ∀ c, 1 ≤ c → c < s.state >>> 2 →
    ∀ j, j < s.cpu_count → Rcu_sys.Event.quiet j c ∈ s.trace
  /-- No registration is of a null element or belongs to a batch that has not
  started. -/
  registered : ∀ j e b, Rcu_sys.Event.call j e b ∈ s.trace →
    e ≠ nullptr ∧ b ≤ s.state >>> 2
  /-- The batch numbers in the trace do not go back. -/
  ordered : Rcu_sys.ordered s.trace
  /-- The lists of every CPU hold its registrations that are still to be invoked. -/
  queue : ∀ j, j < s.cpu_count →
    Rcu_sys.Queue s.cpu_count s.trace j (s.cpus j).done (s.cpus j).curr (s.cpus j).next
      (s.cpus j).c_batch
  /-- Every invocation so far belongs to a registration of its own and came after
  its grace period. -/
  safe : Rcu_sys.safe s.cpu_count s.trace

/-! ## Properties of the reference counter -/

theorem Refcount.add_ref_zero (fuel : Nat) :
    Refcount.add_ref (fuel + 1) { ref := 0 } = some (false, { ref := 0 }) := by
  simp [Refcount.add_ref]

theorem Refcount.add_ref_pos (fuel c : Nat) (hc : c ≠ 0) :
    Refcount.add_ref (fuel + 1) { ref := c } = some (true, { ref := (c + 1) % U32 }) := by
  simp [Refcount.add_ref, atomic_compare_exchange, hc]

theorem Refcount.del_ref_ref (c : Nat) :
    (Refcount.del_ref { ref := c }).2.ref = (c + U32 - 1) % U32 := by
  simp [Refcount.del_ref, atomic_sub_fetch, U32]

theorem Refcount.del_ref_flag (c : Nat) (hc : c < U32) :
    (Refcount.del_ref { ref := c }).1 = true ↔ c = 1 := by
  simp only [Refcount.del_ref, atomic_sub_fetch, U32, beq_iff_eq] at *
  omega

theorem Refcount.del_ref_true_zero (rc : Refcount) (h : rc.del_ref.1 = true) :
    rc.del_ref.2 = { ref := 0 } := by
  simp only [Refcount.del_ref, beq_iff_eq] at *
  simp [h]

/-- C1, counterexample: at the largest 32-bit count `add_ref` returns true and the
count it leaves is 0, not `c + 1`. -/
theorem Refcount.add_ref_wraps_at_max :
    Refcount.add_ref 1 { ref := 4294967295 } = some (true, { ref := 0 }) ∧
    Refcount.add_ref 1 { ref := 4294967295 } ≠ some (true, { ref := 4294967295 + 1 }) := by
  decide

/-- C1, amended: `add_ref` on a zero count returns false and leaves the count 0;
on every count `c ≥ 1` it returns true and leaves the count `(c + 1) mod 2^32`,
which is `c + 1` whenever `c + 1` fits in 32 bits. One pass of the loop suffices. -/
theorem Refcount.add_ref_refuses_zero_else_increments (fuel c : Nat) :
    (c = 0 → Refcount.add_ref (fuel + 1) { ref := c } = some (false, { ref := 0 })) ∧
    (1 ≤ c → Refcount.add_ref (fuel + 1) { ref := c } = some (true, { ref := (c + 1) % U32 })) ∧
    (1 ≤ c → c + 1 < U32 →
      Refcount.add_ref (fuel + 1) { ref := c } = some (true, { ref := c + 1 })) := by
  refine ⟨?_, ?_, ?_⟩
  · intro h
    subst h
    exact Refcount.add_ref_zero fuel
  · intro h
    exact Refcount.add_ref_pos fuel c (by omega)
  · intro h h1
    rw [Refcount.add_ref_pos fuel c (by omega), Nat.mod_eq_of_lt h1]

/-- C1, witness: a zero count is refused and the count 1 becomes 2. -/
theorem Refcount.add_ref_refuses_zero_else_increments_witness :
    Refcount.add_ref 1 { ref := 0 } = some (false, { ref := 0 }) ∧
    Refcount.add_ref 1 { ref := 1 } = some (true, { ref := 2 }) :=
  ⟨(Refcount.add_ref_refuses_zero_else_increments 0 0).1 rfl,
   (Refcount.add_ref_refuses_zero_else_increments 0 1).2.2 (by decide) (by decide)⟩

/-- C2: on a 32-bit count `c`, `del_ref` stores the count decremented by exactly
one (the count that `c` follows modulo 2^32, which is `c - 1` for `c ≥ 1`), and it
returns true if and only if the count before the call was 1, so false for every
other prior count. -/
theorem Refcount.del_ref_true_iff_was_one (c : Nat) (hc : c < U32) :
    (((Refcount.del_ref { ref := c }).2.ref + 1) % U32 = c) ∧
    ((Refcount.del_ref { ref := c }).2.ref < U32) ∧
    (1 ≤ c → (Refcount.del_ref { ref := c }).2.ref = c - 1) ∧
    ((Refcount.del_ref { ref := c }).1 = true ↔ (Refcount.del_ref { ref := c }).2.ref = 0) ∧
    ((Refcount.del_ref { ref := c }).1 = true ↔ c = 1) ∧
    (c ≠ 1 → (Refcount.del_ref { ref := c }).1 = false) := by
  have hflag := Refcount.del_ref_flag c hc
  refine ⟨?_, ?_, ?_, ?_, hflag, ?_⟩
  · rw [Refcount.del_ref_ref]
    simp only [U32] at *
    omega
  · rw [Refcount.del_ref_ref]
    simp only [U32] at *
    omega
  · intro h
    rw [Refcount.del_ref_ref]
    simp only [U32] at *
    omega
  · simp [Refcount.del_ref]
  · intro h
    cases hb : (Refcount.del_ref { ref := c }).1
    · rfl
    · exact absurd (hflag.mp hb) h

/-- C2, witness: from count 1 the result is true and the count 0; from count 2 the
result is false and the count 1. -/
theorem Refcount.del_ref_true_iff_was_one_witness :
    (Refcount.del_ref { ref := 1 }).1 = true ∧ (Refcount.del_ref { ref := 1 }).2.ref = 0 ∧
    (Refcount.del_ref { ref := 2 }).1 = false ∧ (Refcount.del_ref { ref := 2 }).2.ref = 1 :=
  ⟨(Refcount.del_ref_true_iff_was_one 1 (by decide)).2.2.2.2.1.mpr rfl,
   (Refcount.del_ref_true_iff_was_one 1 (by decide)).2.2.1 (by decide),
   (Refcount.del_ref_true_iff_was_one 2 (by decide)).2.2.2.2.2 (by decide),
   (Refcount.del_ref_true_iff_was_one 2 (by decide)).2.2.1 (by decide)⟩

/-- C3, counterexample: from count 1, a `del_ref` returns true; a second `del_ref`
in between wraps the zero count to 2^32 - 1, and the `add_ref` after it returns
true. -/
theorem Refcount.add_ref_succeeds_after_second_del_ref :
    (Refcount.del_ref { ref := 1 }).1 = true ∧
    Refcount.run 1 [RefOp.del_ref, RefOp.add_ref] (Refcount.del_ref { ref := 1 }).2
      = some ([(RefOp.del_ref, false), (RefOp.add_ref, true)], { ref := 0 }) := by
  decide

theorem Refcount.run_add_refs_zero (fuel : Nat) (ops : List RefOp)
    (hops : ∀ op ∈ ops, op = RefOp.add_ref) :
    Refcount.run (fuel + 1) ops { ref := 0 }
      = some (ops.map (fun op => (op, false)), { ref := 0 }) := by
  induction ops with
  | nil => rfl
  | cons op ops ih =>
    have hop : op = RefOp.add_ref := hops op (List.mem_cons_self _ _)
    have ih1 := ih (fun o ho => hops o (List.mem_cons_of_mem _ ho))
    subst hop
    simp [Refcount.run, Refcount.apply, Refcount.add_ref_zero, ih1]

/-- C3, amended: after a `del_ref` that returned true, every later `add_ref` on
the same counter returns false and the count stays 0, whatever finite sequence
of `add_ref` operations is applied in between (no further `del_ref` being applied
to the zero count). -/
theorem Refcount.add_ref_fails_after_final_del_ref (fuel : Nat) (rc : Refcount)
    (ops : List RefOp) (hdel : rc.del_ref.1 = true) (hops : ∀ op ∈ ops, op = RefOp.add_ref) :
    ∃ bs, Refcount.run (fuel + 1) (ops ++ [RefOp.add_ref]) rc.del_ref.2 = some (bs, { ref := 0 }) ∧
      bs.length = ops.length + 1 ∧ ∀ p ∈ bs, p = (RefOp.add_ref, false) := by
  rw [Refcount.del_ref_true_zero rc hdel]
  have hall : ∀ op ∈ ops ++ [RefOp.add_ref], op = RefOp.add_ref := by
    intro op hop
    rcases List.mem_append.mp hop with h | h
    · exact hops op h
    · simpa using h
  refine ⟨_, Refcount.run_add_refs_zero fuel _ hall, by simp, ?_⟩
  intro p hp
  rcases List.mem_map.mp hp with ⟨op, hop, rfl⟩
  rw [hall op hop]

/-- C3, witness: after the `del_ref` that takes the count from 1 to 0, three
`add_ref` calls in a row all return false. -/
theorem Refcount.add_ref_fails_after_final_del_ref_witness :
    ∃ bs, Refcount.run 1 ([RefOp.add_ref, RefOp.add_ref] ++ [RefOp.add_ref])
        (Refcount.del_ref { ref := 1 }).2 = some (bs, { ref := 0 }) ∧
      bs.length = [RefOp.add_ref, RefOp.add_ref].length + 1 ∧
      ∀ p ∈ bs, p = (RefOp.add_ref, false) :=
  Refcount.add_ref_fails_after_final_del_ref 0 { ref := 1 } [RefOp.add_ref, RefOp.add_ref]
    (by decide) (by decide)

theorem Refcount.add_ref_steps_done (n ref : Nat) (b : Bool) :
    Refcount.add_ref_steps n ref (AddRefPc.done b) = (ref, AddRefPc.done b) := by
  induction n with
  | zero => rfl
  | succ n ih => simp [Refcount.add_ref_steps, Refcount.add_ref_step, ih]

theorem Refcount.add_ref_steps_load (n c : Nat) :
    Refcount.add_ref_steps (n + 2) c AddRefPc.load
      = if c = 0 then (0, AddRefPc.done false) else ((c + 1) % U32, AddRefPc.done true) := by
  by_cases hc : c = 0
  · subst hc
    simp [Refcount.add_ref_steps, Refcount.add_ref_step, Refcount.add_ref_steps_done]
  · simp [Refcount.add_ref_steps, Refcount.add_ref_step, Refcount.add_ref_steps_done,
      atomic_compare_exchange, hc]

theorem Refcount.add_ref_steps_cas_stale (n c v : Nat) (hv : v ≠ c) :
    Refcount.add_ref_steps (n + 3) v (AddRefPc.cas c)
      = if v = 0 then (0, AddRefPc.done false) else ((v + 1) % U32, AddRefPc.done true) := by
  have h : Refcount.add_ref_steps (n + 3) v (AddRefPc.cas c)
      = Refcount.add_ref_steps (n + 2) v AddRefPc.load := by
    simp [Refcount.add_ref_steps, Refcount.add_ref_step, atomic_compare_exchange, hv]
  rw [h, Refcount.add_ref_steps_load]

theorem Refcount.del_ref_eq (c : Nat) (hc : c < U32) :
    Refcount.del_ref { ref := c }
      = (decide (c = 1), { ref := if c = 0 then 4294967295 else c - 1 }) := by
  have hU : U32 = 4294967296 := by decide
  rw [hU] at hc
  have hv : (c + 4294967296 - 1 % 4294967296) % 4294967296
      = if c = 0 then 4294967295 else c - 1 := by
    split <;> omega
  simp only [Refcount.del_ref, atomic_sub_fetch, hU, hv]
  by_cases h0 : c = 0
  · subst h0
    simp
  · by_cases h1 : c = 1
    · subst h1
      simp
    · have : c - 1 ≠ 0 := by omega
      simp [h0, h1, this]

/-- The atomic-step execution of `add_ref` without interference agrees with the
loop: both give the same flag and the same count. -/
theorem Refcount.add_ref_steps_eq_add_ref (n c : Nat) :
    Refcount.add_ref 1 { ref := c }
      = ((Refcount.add_ref_steps (n + 2) c AddRefPc.load).2.result).map
          (fun b => (b, { ref := (Refcount.add_ref_steps (n + 2) c AddRefPc.load).1 })) := by
  rw [Refcount.add_ref_steps_load]
  by_cases hc : c = 0
  · subst hc
    simp [Refcount.add_ref, AddRefPc.result]
  · simp [Refcount.add_ref, AddRefPc.result, atomic_compare_exchange, hc]


theorem Refcount.race_eq (fuel k c : Nat) :
    Refcount.race fuel k c
      = ((Refcount.add_ref_steps fuel
            (Refcount.del_ref { ref := (Refcount.add_ref_steps k c AddRefPc.load).1 }).2.ref
            (Refcount.add_ref_steps k c AddRefPc.load).2).2.result,
         (Refcount.del_ref { ref := (Refcount.add_ref_steps k c AddRefPc.load).1 }).1,
         (Refcount.add_ref_steps fuel
            (Refcount.del_ref { ref := (Refcount.add_ref_steps k c AddRefPc.load).1 }).2.ref
            (Refcount.add_ref_steps k c AddRefPc.load).2).1) := rfl

theorem Refcount.race_at_zero (fuel c : Nat) (hc : c < U32) :
    ∃ a d v, Refcount.race (fuel + 3) 0 c = (some a, d, v) ∧ (d = true → a = false) := by
  have hs : Refcount.add_ref_steps 0 c AddRefPc.load = (c, AddRefPc.load) := rfl
  rw [Refcount.race_eq, hs, Refcount.del_ref_eq c hc, Refcount.add_ref_steps_load]
  by_cases h1 : c = 1
  · subst h1
    exact ⟨false, true, 0, by simp [AddRefPc.result], by simp⟩
  · by_cases h0 : c = 0
    · subst h0
      exact ⟨true, false, (4294967295 + 1) % U32, by simp [AddRefPc.result], by simp⟩
    · have : c - 1 ≠ 0 := by omega
      exact ⟨true, false, (c - 1 + 1) % U32, by simp [AddRefPc.result, h0, h1, this], by simp⟩

theorem Refcount.race_at_one (fuel c : Nat) (hc : c < U32) :
    ∃ a d v, Refcount.race (fuel + 3) 1 c = (some a, d, v) ∧ (d = true → a = false) := by
  by_cases h0 : c = 0
  · subst h0
    have hs : Refcount.add_ref_steps 1 0 AddRefPc.load = (0, AddRefPc.done false) := rfl
    rw [Refcount.race_eq, hs, Refcount.del_ref_eq 0 hc, Refcount.add_ref_steps_done]
    exact ⟨false, false, 4294967295, by simp [AddRefPc.result], by simp⟩
  · have hs : Refcount.add_ref_steps 1 c AddRefPc.load = (c, AddRefPc.cas c) := by
      simp [Refcount.add_ref_steps, Refcount.add_ref_step, h0]
    have hne : c - 1 ≠ c := by omega
    rw [Refcount.race_eq, hs, Refcount.del_ref_eq c hc]
    simp only [if_neg h0]
    rw [Refcount.add_ref_steps_cas_stale fuel c (c - 1) hne]
    by_cases h1 : c = 1
    · subst h1
      exact ⟨false, true, 0, by simp [AddRefPc.result], by simp⟩
    · have : c - 1 ≠ 0 := by omega
      exact ⟨true, false, (c - 1 + 1) % U32, by simp [AddRefPc.result, h1, this], by simp⟩

theorem Refcount.race_at_later (fuel n c : Nat) (hc : c < U32) :
    ∃ a d v, Refcount.race (fuel + 3) (n + 2) c = (some a, d, v) ∧ (d = true → a = false) := by
  have hU : U32 = 4294967296 := by decide
  rw [Refcount.race_eq, Refcount.add_ref_steps_load]
  by_cases h0 : c = 0
  · subst h0
    simp only [if_true]
    rw [Refcount.del_ref_eq 0 hc, Refcount.add_ref_steps_done]
    exact ⟨false, false, 4294967295, by simp [AddRefPc.result], by simp⟩
  · have hlt : (c + 1) % U32 < U32 := by
      rw [hU]
      omega
    have hne : (c + 1) % U32 ≠ 1 := by
      rw [hU] at hc ⊢
      omega
    simp only [if_neg h0]
    rw [Refcount.del_ref_eq _ hlt, Refcount.add_ref_steps_done]
    exact ⟨true, false, if (c + 1) % U32 = 0 then 4294967295 else (c + 1) % U32 - 1,
      by simp [AddRefPc.result, hne], by simp⟩

theorem Refcount.run_del_add (fuel c : Nat) :
    Refcount.run (fuel + 1) [RefOp.del_ref, RefOp.add_ref] { ref := c }
      = (Refcount.add_ref (fuel + 1) (Refcount.del_ref { ref := c }).2).map
          (fun r => ([(RefOp.del_ref, (Refcount.del_ref { ref := c }).1), (RefOp.add_ref, r.1)], r.2)) := by
  generalize hd : Refcount.del_ref { ref := c } = d
  obtain ⟨d1, d2⟩ := d
  rw [Refcount.run, Refcount.apply, hd]
  simp only []
  rw [Refcount.run, Refcount.apply]
  cases h : Refcount.add_ref (fuel + 1) d2 with
  | none => simp
  | some r => simp [Refcount.run]

theorem Refcount.run_add_del (fuel c : Nat) :
    Refcount.run (fuel + 1) [RefOp.add_ref, RefOp.del_ref] { ref := c }
      = (Refcount.add_ref (fuel + 1) { ref := c }).map
          (fun r => ([(RefOp.add_ref, r.1), (RefOp.del_ref, (Refcount.del_ref r.2).1)],
            (Refcount.del_ref r.2).2)) := by
  cases h : Refcount.add_ref (fuel + 1) { ref := c } with
  | none => simp [Refcount.run, Refcount.apply, h]
  | some r => simp [Refcount.run, Refcount.apply, h]

/-- C4: for every 32-bit initial count, in both orders in which one `del_ref` and
one `add_ref` take effect as atomic operations, and also when the `del_ref` takes
effect after any number `k` of the atomic steps of the `add_ref` (between its load
and its compare-and-swap included), both calls return, and if the `del_ref`
returns true then the `add_ref` returns false. -/
theorem Refcount.race_del_ref_true_add_ref_false (fuel c : Nat) (hc : c < U32) :
    (∃ d a rc, Refcount.run (fuel + 1) [RefOp.del_ref, RefOp.add_ref] { ref := c }
        = some ([(RefOp.del_ref, d), (RefOp.add_ref, a)], rc) ∧ (d = true → a = false)) ∧
    (∃ a d rc, Refcount.run (fuel + 1) [RefOp.add_ref, RefOp.del_ref] { ref := c }
        = some ([(RefOp.add_ref, a), (RefOp.del_ref, d)], rc) ∧ (d = true → a = false)) ∧
    (∀ k, ∃ a d v, Refcount.race (fuel + 3) k c = (some a, d, v) ∧ (d = true → a = false)) := by
  have hU : U32 = 4294967296 := by decide
  refine ⟨?_, ?_, ?_⟩
  · rw [Refcount.run_del_add, Refcount.del_ref_eq c hc]
    by_cases h1 : c = 1
    · subst h1
      exact ⟨true, false, { ref := 0 }, by simp [Refcount.add_ref_zero], by simp⟩
    · have hv : (if c = 0 then 4294967295 else c - 1) ≠ 0 := by
        split <;> omega
      refine ⟨false, true, { ref := ((if c = 0 then 4294967295 else c - 1) + 1) % U32 }, ?_,
        by simp⟩
      rw [Refcount.add_ref_pos fuel _ hv]
      simp [h1]
  · rw [Refcount.run_add_del]
    by_cases h0 : c = 0
    · subst h0
      rw [Refcount.add_ref_zero]
      exact ⟨false, false, { ref := 4294967295 }, by simp [Refcount.del_ref_eq 0 hc], by simp⟩
    · have hlt : (c + 1) % U32 < U32 := by
        rw [hU]
        omega
      have hne : (c + 1) % U32 ≠ 1 := by
        rw [hU] at hc ⊢
        omega
      rw [Refcount.add_ref_pos fuel _ h0]
      refine ⟨true, false,
        { ref := if (c + 1) % U32 = 0 then 4294967295 else (c + 1) % U32 - 1 }, ?_, by simp⟩
      simp [Refcount.del_ref_eq _ hlt, hne]
  · intro k
    match k with
    | 0 => exact Refcount.race_at_zero fuel c hc
    | 1 => exact Refcount.race_at_one fuel c hc
    | n + 2 => exact Refcount.race_at_later fuel n c hc

/-- C4, witness: count 1, the `del_ref` taking effect between the load and the
compare-and-swap of the `add_ref`. -/
theorem Refcount.race_del_ref_true_add_ref_false_witness :
    ∃ a d v, Refcount.race 3 1 1 = (some a, d, v) ∧ (d = true → a = false) :=
  (Refcount.race_del_ref_true_add_ref_false 0 1 (by decide)).2.2 1

/-! ## Bit-level lemmas -/

theorem eq_zero_iff_testBit (x : Nat) : x = 0 ↔ ∀ i, x.testBit i = false := by
  constructor
  · intro h i
    simp [h]
  · intro h
    apply Nat.eq_of_testBit_eq
    intro i
    simp [h i]

theorem ne_zero_of_testBit (x i : Nat) (h : x.testBit i = true) : x ≠ 0 := by
  intro h0
  rw [h0, Nat.zero_testBit] at h
  exact Bool.false_ne_true h

theorem or_eq_zero_iff (x y : Nat) : x ||| y = 0 ↔ x = 0 ∧ y = 0 := by
  simp only [eq_zero_iff_testBit, Nat.testBit_or, Bool.or_eq_false_iff]
  constructor
  · intro h
    exact ⟨fun i => (h i).1, fun i => (h i).2⟩
  · intro h i
    exact ⟨h.1 i, h.2 i⟩

theorem and_or_eq_zero_iff (a x y : Nat) : a &&& (x ||| y) = 0 ↔ a &&& x = 0 ∧ a &&& y = 0 := by
  rw [Nat.and_or_distrib_left, or_eq_zero_iff]

theorem and_two_pow_eq_zero_iff (x n : Nat) : x &&& 2 ^ n = 0 ↔ x.testBit n = false := by
  rw [eq_zero_iff_testBit]
  constructor
  · intro h
    have := h n
    simpa [Nat.testBit_and, Nat.testBit_two_pow_self] using this
  · intro h i
    rw [Nat.testBit_and, Nat.testBit_two_pow]
    by_cases hi : n = i
    · subst hi
      simp [h]
    · simp [hi]

theorem and_BIT_eq_zero_iff (x n : Nat) : x &&& BIT n = 0 ↔ x.testBit n = false := by
  rw [BIT, Nat.one_shiftLeft, and_two_pow_eq_zero_iff]

theorem and_BIT_ne_zero_iff (x n : Nat) : x &&& BIT n ≠ 0 ↔ x.testBit n = true := by
  rw [Ne, and_BIT_eq_zero_iff]
  simp

theorem testBit_BIT (n i : Nat) : (BIT n).testBit i = decide (n = i) := by
  rw [BIT, Nat.one_shiftLeft, Nat.testBit_two_pow]

theorem testBit_not32 (x i : Nat) : (not32 x).testBit i = (decide (i < 32) && !x.testBit i) := by
  unfold not32 U32
  rw [Nat.testBit_xor, Nat.testBit_two_pow_sub_one, Nat.testBit_mod_two_pow]
  by_cases hi : i < 32 <;> simp [hi]

theorem and_BIT_eq_and_BIT_iff (x y n : Nat) :
    x &&& BIT n = y &&& BIT n ↔ x.testBit n = y.testBit n := by
  constructor
  · intro h
    have := congrArg (fun z => z.testBit n) h
    simpa [Nat.testBit_and, testBit_BIT] using this
  · intro h
    apply Nat.eq_of_testBit_eq
    intro i
    rw [Nat.testBit_and, Nat.testBit_and, testBit_BIT]
    by_cases hi : n = i
    · subst hi
      simp [h]
    · simp [hi]

/-- The gate of `handle_hazard` is open exactly when `h` has one of its four bits. -/
theorem gate_eq_zero_iff (K : Consts) (h : Nat) :
    h &&& (Hazard.ILLEGAL ||| Hazard.RECALL ||| K.SLEEP ||| Hazard.SCHED) = 0 ↔
      h &&& Hazard.ILLEGAL = 0 ∧ h &&& Hazard.RECALL = 0 ∧ h &&& K.SLEEP = 0 ∧
        h &&& Hazard.SCHED = 0 := by
  rw [and_or_eq_zero_iff, and_or_eq_zero_iff, and_or_eq_zero_iff]
  tauto

/-- The value read back by `ep` after `set_ep (val)`: the low 38 bits of `val`. -/
theorem Exc_regs.ep_set_ep (r : Exc_regs) (val : Nat) : (r.set_ep val).ep = val % 2 ^ 38 := by
  simp only [Exc_regs.ep, Exc_regs.set_ep, Nat.shiftLeft_eq, Nat.shiftRight_eq_div_pow]
  norm_num
  omega


/-! ## Properties of the dispatcher -/

theorem Ec_arch.mask_hst_eq (K : Consts) :
    Ec_arch.mask_hst K = Spec.events_hst K ||| Hazard.FPU := by
  apply Nat.eq_of_testBit_eq
  intro i
  simp only [Ec_arch.mask_hst, Spec.events_hst, Nat.testBit_or]
  cases Hazard.ILLEGAL.testBit i <;> cases Hazard.RECALL.testBit i <;>
    cases Hazard.FPU.testBit i <;> cases Hazard.BOOT_HST.testBit i <;>
    cases Hazard.RCU.testBit i <;> cases K.SLEEP.testBit i <;> simp

theorem Ec_arch.mask_gst_eq (K : Consts) :
    Ec_arch.mask_gst K = Spec.events_gst K ||| Hazard.FPU := by
  apply Nat.eq_of_testBit_eq
  intro i
  simp only [Ec_arch.mask_gst, Spec.events_gst, Nat.testBit_or]
  cases Hazard.ILLEGAL.testBit i <;> cases Hazard.RECALL.testBit i <;>
    cases Hazard.FPU.testBit i <;> cases Hazard.BOOT_GST.testBit i <;>
    cases Hazard.RCU.testBit i <;> cases K.SLEEP.testBit i <;> simp

/-- On a mask `E ||| FPU`, the XOR of two words equals the stated form (OR on `E`,
XOR on FPU) exactly when no bit of `E` is set in both words. -/
theorem xor_and_eq_effective_iff (E c e : Nat) :
    (c ^^^ e) &&& (E ||| Hazard.FPU) = Spec.effective_hazard E c e ↔ c &&& e &&& E = 0 := by
  constructor
  · intro h
    rw [eq_zero_iff_testBit]
    intro i
    have hi := congrArg (fun z => z.testBit i) h
    simp only [Spec.effective_hazard, Nat.testBit_and, Nat.testBit_or, Nat.testBit_xor] at hi
    rw [Nat.testBit_and, Nat.testBit_and]
    revert hi
    cases c.testBit i <;> cases e.testBit i <;> cases E.testBit i <;>
      cases Hazard.FPU.testBit i <;> simp
  · intro h
    rw [eq_zero_iff_testBit] at h
    apply Nat.eq_of_testBit_eq
    intro i
    have hi := h i
    simp only [Spec.effective_hazard, Nat.testBit_and, Nat.testBit_or, Nat.testBit_xor] at hi ⊢
    revert hi
    cases c.testBit i <;> cases e.testBit i <;> cases E.testBit i <;>
      cases Hazard.FPU.testBit i <;> simp

theorem Spec.events_hst_testBit_zero (K : Consts) : (Spec.events_hst K).testBit 0 = true := by
  rw [Spec.events_hst, Nat.testBit_or, Hazard.SCHED, HZD_SCHED, testBit_BIT]
  simp only [decide_True, Bool.or_true]

theorem Spec.events_gst_testBit_zero (K : Consts) : (Spec.events_gst K).testBit 0 = true := by
  rw [Spec.events_gst, Nat.testBit_or, Hazard.SCHED, HZD_SCHED, testBit_BIT]
  simp only [decide_True, Bool.or_true]

theorem Spec.sched_and_events_ne_zero (E : Nat) (hE : E.testBit 0 = true) :
    Hazard.SCHED &&& Hazard.SCHED &&& E ≠ 0 := by
  apply ne_zero_of_testBit _ 0
  rw [Nat.testBit_and, Nat.testBit_and, Hazard.SCHED, HZD_SCHED, testBit_BIT, hE]
  simp only [decide_True, Bool.and_self]

/-- C5, counterexample: with `SCHED` set in both the CPU word and the EC word, the
value `h` of each return path is 0 whatever the constants are, while the stated
form (OR on the event-style bits) contains `SCHED`; at the sample constants the
two values are 0 and 1. -/
theorem Ec_arch.hazard_differs_from_or_when_both_set :
    (¬ ∃ K : Consts,
      Ec_arch.hazard_hypercall K Hazard.SCHED Hazard.SCHED
          = Spec.effective_hazard (Spec.events_hst K) Hazard.SCHED Hazard.SCHED ∨
        Ec_arch.hazard_exception K Hazard.SCHED Hazard.SCHED
          = Spec.effective_hazard (Spec.events_hst K) Hazard.SCHED Hazard.SCHED ∨
        Ec_arch.hazard_vmexit K Hazard.SCHED Hazard.SCHED
          = Spec.effective_hazard (Spec.events_gst K) Hazard.SCHED Hazard.SCHED) ∧
    Ec_arch.hazard_hypercall Consts.sample 1 1 = 0 ∧
    Spec.effective_hazard (Spec.events_hst Consts.sample) 1 1 = 1 := by
  refine ⟨?_, by decide, by decide⟩
  rintro ⟨K, h | h | h⟩
  · rw [Ec_arch.hazard_hypercall, Ec_arch.mask_hst_eq, xor_and_eq_effective_iff] at h
    exact Spec.sched_and_events_ne_zero _ (Spec.events_hst_testBit_zero K) h
  · rw [Ec_arch.hazard_exception, Ec_arch.mask_hst_eq, xor_and_eq_effective_iff] at h
    exact Spec.sched_and_events_ne_zero _ (Spec.events_hst_testBit_zero K) h
  · rw [Ec_arch.hazard_vmexit, Ec_arch.mask_gst_eq, xor_and_eq_effective_iff] at h
    exact Spec.sched_and_events_ne_zero _ (Spec.events_gst_testBit_zero K) h

/-- C5, amended: for every CPU hazard word `c` and EC hazard word `e`, the value
`h` computed by each return path is the XOR of `c` and `e` on the event-style
bits of that path's mask combined with their XOR on the FPU bit; it equals the
OR form of the specification exactly when no event-style bit of the mask is set
in both words. -/
theorem Ec_arch.hazard_is_xor_on_mask (K : Consts) (c e : Nat) :
    Ec_arch.hazard_hypercall K c e
      = ((c ^^^ e) &&& Spec.events_hst K) ||| ((c ^^^ e) &&& Hazard.FPU) ∧
    Ec_arch.hazard_exception K c e
      = ((c ^^^ e) &&& Spec.events_hst K) ||| ((c ^^^ e) &&& Hazard.FPU) ∧
    Ec_arch.hazard_vmexit K c e
      = ((c ^^^ e) &&& Spec.events_gst K) ||| ((c ^^^ e) &&& Hazard.FPU) ∧
    (Ec_arch.hazard_hypercall K c e = Spec.effective_hazard (Spec.events_hst K) c e ↔
      c &&& e &&& Spec.events_hst K = 0) ∧
    (Ec_arch.hazard_exception K c e = Spec.effective_hazard (Spec.events_hst K) c e ↔
      c &&& e &&& Spec.events_hst K = 0) ∧
    (Ec_arch.hazard_vmexit K c e = Spec.effective_hazard (Spec.events_gst K) c e ↔
      c &&& e &&& Spec.events_gst K = 0) := by
  refine ⟨?_, ?_, ?_, ?_, ?_, ?_⟩
  · rw [Ec_arch.hazard_hypercall, Ec_arch.mask_hst_eq, Nat.and_or_distrib_left]
  · rw [Ec_arch.hazard_exception, Ec_arch.mask_hst_eq, Nat.and_or_distrib_left]
  · rw [Ec_arch.hazard_vmexit, Ec_arch.mask_gst_eq, Nat.and_or_distrib_left]
  · rw [Ec_arch.hazard_hypercall, Ec_arch.mask_hst_eq, xor_and_eq_effective_iff]
  · rw [Ec_arch.hazard_exception, Ec_arch.mask_hst_eq, xor_and_eq_effective_iff]
  · rw [Ec_arch.hazard_vmexit, Ec_arch.mask_gst_eq, xor_and_eq_effective_iff]

theorem gate_ne_zero_of_illegal (K : Consts) (h : Nat) (hI : h &&& Hazard.ILLEGAL ≠ 0) :
    h &&& (Hazard.ILLEGAL ||| Hazard.RECALL ||| K.SLEEP ||| Hazard.SCHED) ≠ 0 := by
  intro h0
  exact hI ((gate_eq_zero_iff K h).mp h0).1

theorem gate_ne_zero_of_recall (K : Consts) (h : Nat) (hR : h &&& Hazard.RECALL ≠ 0) :
    h &&& (Hazard.ILLEGAL ||| Hazard.RECALL ||| K.SLEEP ||| Hazard.SCHED) ≠ 0 := by
  intro h0
  exact hR ((gate_eq_zero_iff K h).mp h0).2.1

theorem gate_ne_zero_of_sleep (K : Consts) (h : Nat) (hS : h &&& K.SLEEP ≠ 0) :
    h &&& (Hazard.ILLEGAL ||| Hazard.RECALL ||| K.SLEEP ||| Hazard.SCHED) ≠ 0 := by
  intro h0
  exact hS ((gate_eq_zero_iff K h).mp h0).2.2.1

theorem gate_ne_zero_of_sched (K : Consts) (h : Nat) (hC : h &&& Hazard.SCHED ≠ 0) :
    h &&& (Hazard.ILLEGAL ||| Hazard.RECALL ||| K.SLEEP ||| Hazard.SCHED) ≠ 0 := by
  intro h0
  exact hC ((gate_eq_zero_iff K h).mp h0).2.2.2

/-- With the gate open and `SLEEP` pending on the CPU word, `handle_hazard` stores
`func` and enters `Cpu::fini`. -/
theorem Ec.handle_hazard_fini (K : Consts) (h : Nat) (func : cont_t) (m : Machine)
    (hg : h &&& (Hazard.ILLEGAL ||| Hazard.RECALL ||| K.SLEEP ||| Hazard.SCHED) ≠ 0)
    (hS : m.cpu.hazard &&& K.SLEEP ≠ 0) :
    Ec.handle_hazard K h func m = Outcome.fini (m.set_cont func) := by
  simp only [Ec.handle_hazard, Cpu.preemption_point, if_pos hg, if_pos hS]

/-- With the gate open, no `SLEEP` and `SCHED` pending on the CPU word,
`handle_hazard` stores `func` and enters the scheduler. -/
theorem Ec.handle_hazard_schedule (K : Consts) (h : Nat) (func : cont_t) (m : Machine)
    (hg : h &&& (Hazard.ILLEGAL ||| Hazard.RECALL ||| K.SLEEP ||| Hazard.SCHED) ≠ 0)
    (hS : m.cpu.hazard &&& K.SLEEP = 0) (hC : m.cpu.hazard &&& Hazard.SCHED ≠ 0) :
    Ec.handle_hazard K h func m = Outcome.schedule (m.set_cont func) := by
  have hS1 : ¬ (m.cpu.hazard &&& K.SLEEP ≠ 0) := not_not.mpr hS
  simp only [Ec.handle_hazard, Cpu.preemption_point, if_pos hg, if_neg hS1, if_pos hC]

/-- With neither `SLEEP` nor `SCHED` pending on the CPU word and `ILLEGAL` in `h`,
`handle_hazard` kills the EC and changes nothing. -/
theorem Ec.handle_hazard_kill (K : Consts) (h : Nat) (func : cont_t) (m : Machine)
    (hI : h &&& Hazard.ILLEGAL ≠ 0)
    (hS : m.cpu.hazard &&& K.SLEEP = 0) (hC : m.cpu.hazard &&& Hazard.SCHED = 0) :
    Ec.handle_hazard K h func m = Outcome.kill "Illegal execution state" m := by
  have hS1 : ¬ (m.cpu.hazard &&& K.SLEEP ≠ 0) := not_not.mpr hS
  have hC1 : ¬ (m.cpu.hazard &&& Hazard.SCHED ≠ 0) := not_not.mpr hC
  simp only [Ec.handle_hazard, Cpu.preemption_point, if_pos (gate_ne_zero_of_illegal K h hI),
    if_neg hS1, if_neg hC1, if_pos hI]

/-- The part of `handle_hazard` after the point of no return always returns. -/
theorem Ec.handle_hazard_run_ret (K : Consts) (h : Nat) (m : Machine) :
    ∃ m1, Ec.handle_hazard_run K h m = Outcome.ret m1 := ⟨_, rfl⟩

/-- Whenever `handle_hazard` enters `Cpu::fini` or the scheduler, the state it
leaves is the state on entry with `cont = func`. -/
theorem Ec.handle_hazard_reload (K : Consts) (h : Nat) (func : cont_t) (m o : Machine)
    (ho : Ec.handle_hazard K h func m = Outcome.fini o ∨
      Ec.handle_hazard K h func m = Outcome.schedule o) :
    o = m.set_cont func := by
  unfold Ec.handle_hazard at ho
  simp only [Cpu.preemption_point] at ho
  obtain ⟨m1, hrun⟩ := Ec.handle_hazard_run_ret K h m
  rw [hrun] at ho
  split_ifs at ho <;> simp_all

/-- C6: for every `handle_hazard` call whose `h` contains `ILLEGAL` while the EC's
hazard word has `RECALL` set and the CPU has neither `SLEEP` nor `SCHED` pending,
the EC is killed with the reason "Illegal execution state" in an unchanged state:
the EC's `RECALL` bit is still set, its entry-point selector is not rewritten and
no message is sent. -/
theorem Ec.handle_hazard_illegal_wins_over_recall (K : Consts) (h : Nat) (func : cont_t)
    (m : Machine) (hI : h &&& Hazard.ILLEGAL ≠ 0)
    (hR : m.ec.regs.hazard &&& Hazard.RECALL ≠ 0)
    (hS : m.cpu.hazard &&& K.SLEEP = 0) (hC : m.cpu.hazard &&& Hazard.SCHED = 0) :
    Ec.handle_hazard K h func m = Outcome.kill "Illegal execution state" m ∧
    (Ec.handle_hazard K h func m).machine.ec.regs.hazard &&& Hazard.RECALL ≠ 0 ∧
    (Ec.handle_hazard K h func m).machine.ec.regs.hazard = m.ec.regs.hazard ∧
    (Ec.handle_hazard K h func m).machine.ec.exc_regs.ep = m.ec.exc_regs.ep ∧
    (∀ c m1, Ec.handle_hazard K h func m ≠ Outcome.send_msg c m1) := by
  rw [Ec.handle_hazard_kill K h func m hI hS hC]
  exact ⟨rfl, hR, rfl, rfl, fun c m1 hne => by cases hne⟩

/-- C6, witness: a vCPU with `ILLEGAL` and `RECALL` both set and an idle CPU word. -/
theorem Ec.handle_hazard_illegal_wins_over_recall_witness :
    Ec.handle_hazard Consts.sample (Hazard.ILLEGAL ||| Hazard.RECALL) cont_t.ret_user_vmexit
        (Machine.sample Consts.sample 0 5 (Hazard.ILLEGAL ||| Hazard.RECALL))
      = Outcome.kill "Illegal execution state"
          (Machine.sample Consts.sample 0 5 (Hazard.ILLEGAL ||| Hazard.RECALL)) :=
  (Ec.handle_hazard_illegal_wins_over_recall Consts.sample (Hazard.ILLEGAL ||| Hazard.RECALL)
    cont_t.ret_user_vmexit (Machine.sample Consts.sample 0 5 (Hazard.ILLEGAL ||| Hazard.RECALL))
    (by decide) (by decide) (by decide) (by decide)).1

/-- A bit set that is pending on the CPU word only shows in `(c ^ e) & M` when the
mask `M` contains it. -/
theorem xor_and_mask_and_ne_zero (c e S M : Nat)
    (hM : ∀ i, S.testBit i = true → M.testBit i = true)
    (hc : c &&& S ≠ 0) (he : e &&& S = 0) : ((c ^^^ e) &&& M) &&& S ≠ 0 := by
  obtain ⟨i, hi⟩ := Nat.ne_zero_implies_bit_true hc
  rw [Nat.testBit_and, Bool.and_eq_true] at hi
  have hei := (eq_zero_iff_testBit _).mp he i
  rw [Nat.testBit_and, hi.2, Bool.and_true] at hei
  apply ne_zero_of_testBit _ i
  rw [Nat.testBit_and, Nat.testBit_and, Nat.testBit_xor, hi.1, hi.2, hei, hM i hi.2]
  rfl

theorem Ec_arch.mask_hst_sleep (K : Consts) (i : Nat) (h : K.SLEEP.testBit i = true) :
    (Ec_arch.mask_hst K).testBit i = true := by
  simp only [Ec_arch.mask_hst, Nat.testBit_or, h, Bool.or_true, Bool.true_or]

theorem Ec_arch.mask_gst_sleep (K : Consts) (i : Nat) (h : K.SLEEP.testBit i = true) :
    (Ec_arch.mask_gst K).testBit i = true := by
  simp only [Ec_arch.mask_gst, Nat.testBit_or, h, Bool.or_true, Bool.true_or]

theorem ne_zero_of_and_ne_zero (x y : Nat) (h : x &&& y ≠ 0) : x ≠ 0 := by
  intro h0
  rw [h0, Nat.zero_and] at h
  exact h rfl

/-- C7: for every dispatcher pass that observes `SLEEP` (in `h` and pending on the
CPU word, where the code tests it), whether or not it observes `SCHED` as well,
`handle_hazard` stores the calling return path `func` as the EC's continuation
and enters `Cpu::fini`; the scheduler is not entered. In each reload case the state at the
moment of yielding is the state on entry with `cont = func`, and the scheduler is
entered, with `cont = func`, when `SCHED` is observed and pending without `SLEEP`. The same
holds for the three return paths as a whole when the EC word carries no `SLEEP`
bit: each stores itself and enters `Cpu::fini`. -/
theorem Ec.handle_hazard_sleep_before_sched (K : Consts) (h : Nat) (func : cont_t)
    (m : Machine) (hS : h &&& K.SLEEP ≠ 0) (hcS : m.cpu.hazard &&& K.SLEEP ≠ 0) :
    Ec.handle_hazard K h func m = Outcome.fini (m.set_cont func) ∧
    (Ec.handle_hazard K h func m).machine.ec.cont = some func ∧
    (∀ m1, Ec.handle_hazard K h func m ≠ Outcome.schedule m1) ∧
    (∀ (h1 : Nat) (func1 : cont_t) (m1 o : Machine),
      (Ec.handle_hazard K h1 func1 m1 = Outcome.fini o ∨
        Ec.handle_hazard K h1 func1 m1 = Outcome.schedule o) →
      o = m1.set_cont func1 ∧ o.ec.cont = some func1) ∧
    (∀ (h1 : Nat) (func1 : cont_t) (m1 : Machine),
      h1 &&& Hazard.SCHED ≠ 0 → m1.cpu.hazard &&& K.SLEEP = 0 →
      m1.cpu.hazard &&& Hazard.SCHED ≠ 0 →
      Ec.handle_hazard K h1 func1 m1 = Outcome.schedule (m1.set_cont func1)) ∧
    (m.ec.regs.hazard &&& K.SLEEP = 0 →
      Ec_arch.ret_user_hypercall K m = Outcome.fini (m.set_cont cont_t.ret_user_hypercall) ∧
      Ec_arch.ret_user_exception K m = Outcome.fini (m.set_cont cont_t.ret_user_exception) ∧
      Ec_arch.ret_user_vmexit K m = Outcome.fini (m.set_cont cont_t.ret_user_vmexit)) := by
  have hfini := Ec.handle_hazard_fini K h func m (gate_ne_zero_of_sleep K h hS) hcS
  refine ⟨hfini, ?_, ?_, ?_, ?_, ?_⟩
  · rw [hfini]
    rfl
  · intro m1 hm1
    rw [hfini] at hm1
    cases hm1
  · intro h1 func1 m1 o ho
    have := Ec.handle_hazard_reload K h1 func1 m1 o ho
    subst this
    exact ⟨rfl, rfl⟩
  · intro h1 func1 m1 h1C hm1S hm1C
    exact Ec.handle_hazard_schedule K h1 func1 m1 (gate_ne_zero_of_sched K h1 h1C) hm1S hm1C
  · intro heS
    have hh := xor_and_mask_and_ne_zero m.cpu.hazard m.ec.regs.hazard K.SLEEP
      (Ec_arch.mask_hst K) (Ec_arch.mask_hst_sleep K) hcS heS
    have hg := xor_and_mask_and_ne_zero m.cpu.hazard m.ec.regs.hazard K.SLEEP
      (Ec_arch.mask_gst K) (Ec_arch.mask_gst_sleep K) hcS heS
    refine ⟨?_, ?_, ?_⟩
    · simp only [Ec_arch.ret_user_hypercall, Ec_arch.hazard_hypercall,
        if_pos (ne_zero_of_and_ne_zero _ _ hh),
        Ec.handle_hazard_fini K _ _ m (gate_ne_zero_of_sleep K _ hh) hcS, Outcome.then_eret]
    · simp only [Ec_arch.ret_user_exception, Ec_arch.hazard_exception,
        if_pos (ne_zero_of_and_ne_zero _ _ hh),
        Ec.handle_hazard_fini K _ _ m (gate_ne_zero_of_sleep K _ hh) hcS, Outcome.then_eret]
    · simp only [Ec_arch.ret_user_vmexit, Ec_arch.hazard_vmexit,
        if_pos (ne_zero_of_and_ne_zero _ _ hg),
        Ec.handle_hazard_fini K _ _ m (gate_ne_zero_of_sleep K _ hg) hcS, Outcome.then_eret]

/-- C7, witness: CPU hazard word `SLEEP | SCHED` (3 at the sample constants), EC
hazard word 0, on the `ret_user_exception` path. -/
theorem Ec.handle_hazard_sleep_before_sched_witness :
    Ec.handle_hazard Consts.sample 3 cont_t.ret_user_exception (Machine.sample Consts.sample 3 5 0)
      = Outcome.fini ((Machine.sample Consts.sample 3 5 0).set_cont cont_t.ret_user_exception) ∧
    Ec_arch.ret_user_exception Consts.sample (Machine.sample Consts.sample 3 5 0)
      = Outcome.fini ((Machine.sample Consts.sample 3 5 0).set_cont cont_t.ret_user_exception) :=
  ⟨(Ec.handle_hazard_sleep_before_sched Consts.sample 3 cont_t.ret_user_exception
      (Machine.sample Consts.sample 3 5 0) (by decide) (by decide)).1,
   ((Ec.handle_hazard_sleep_before_sched Consts.sample 3 cont_t.ret_user_exception
      (Machine.sample Consts.sample 3 5 0) (by decide) (by decide)).2.2.2.2.2
      (by decide)).2.1⟩

theorem Ec_arch.mask_gst_testBit_recall (K : Consts) : (Ec_arch.mask_gst K).testBit 30 = true := by
  rw [Ec_arch.mask_gst]
  simp only [Nat.testBit_or, Hazard.RECALL, HZD_RECALL, testBit_BIT, decide_True, Bool.or_true,
    Bool.true_or]

theorem Hazard.clr_and_BIT (x n : Nat) : Hazard.clr x (BIT n) &&& BIT n = 0 := by
  rw [and_BIT_eq_zero_iff, Hazard.clr, Nat.testBit_and, testBit_not32, testBit_BIT]
  simp

/-- A pass of `ret_user_vmexit` with `RECALL` pending on the EC word only, no
`ILLEGAL` on either word and neither `SLEEP` nor `SCHED` on the CPU word: the
EC's `RECALL` bit is cleared, its selector is set from `Event::gst_arch` and the
recall message is sent. -/
theorem Ec_arch.ret_user_vmexit_recall (K : Consts) (m : Machine)
    (hR : m.ec.regs.hazard &&& Hazard.RECALL ≠ 0) (heI : m.ec.regs.hazard &&& Hazard.ILLEGAL = 0)
    (hcR : m.cpu.hazard &&& Hazard.RECALL = 0) (hcI : m.cpu.hazard &&& Hazard.ILLEGAL = 0)
    (hcS : m.cpu.hazard &&& K.SLEEP = 0) (hcC : m.cpu.hazard &&& Hazard.SCHED = 0) :
    Ec_arch.ret_user_vmexit K m
      = Outcome.send_msg cont_t.ret_user_vmexit
          ((m.set_ec_hazard (Hazard.clr m.ec.regs.hazard Hazard.RECALL)).set_ep
            (K.gst_arch + K.RECALL)) := by
  have hhR : Ec_arch.hazard_vmexit K m.cpu.hazard m.ec.regs.hazard &&& Hazard.RECALL ≠ 0 := by
    simp only [Hazard.RECALL, HZD_RECALL, and_BIT_ne_zero_iff, and_BIT_eq_zero_iff] at hR hcR ⊢
    rw [Ec_arch.hazard_vmexit, Nat.testBit_and, Nat.testBit_xor, hR, hcR,
      Ec_arch.mask_gst_testBit_recall]
    rfl
  have hhI : ¬ (Ec_arch.hazard_vmexit K m.cpu.hazard m.ec.regs.hazard &&& Hazard.ILLEGAL ≠ 0) := by
    rw [not_not]
    simp only [Hazard.ILLEGAL, HZD_ILLEGAL, and_BIT_eq_zero_iff] at heI hcI ⊢
    rw [Ec_arch.hazard_vmexit, Nat.testBit_and, Nat.testBit_xor, heI, hcI]
    rfl
  have hS1 : ¬ (m.cpu.hazard &&& K.SLEEP ≠ 0) := not_not.mpr hcS
  have hC1 : ¬ (m.cpu.hazard &&& Hazard.SCHED ≠ 0) := not_not.mpr hcC
  simp only [Ec_arch.ret_user_vmexit, if_pos (ne_zero_of_and_ne_zero _ _ hhR), Ec.handle_hazard,
    Cpu.preemption_point, if_pos (gate_ne_zero_of_recall K _ hhR), if_neg hS1, if_neg hC1,
    if_neg hhI, if_pos hR, if_true, Outcome.then_eret]

theorem Machine.set_ep_ep (m : Machine) (val : Nat) :
    (m.set_ep val).ec.exc_regs.ep = val % 2 ^ 38 := by
  simp only [Machine.set_ep, Ec.exc_regs]
  exact Exc_regs.ep_set_ep _ _

theorem Machine.set_ep_hazard (m : Machine) (val : Nat) :
    (m.set_ep val).ec.regs.hazard = m.ec.regs.hazard := by
  simp only [Machine.set_ep]

theorem Machine.set_ep_evt (m : Machine) (val : Nat) : (m.set_ep val).ec.evt = m.ec.evt := by
  simp only [Machine.set_ep]

theorem Machine.set_ep_cpu (m : Machine) (val : Nat) : (m.set_ep val).cpu = m.cpu := by
  simp only [Machine.set_ep]

theorem Machine.set_ec_hazard_hazard (m : Machine) (hz : Nat) :
    (m.set_ec_hazard hz).ec.regs.hazard = hz := by
  simp only [Machine.set_ec_hazard]

theorem Machine.set_ec_hazard_evt (m : Machine) (hz : Nat) :
    (m.set_ec_hazard hz).ec.evt = m.ec.evt := by
  simp only [Machine.set_ec_hazard]

theorem Machine.set_ec_hazard_cpu (m : Machine) (hz : Nat) :
    (m.set_ec_hazard hz).cpu = m.cpu := by
  simp only [Machine.set_ec_hazard]

theorem Machine.sample_ec_hazard (K : Consts) (c evt e : Nat) :
    (Machine.sample K c evt e).ec.regs.hazard = e := by
  simp only [Machine.sample, Ec.sample_vcpu]

theorem Machine.sample_cpu_hazard (K : Consts) (c evt e : Nat) :
    (Machine.sample K c evt e).cpu.hazard = c := by
  simp only [Machine.sample]

/-- C8, counterexample: whatever the constants are, the selector that a recalled
vCPU reads back after the pass is not `E + RECALL` for every event base `E` the
vCPU was created with: the code takes it from `Event::gst_arch`, not from the
vCPU. At the sample constants a vCPU created with event base 5 reads back
64 + 63 = 127, not 5 + 63. -/
theorem Ec_arch.recall_selector_ignores_event_base :
    (¬ ∃ K : Consts, ∀ E : Nat, ∃ m1,
      (Machine.sample K 0 E Hazard.RECALL).ec.evt = E ∧
      Ec_arch.ret_user_vmexit K (Machine.sample K 0 E Hazard.RECALL)
        = Outcome.send_msg cont_t.ret_user_vmexit m1 ∧
      m1.ec.exc_regs.ep = E + K.RECALL) ∧
    (Machine.sample Consts.sample 0 5 Hazard.RECALL).ec.evt = 5 ∧
    (Ec_arch.ret_user_vmexit Consts.sample
      (Machine.sample Consts.sample 0 5 Hazard.RECALL)).machine.ec.exc_regs.ep = 127 ∧
    5 + Consts.sample.RECALL = 68 := by
  refine ⟨?_, by decide, by decide, by decide⟩
  rintro ⟨K, hK⟩
  have hpass : ∀ E, Ec_arch.ret_user_vmexit K (Machine.sample K 0 E Hazard.RECALL)
      = Outcome.send_msg cont_t.ret_user_vmexit
          (((Machine.sample K 0 E Hazard.RECALL).set_ec_hazard
            (Hazard.clr (Machine.sample K 0 E Hazard.RECALL).ec.regs.hazard Hazard.RECALL)).set_ep
            (K.gst_arch + K.RECALL)) := fun E =>
    Ec_arch.ret_user_vmexit_recall K _
      (by rw [Machine.sample_ec_hazard]; decide) (by rw [Machine.sample_ec_hazard]; decide)
      (by rw [Machine.sample_cpu_hazard]; exact Nat.zero_and _)
      (by rw [Machine.sample_cpu_hazard]; exact Nat.zero_and _)
      (by rw [Machine.sample_cpu_hazard]; exact Nat.zero_and _)
      (by rw [Machine.sample_cpu_hazard]; exact Nat.zero_and _)
  have hep : ∀ E, E + K.RECALL = (K.gst_arch + K.RECALL) % 2 ^ 38 := by
    intro E
    obtain ⟨m1, _, h1, h2⟩ := hK E
    rw [hpass E] at h1
    injection h1 with _ h1
    rw [← h2, ← h1]
    exact Machine.set_ep_ep _ _
  have h0 := hep 0
  have h1 := hep 1
  omega

/-- C8, amended: for every vCPU whose hazard word has `RECALL` set, with no
`ILLEGAL` on either word and none of `RECALL`, `SLEEP`, `SCHED` on the CPU word,
the next `ret_user_vmexit` pass clears `RECALL` on the EC (and only that bit) and
sends the recall message with the EC's entry-point selector, as read by `ep()`,
equal to `Event::gst_arch + RECALL` (taken modulo 2^38, the bits that `set_ep`
keeps); the vCPU's own event base `evt` is neither read nor changed. -/
theorem Ec_arch.ret_user_vmexit_recall_diverts (K : Consts) (m : Machine)
    (hR : m.ec.regs.hazard &&& Hazard.RECALL ≠ 0) (heI : m.ec.regs.hazard &&& Hazard.ILLEGAL = 0)
    (hcR : m.cpu.hazard &&& Hazard.RECALL = 0) (hcI : m.cpu.hazard &&& Hazard.ILLEGAL = 0)
    (hcS : m.cpu.hazard &&& K.SLEEP = 0) (hcC : m.cpu.hazard &&& Hazard.SCHED = 0) :
    ∃ m1, Ec_arch.ret_user_vmexit K m = Outcome.send_msg cont_t.ret_user_vmexit m1 ∧
      m1.ec.regs.hazard &&& Hazard.RECALL = 0 ∧
      m1.ec.regs.hazard = Hazard.clr m.ec.regs.hazard Hazard.RECALL ∧
      m1.ec.exc_regs.ep = (K.gst_arch + K.RECALL) % 2 ^ 38 ∧
      (K.gst_arch + K.RECALL < 2 ^ 38 → m1.ec.exc_regs.ep = K.gst_arch + K.RECALL) ∧
      m1.ec.evt = m.ec.evt ∧ m1.cpu = m.cpu := by
  refine ⟨_, Ec_arch.ret_user_vmexit_recall K m hR heI hcR hcI hcS hcC, ?_, ?_, ?_, ?_, ?_, ?_⟩
  · rw [Machine.set_ep_hazard, Machine.set_ec_hazard_hazard]
    exact Hazard.clr_and_BIT _ 30
  · rw [Machine.set_ep_hazard, Machine.set_ec_hazard_hazard]
  · exact Machine.set_ep_ep _ _
  · intro hlt
    exact (Machine.set_ep_ep _ _).trans (Nat.mod_eq_of_lt hlt)
  · rw [Machine.set_ep_evt, Machine.set_ec_hazard_evt]
  · rw [Machine.set_ep_cpu, Machine.set_ec_hazard_cpu]

/-- C8, witness: a vCPU with event base 5 and `RECALL` pending, CPU word 0. -/
theorem Ec_arch.ret_user_vmexit_recall_diverts_witness :
    ∃ m1, Ec_arch.ret_user_vmexit Consts.sample (Machine.sample Consts.sample 0 5 Hazard.RECALL)
        = Outcome.send_msg cont_t.ret_user_vmexit m1 ∧
      m1.ec.regs.hazard &&& Hazard.RECALL = 0 ∧
      m1.ec.regs.hazard
        = Hazard.clr (Machine.sample Consts.sample 0 5 Hazard.RECALL).ec.regs.hazard Hazard.RECALL ∧
      m1.ec.exc_regs.ep = (Consts.sample.gst_arch + Consts.sample.RECALL) % 2 ^ 38 ∧
      (Consts.sample.gst_arch + Consts.sample.RECALL < 2 ^ 38 →
        m1.ec.exc_regs.ep = Consts.sample.gst_arch + Consts.sample.RECALL) ∧
      m1.ec.evt = (Machine.sample Consts.sample 0 5 Hazard.RECALL).ec.evt ∧
      m1.cpu = (Machine.sample Consts.sample 0 5 Hazard.RECALL).cpu :=
  Ec_arch.ret_user_vmexit_recall_diverts Consts.sample
    (Machine.sample Consts.sample 0 5 Hazard.RECALL)
    (by decide) (by decide) (by decide) (by decide) (by decide) (by decide)

/-- The part of `handle_hazard` after the point of no return leaves the `RCU` bit
of the CPU hazard word as it found it, and does not touch the EC. -/
theorem Ec.handle_hazard_run_rcu (K : Consts) (h : Nat) (m : Machine) :
    (Ec.handle_hazard_run K h m).machine.cpu.hazard &&& Hazard.RCU = m.cpu.hazard &&& Hazard.RCU ∧
    (Ec.handle_hazard_run K h m).machine.ec = m.ec := by
  constructor
  · rw [Hazard.RCU, HZD_RCU, and_BIT_eq_and_BIT_iff]
    simp only [Ec.handle_hazard_run, Outcome.machine, Fpu.disable, Fpu.enable]
    split_ifs <;>
      simp [Nat.testBit_and, Nat.testBit_or, testBit_not32, testBit_BIT, Hazard.FPU, HZD_FPU,
        Hazard.BOOT_HST, HZD_BOOT_HST, Hazard.BOOT_GST, HZD_BOOT_GST]
  · simp only [Ec.handle_hazard_run, Outcome.machine]
    split_ifs <;> rfl

theorem Ec.handle_hazard_rcu (K : Consts) (h : Nat) (func : cont_t) (m : Machine) :
    (Ec.handle_hazard K h func m).machine.cpu.hazard &&& Hazard.RCU
      = m.cpu.hazard &&& Hazard.RCU := by
  unfold Ec.handle_hazard
  simp only [Cpu.preemption_point]
  split_ifs <;> first
    | exact (Ec.handle_hazard_run_rcu K h m).1
    | rfl

theorem Outcome.then_eret_machine (o : Outcome) : o.then_eret.machine = o.machine := by
  cases o <;> rfl

/-- C9, counterexample: at the sample constants, a pass of `ret_user_hypercall` with
CPU hazard word `RCU` and EC hazard word 0. The effective hazard is `RCU`, it has
none of `ILLEGAL`, `RECALL`, `SLEEP`, `SCHED`, `handle_hazard` returns to the
return path with the state as it was, the path reaches its architectural return,
and the `RCU` bit of the CPU hazard word is still set. -/
theorem Ec.handle_hazard_leaves_rcu_set :
    Ec_arch.hazard_hypercall Consts.sample Hazard.RCU 0 = Hazard.RCU ∧
    Hazard.RCU &&& (Hazard.ILLEGAL ||| Hazard.RECALL ||| Consts.sample.SLEEP ||| Hazard.SCHED)
      = 0 ∧
    Ec.handle_hazard Consts.sample Hazard.RCU cont_t.ret_user_hypercall
        (Machine.sample Consts.sample Hazard.RCU 5 0)
      = Outcome.ret (Machine.sample Consts.sample Hazard.RCU 5 0) ∧
    Ec_arch.ret_user_hypercall Consts.sample (Machine.sample Consts.sample Hazard.RCU 5 0)
      = Outcome.eret (Machine.sample Consts.sample Hazard.RCU 5 0) ∧
    (Machine.sample Consts.sample Hazard.RCU 5 0).cpu.hazard &&& Hazard.RCU ≠ 0 := by
  refine ⟨by decide, by decide, by decide, by decide, by decide⟩

/-- C9, amended: the dispatcher does not handle the RCU hazard. Whatever the
constants, `h`, `func` and the state are, the `RCU` bit of the CPU hazard word
after `handle_hazard`, and after each of the three return paths, is the bit on
entry; when `h` has none of `ILLEGAL`, `RECALL`, `SLEEP`, `SCHED` (whether or not
it has `RCU`), `handle_hazard` returns to the return path with that bit and the
EC unchanged, so a set `RCU` bit is still set. -/
theorem Ec.handle_hazard_never_clears_rcu (K : Consts) (h : Nat) (func : cont_t) (m : Machine) :
    (Ec.handle_hazard K h func m).machine.cpu.hazard &&& Hazard.RCU
      = m.cpu.hazard &&& Hazard.RCU ∧
    (h &&& (Hazard.ILLEGAL ||| Hazard.RECALL ||| K.SLEEP ||| Hazard.SCHED) = 0 →
      ∃ m1, Ec.handle_hazard K h func m = Outcome.ret m1 ∧
        m1.cpu.hazard &&& Hazard.RCU = m.cpu.hazard &&& Hazard.RCU ∧ m1.ec = m.ec) ∧
    (Ec_arch.ret_user_hypercall K m).machine.cpu.hazard &&& Hazard.RCU
      = m.cpu.hazard &&& Hazard.RCU ∧
    (Ec_arch.ret_user_exception K m).machine.cpu.hazard &&& Hazard.RCU
      = m.cpu.hazard &&& Hazard.RCU ∧
    (Ec_arch.ret_user_vmexit K m).machine.cpu.hazard &&& Hazard.RCU
      = m.cpu.hazard &&& Hazard.RCU := by
  refine ⟨Ec.handle_hazard_rcu K h func m, ?_, ?_, ?_, ?_⟩
  · intro hg
    have hg1 : ¬ (h &&& (Hazard.ILLEGAL ||| Hazard.RECALL ||| K.SLEEP ||| Hazard.SCHED) ≠ 0) :=
      not_not.mpr hg
    refine ⟨(Ec.handle_hazard_run K h m).machine, ?_, (Ec.handle_hazard_run_rcu K h m).1,
      (Ec.handle_hazard_run_rcu K h m).2⟩
    simp only [Ec.handle_hazard, if_neg hg1]
    rfl
  · simp only [Ec_arch.ret_user_hypercall, Outcome.then_eret_machine]
    split_ifs
    · exact Ec.handle_hazard_rcu K _ _ m
    · rfl
  · simp only [Ec_arch.ret_user_exception, Outcome.then_eret_machine]
    split_ifs
    · exact Ec.handle_hazard_rcu K _ _ m
    · rfl
  · simp only [Ec_arch.ret_user_vmexit, Outcome.then_eret_machine]
    split_ifs
    · exact Ec.handle_hazard_rcu K _ _ m
    · rfl

/-- C10: for every register block, the `ILLEGAL` bit is set at construction if and
only if the block was built by the constructor taking a VM control block; that
constructor yields a hazard word equal to exactly `ILLEGAL` with the given VMCB,
the other one yields hazard 0 with a null VMCB; and the statements that end the
bodies of the `Ec_arch` constructors (stack pointer and entry-point selector)
leave both fields as constructed, so the vCPU built by the GST constructor has
hazard word `ILLEGAL` and the host EC and kernel thread have hazard word 0. -/
theorem Cpu_regs.illegal_iff_vcpu_constructor (K : Consts) (k : Cpu_regs.Ctor) :
    ((Cpu_regs.construct K k).hazard &&& Hazard.ILLEGAL ≠ 0 ↔ k.is_vcpu = true) ∧
    (∀ o h v : Ptr, (Cpu_regs.construct K (Cpu_regs.Ctor.gst o h v)).hazard = Hazard.ILLEGAL ∧
      (Cpu_regs.construct K (Cpu_regs.Ctor.gst o h v)).vmcb = v) ∧
    (∀ o h pio : Ptr, (Cpu_regs.construct K (Cpu_regs.Ctor.hst o h pio)).hazard = 0 ∧
      (Cpu_regs.construct K (Cpu_regs.Ctor.hst o h pio)).vmcb = nullptr) ∧
    (∀ (ec : Ec) (sp val : Nat), (ec.set_sp_ep sp val).regs.hazard = ec.regs.hazard ∧
      (ec.set_sp_ep sp val).regs.vmcb = ec.regs.vmcb) ∧
    (∀ (t : Bool) (f obj hst v : Ptr) (c e sp : Nat),
      (Ec_arch.mk_gst K t f obj hst v c e sp).regs.hazard = Hazard.ILLEGAL ∧
      (Ec_arch.mk_gst K t f obj hst v c e sp).regs.vmcb = v) ∧
    (∀ (t : Bool) (f obj hst pio : Ptr) (c e sp hva : Nat) (kp : Ptr),
      (Ec_arch.mk_hst K t f obj hst pio c e sp hva kp).1.regs.hazard = 0 ∧
      (Ec_arch.mk_hst K t f obj hst pio c e sp hva kp).1.regs.vmcb = nullptr) ∧
    (∀ (nova : Ptr) (c : Nat) (x : cont_t),
      (Ec_arch.mk_kernel K nova c x).regs.hazard = 0 ∧
      (Ec_arch.mk_kernel K nova c x).regs.vmcb = nullptr) := by
  refine ⟨?_, fun _ _ _ => ⟨rfl, rfl⟩, fun _ _ _ => ⟨rfl, rfl⟩, fun _ _ _ => ⟨rfl, rfl⟩,
    fun _ _ _ _ _ _ _ _ => ⟨rfl, rfl⟩, fun _ _ _ _ _ _ _ _ _ _ => ⟨rfl, rfl⟩,
    fun _ _ _ => ⟨rfl, rfl⟩⟩
  cases k with
  | hst o h pio =>
    simp only [Cpu_regs.construct, Cpu_regs.mk_hst, Cpu_regs.Ctor.is_vcpu, Nat.zero_and]
    simp
  | gst o h v =>
    simp only [Cpu_regs.construct, Cpu_regs.mk_gst, Cpu_regs.Ctor.is_vcpu, Nat.and_self]
    simp only [iff_true]
    decide


/-! ## Properties of the constructors and of the vCPU factory -/

theorem Ec.set_sp_ep_ep (ec : Ec) (sp val : Nat) :
    (ec.set_sp_ep sp val).exc_regs.ep = val % 2 ^ 38 := by
  simp only [Ec.set_sp_ep, Ec.exc_regs]
  exact Exc_regs.ep_set_ep _ _

theorem Ec.set_sp_ep_sp (ec : Ec) (sp val : Nat) :
    (ec.set_sp_ep sp val).exc_regs.el0_sp = sp := by
  simp only [Ec.set_sp_ep, Ec.exc_regs, Exc_regs.set_ep]

theorem Ec_arch.mk_gst_ep (K : Consts) (t : Bool) (f obj hst v : Ptr) (c e sp : Nat) :
    (Ec_arch.mk_gst K t f obj hst v c e sp).exc_regs.ep = (K.gst_arch + K.STARTUP) % 2 ^ 38 := by
  simp only [Ec_arch.mk_gst]
  exact Ec.set_sp_ep_ep _ _ _

theorem Ec_arch.mk_hst_ep (K : Consts) (t : Bool) (f obj hst pio : Ptr) (c e sp hva : Nat)
    (k : Ptr) :
    (Ec_arch.mk_hst K t f obj hst pio c e sp hva k).1.exc_regs.ep
      = (K.hst_arch + K.STARTUP) % 2 ^ 38 := by
  simp only [Ec_arch.mk_hst]
  exact Ec.set_sp_ep_ep _ _ _

/-- C11, counterexample: whatever the constants are, the selector read back after
construction is not `e + STARTUP` for every event base `e`, neither for a vCPU
nor for a host EC: the constructors take it from `Event::gst_arch` and
`Event::hst_arch`. At the sample constants a vCPU constructed with event base 5
reads back 64 + 62 = 126 and a host EC 0 + 62 = 62, not 5 + 62. -/
theorem Ec_arch.initial_selector_ignores_event_base :
    (¬ ∃ K : Consts, ∀ e : Nat,
      (Ec_arch.mk_gst K false nullptr 1 2 3 0 e 0).exc_regs.ep = e + K.STARTUP) ∧
    (¬ ∃ K : Consts, ∀ e : Nat,
      (Ec_arch.mk_hst K true nullptr 1 2 nullptr 0 e 0 4096 4).1.exc_regs.ep = e + K.STARTUP) ∧
    (Ec_arch.mk_gst Consts.sample false nullptr 1 2 3 0 5 0).evt = 5 ∧
    (Ec_arch.mk_gst Consts.sample false nullptr 1 2 3 0 5 0).exc_regs.ep = 126 ∧
    (Ec_arch.mk_hst Consts.sample true nullptr 1 2 nullptr 0 5 0 4096 4).1.evt = 5 ∧
    (Ec_arch.mk_hst Consts.sample true nullptr 1 2 nullptr 0 5 0 4096 4).1.exc_regs.ep = 62 ∧
    5 + Consts.sample.STARTUP = 67 := by
  refine ⟨?_, ?_, by decide, by decide, by decide, by decide, by decide⟩
  · rintro ⟨K, hK⟩
    have h0 := hK 0
    have h1 := hK 1
    rw [Ec_arch.mk_gst_ep] at h0 h1
    omega
  · rintro ⟨K, hK⟩
    have h0 := hK 0
    have h1 := hK 1
    rw [Ec_arch.mk_hst_ep] at h0 h1
    omega

/-- C11, amended: for every host EC and every vCPU constructed with event base `e`
and stack pointer `sp`, immediately after construction the entry-point selector
read back by `ep()` equals `Event::hst_arch + STARTUP` for the host EC and
`Event::gst_arch + STARTUP` for the vCPU (modulo 2^38, the bits that `set_ep`
keeps, so exactly that sum when it is below 2^38), independently of `e`; the
register file's `sp` equals the given `sp`, and `e` is kept as the EC's event
base. -/
theorem Ec_arch.initial_selector_is_arch_startup (K : Consts) (t : Bool)
    (f obj hst pio v : Ptr) (c e sp hva : Nat) (k : Ptr) :
    (Ec_arch.mk_hst K t f obj hst pio c e sp hva k).1.exc_regs.ep
      = (K.hst_arch + K.STARTUP) % 2 ^ 38 ∧
    (K.hst_arch + K.STARTUP < 2 ^ 38 →
      (Ec_arch.mk_hst K t f obj hst pio c e sp hva k).1.exc_regs.ep = K.hst_arch + K.STARTUP) ∧
    (Ec_arch.mk_hst K t f obj hst pio c e sp hva k).1.exc_regs.el0_sp = sp ∧
    (Ec_arch.mk_hst K t f obj hst pio c e sp hva k).1.evt = e ∧
    (Ec_arch.mk_gst K t f obj hst v c e sp).exc_regs.ep = (K.gst_arch + K.STARTUP) % 2 ^ 38 ∧
    (K.gst_arch + K.STARTUP < 2 ^ 38 →
      (Ec_arch.mk_gst K t f obj hst v c e sp).exc_regs.ep = K.gst_arch + K.STARTUP) ∧
    (Ec_arch.mk_gst K t f obj hst v c e sp).exc_regs.el0_sp = sp ∧
    (Ec_arch.mk_gst K t f obj hst v c e sp).evt = e := by
  refine ⟨Ec_arch.mk_hst_ep K t f obj hst pio c e sp hva k, ?_, ?_, ?_,
    Ec_arch.mk_gst_ep K t f obj hst v c e sp, ?_, ?_, ?_⟩
  · intro h
    rw [Ec_arch.mk_hst_ep, Nat.mod_eq_of_lt h]
  · simp only [Ec_arch.mk_hst]
    exact Ec.set_sp_ep_sp _ _ _
  · simp only [Ec_arch.mk_hst, Ec.set_sp_ep, Ec.mk_hst]
  · intro h
    rw [Ec_arch.mk_gst_ep, Nat.mod_eq_of_lt h]
  · simp only [Ec_arch.mk_gst]
    exact Ec.set_sp_ep_sp _ _ _
  · simp only [Ec_arch.mk_gst, Ec.set_sp_ep, Ec.mk_gst]

/-- C11, witness: at the sample constants the sums are below 2^38, and a vCPU
constructed with event base 5 and stack pointer 4096 reads back 64 + 62. -/
theorem Ec_arch.initial_selector_is_arch_startup_witness :
    (Ec_arch.mk_gst Consts.sample false nullptr 1 2 3 0 5 4096).exc_regs.ep
      = Consts.sample.gst_arch + Consts.sample.STARTUP :=
  (Ec_arch.initial_selector_is_arch_startup Consts.sample false nullptr 1 2 nullptr 3 0 5 4096
    0 4).2.2.2.2.2.1 (by decide)

/-- C12: for every `Pd` lacking an object space or a host space, `create_gst`
returns null with status `ABORTED` and performs no memory operation at all: no
Fpu block, no Vmcb and no EC is requested, and no EC is constructed. -/
theorem Ec.create_gst_missing_space_aborts (K : Consts) (a : Alloc) (s : Status) (pd : Pd)
    (t fpu : Bool) (cpu evt sp : Nat) (h : pd.obj = nullptr ∨ pd.hst = nullptr) :
    (Ec.create_gst K a s pd t fpu cpu evt sp).ec = nullptr ∧
    (Ec.create_gst K a s pd t fpu cpu evt sp).s = Status.ABORTED ∧
    (Ec.create_gst K a s pd t fpu cpu evt sp).ops = [] ∧
    (Ec.create_gst K a s pd t fpu cpu evt sp).obj = none := by
  simp only [Ec.create_gst, if_pos h, and_self]

/-- C12, witness: a `Pd` with an object space and no host space, every allocator
ready to answer. -/
theorem Ec.create_gst_missing_space_aborts_witness :
    (Ec.create_gst Consts.sample { fpu := 10, vmcb := 20, ec := 30 } Status.SUCCESS
        { obj := 1, hst := nullptr } false true 0 5 0).ec = nullptr ∧
    (Ec.create_gst Consts.sample { fpu := 10, vmcb := 20, ec := 30 } Status.SUCCESS
        { obj := 1, hst := nullptr } false true 0 5 0).s = Status.ABORTED ∧
    (Ec.create_gst Consts.sample { fpu := 10, vmcb := 20, ec := 30 } Status.SUCCESS
        { obj := 1, hst := nullptr } false true 0 5 0).ops = [] ∧
    (Ec.create_gst Consts.sample { fpu := 10, vmcb := 20, ec := 30 } Status.SUCCESS
        { obj := 1, hst := nullptr } false true 0 5 0).obj = none :=
  Ec.create_gst_missing_space_aborts Consts.sample { fpu := 10, vmcb := 20, ec := 30 }
    Status.SUCCESS { obj := 1, hst := nullptr } false true 0 5 0 (Or.inr rfl)

/-- C13: when both spaces exist and some allocation along the chain fails (the Fpu
block if requested, the Vmcb, the EC), `create_gst` returns null with status
`MEM_OBJ`, constructs no EC, and the blocks it released are exactly the blocks it
had obtained, in reverse order of allocation (the Vmcb, then the Fpu block); when
all allocations succeed it returns the non-null EC block with the vCPU
constructed in it, releases nothing and leaves the status as it was. -/
theorem Ec.create_gst_undoes_allocations (K : Consts) (a : Alloc) (s : Status) (pd : Pd)
    (t fpu : Bool) (cpu evt sp : Nat) (ho : pd.obj ≠ nullptr) (hh : pd.hst ≠ nullptr) :
    (a.fails fpu →
      (Ec.create_gst K a s pd t fpu cpu evt sp).ec = nullptr ∧
      (Ec.create_gst K a s pd t fpu cpu evt sp).obj = none ∧
      (Ec.create_gst K a s pd t fpu cpu evt sp).s = Status.MEM_OBJ ∧
      Mem_op.released (Ec.create_gst K a s pd t fpu cpu evt sp).ops
        = (Mem_op.allocated (Ec.create_gst K a s pd t fpu cpu evt sp).ops).reverse ∧
      Mem_op.released (Ec.create_gst K a s pd t fpu cpu evt sp).ops
        = (if a.vmcb ≠ nullptr then [a.vmcb] else [])
          ++ (if fpu = true ∧ a.fpu ≠ nullptr then [a.fpu] else [])) ∧
    (¬ a.fails fpu →
      (Ec.create_gst K a s pd t fpu cpu evt sp).ec = a.ec ∧
      (Ec.create_gst K a s pd t fpu cpu evt sp).ec ≠ nullptr ∧
      (Ec.create_gst K a s pd t fpu cpu evt sp).obj
        = some (Ec_arch.mk_gst K t (if fpu then a.fpu else nullptr) pd.obj pd.hst a.vmcb
            cpu evt sp) ∧
      (Ec.create_gst K a s pd t fpu cpu evt sp).s = s ∧
      Mem_op.released (Ec.create_gst K a s pd t fpu cpu evt sp).ops = []) := by
  have hsp : ¬ (pd.obj = nullptr ∨ pd.hst = nullptr) := by
    rintro (h | h)
    · exact ho h
    · exact hh h
  simp only [nullptr] at *
  cases fpu <;> by_cases hf : a.fpu = 0 <;> by_cases hv : a.vmcb = 0 <;>
    by_cases he : a.ec = 0 <;>
    simp [Ec.create_gst, Alloc.fails, nullptr, hsp, hf, hv, he, Fpu.operator_new,
      Fpu.operator_delete, Vmcb.delete, Mem_op.released, Mem_op.allocated]

/-- C13, witness: both spaces present, an Fpu block requested; the Fpu block and
the Vmcb are obtained and the EC allocation fails. -/
theorem Ec.create_gst_undoes_allocations_witness :
    (Ec.create_gst Consts.sample { fpu := 10, vmcb := 20, ec := nullptr } Status.SUCCESS
        { obj := 1, hst := 2 } false true 0 5 0).s = Status.MEM_OBJ ∧
    Mem_op.released (Ec.create_gst Consts.sample { fpu := 10, vmcb := 20, ec := nullptr }
        Status.SUCCESS { obj := 1, hst := 2 } false true 0 5 0).ops = [20, 10] :=
  ⟨((Ec.create_gst_undoes_allocations Consts.sample { fpu := 10, vmcb := 20, ec := nullptr }
      Status.SUCCESS { obj := 1, hst := 2 } false true 0 5 0 (by decide) (by decide)).1
      (Or.inr (Or.inr rfl))).2.2.1,
   ((Ec.create_gst_undoes_allocations Consts.sample { fpu := 10, vmcb := 20, ec := nullptr }
      Status.SUCCESS { obj := 1, hst := 2 } false true 0 5 0 (by decide) (by decide)).1
      (Or.inr (Or.inr rfl))).2.2.2.2⟩

/-! ## Properties of `make_current` -/

/-- C14: for every space (root table value and VMID) and every prior value of the
per-CPU `current` word, after a call of `make_current` the `current` word equals
the space's VTTBR value, the call wrote that value to the translation register
at most once (exactly when `current` differed from it), and a second call right
after it changes nothing and writes nothing. -/
theorem Nptp.make_current_twice (val vmid : Nat) (c : Nptp_cpu) :
    (Nptp.make_current val vmid c).current = Nptp.vttbr val vmid ∧
    (Nptp.make_current val vmid c).writes
      = c.writes ++ (if c.current ≠ Nptp.vttbr val vmid then [Nptp.vttbr val vmid] else []) ∧
    Nptp.make_current val vmid (Nptp.make_current val vmid c) = Nptp.make_current val vmid c ∧
    (Nptp.make_current val vmid (Nptp.make_current val vmid c)).writes
      = (Nptp.make_current val vmid c).writes ∧
    (Nptp.make_current val vmid (Nptp.make_current val vmid c)).current = Nptp.vttbr val vmid ∧
    (∀ s : Space_hst,
      (s.make_current c).current = Nptp.vttbr s.nptp s.vmid ∧
      s.make_current (s.make_current c) = s.make_current c ∧
      (s.make_current (s.make_current c)).writes = (s.make_current c).writes) := by
  have h1 : ∀ (v m : Nat) (d : Nptp_cpu), (Nptp.make_current v m d).current = Nptp.vttbr v m := by
    intro v m d
    simp only [Nptp.make_current]
    split_ifs with h
    · rfl
    · exact not_not.mp h
  have h2 : ∀ (v m : Nat) (d : Nptp_cpu),
      Nptp.make_current v m (Nptp.make_current v m d) = Nptp.make_current v m d := by
    intro v m d
    have hd := h1 v m d
    generalize Nptp.make_current v m d = d1 at hd
    simp only [Nptp.make_current, hd, ne_eq, not_true_eq_false, if_false]
  refine ⟨h1 val vmid c, ?_, h2 val vmid c, ?_, ?_, ?_⟩
  · simp only [Nptp.make_current]
    split_ifs <;> simp
  · rw [h2]
  · rw [h2]
    exact h1 val vmid c
  · intro s
    refine ⟨h1 _ _ c, h2 _ _ c, ?_⟩
    simp only [Space_hst.make_current]
    rw [h2]

theorem testBit_not64 (x i : Nat) : (not64 x).testBit i = (decide (i < 64) && !x.testBit i) := by
  unfold not64
  rw [Nat.testBit_xor, Nat.testBit_two_pow_sub_one, Nat.testBit_mod_two_pow]
  by_cases hi : i < 64 <;> simp [hi]

theorem Npt.testBit_ADDR_MASK (i : Nat) :
    Npt.ADDR_MASK.testBit i = (decide (12 ≤ i) && decide (i < 48)) := by
  have h : Npt.ADDR_MASK = (2 ^ 36 - 1) <<< 12 := by decide
  rw [h, Nat.testBit_shiftLeft, Nat.testBit_two_pow_sub_one]
  by_cases h1 : 12 ≤ i <;> by_cases h2 : i < 48 <;> simp [h1, h2] <;> omega

/-- A 64-bit root that satisfies the assertion of `make_current` has bits 47:12
only. -/
theorem Nptp.root_bits (val i : Nat) (hv : val < 2 ^ 64) (ha : Nptp.make_current_assert val)
    (hi : val.testBit i = true) : 12 ≤ i ∧ i < 48 := by
  have h := (eq_zero_iff_testBit _).mp ha i
  rw [Nat.testBit_and, hi, testBit_not64, Npt.testBit_ADDR_MASK] at h
  by_cases h64 : i < 64
  · by_cases h1 : 12 ≤ i <;> by_cases h2 : i < 48 <;> simp [h64, h1, h2] at h
    exact ⟨h1, h2⟩
  · have hlt : val < 2 ^ i :=
      lt_of_lt_of_le hv (Nat.pow_le_pow_right (by decide) (by omega))
    rw [Nat.testBit_lt_two_pow hlt] at hi
    exact absurd hi Bool.false_ne_true

theorem Nptp.vttbr_eq (val vmid : Nat) (hm : vmid < 2 ^ 16) :
    Nptp.vttbr val vmid = (vmid <<< 48) ||| val := by
  have h : vmid <<< 48 < 2 ^ 64 := by
    rw [Nat.shiftLeft_eq]
    norm_num at hm ⊢
    omega
  rw [Nptp.vttbr, Nat.mod_eq_of_lt h]

theorem Nptp.vttbr_shiftRight (val vmid : Nat) (hv : val < 2 ^ 64)
    (ha : Nptp.make_current_assert val) (hm : vmid < 2 ^ 16) :
    Nptp.vttbr val vmid >>> 48 = vmid := by
  rw [Nptp.vttbr_eq val vmid hm]
  apply Nat.eq_of_testBit_eq
  intro j
  rw [Nat.testBit_shiftRight, Nat.testBit_or, Nat.testBit_shiftLeft]
  have hval : val.testBit (48 + j) = false := by
    by_contra hne
    have := Nptp.root_bits val (48 + j) hv ha (by simpa using hne)
    omega
  simp [hval]

theorem Nptp.vttbr_and_mask (val vmid : Nat) (hv : val < 2 ^ 64)
    (ha : Nptp.make_current_assert val) (hm : vmid < 2 ^ 16) :
    Nptp.vttbr val vmid &&& Npt.ADDR_MASK = val := by
  rw [Nptp.vttbr_eq val vmid hm]
  apply Nat.eq_of_testBit_eq
  intro i
  rw [Nat.testBit_and, Nat.testBit_or, Nat.testBit_shiftLeft, Npt.testBit_ADDR_MASK]
  by_cases hi : val.testBit i = true
  · have := Nptp.root_bits val i hv ha hi
    simp [hi, this.1, this.2]
  · have hi0 : val.testBit i = false := by simpa using hi
    by_cases h2 : i < 48
    · have : ¬ (i ≥ 48) := by omega
      simp [hi0, this]
    · simp [hi0, h2]

/-- C15: for every 64-bit root table address that satisfies the assertion (no bit
outside 47:12) and every VMID below 2^16, the value `make_current` writes is
`(vmid << 48) | root` without truncation; its bits 63:48 give back the VMID and
its bits 47:12 give back the root; hence two such spaces yield the same value,
and the second `make_current` is skipped as already current, only if they have
the same VMID and the same root. -/
theorem Nptp.vttbr_lossless (val vmid : Nat) (hv : val < 2 ^ 64)
    (ha : Nptp.make_current_assert val) (hm : vmid < 2 ^ 16) :
    Nptp.vttbr val vmid = (vmid <<< 48) ||| val ∧
    Nptp.vttbr val vmid < 2 ^ 64 ∧
    Nptp.vttbr val vmid >>> 48 = vmid ∧
    Nptp.vttbr val vmid &&& Npt.ADDR_MASK = val ∧
    (∀ val2 vmid2 : Nat, val2 < 2 ^ 64 → Nptp.make_current_assert val2 → vmid2 < 2 ^ 16 →
      Nptp.vttbr val2 vmid2 = Nptp.vttbr val vmid → vmid2 = vmid ∧ val2 = val) ∧
    (∀ (val2 vmid2 : Nat) (c : Nptp_cpu), val2 < 2 ^ 64 → Nptp.make_current_assert val2 →
      vmid2 < 2 ^ 16 →
      (Nptp.make_current val2 vmid2 (Nptp.make_current val vmid c)).writes
        = (Nptp.make_current val vmid c).writes →
      vmid2 = vmid ∧ val2 = val) := by
  have hinj : ∀ val2 vmid2 : Nat, val2 < 2 ^ 64 → Nptp.make_current_assert val2 →
      vmid2 < 2 ^ 16 → Nptp.vttbr val2 vmid2 = Nptp.vttbr val vmid →
      vmid2 = vmid ∧ val2 = val := by
    intro val2 vmid2 hv2 ha2 hm2 heq
    constructor
    · rw [← Nptp.vttbr_shiftRight val2 vmid2 hv2 ha2 hm2, heq,
        Nptp.vttbr_shiftRight val vmid hv ha hm]
    · rw [← Nptp.vttbr_and_mask val2 vmid2 hv2 ha2 hm2, heq,
        Nptp.vttbr_and_mask val vmid hv ha hm]
  refine ⟨Nptp.vttbr_eq val vmid hm, ?_, Nptp.vttbr_shiftRight val vmid hv ha hm,
    Nptp.vttbr_and_mask val vmid hv ha hm, hinj, ?_⟩
  · rw [Nptp.vttbr]
    exact Nat.or_lt_two_pow (Nat.mod_lt _ (by decide)) hv
  · intro val2 vmid2 c hv2 ha2 hm2 hw
    apply hinj val2 vmid2 hv2 ha2 hm2
    have hcur : (Nptp.make_current val vmid c).current = Nptp.vttbr val vmid := by
      simp only [Nptp.make_current]
      split_ifs with h
      · rfl
      · exact not_not.mp h
    generalize Nptp.make_current val vmid c = d at hw hcur
    by_contra hne
    have hne1 : d.current ≠ Nptp.vttbr val2 vmid2 := by
      rw [hcur]
      exact fun h => hne h.symm
    simp only [Nptp.make_current, if_pos hne1] at hw
    have := congrArg List.length hw
    simp at this

/-- C15, witness: root 0x1000 with VMID 3. -/
theorem Nptp.vttbr_lossless_witness :
    Nptp.vttbr 4096 3 >>> 48 = 3 ∧ Nptp.vttbr 4096 3 &&& Npt.ADDR_MASK = 4096 :=
  ⟨(Nptp.vttbr_lossless 4096 3 (by decide) (by decide) (by decide)).2.2.1,
   (Nptp.vttbr_lossless 4096 3 (by decide) (by decide) (by decide)).2.2.2.1⟩

/-! ## Properties of the grace-period coordinator -/

theorem and_low_two (v k : Nat) (hk : k < 4) : v &&& k = (v % 4) &&& k := by
  apply Nat.eq_of_testBit_eq
  intro i
  have h4 : (4 : Nat) = 2 ^ 2 := by decide
  rw [Nat.testBit_and, Nat.testBit_and, h4, Nat.testBit_mod_two_pow]
  by_cases hi : i < 2
  · simp [hi]
  · have hki : k.testBit i = false := by
      apply Nat.testBit_lt_two_pow
      exact lt_of_lt_of_le hk (by
        calc 4 = 2 ^ 2 := by decide
          _ ≤ 2 ^ i := Nat.pow_le_pow_right (by decide) (by omega))
    simp [hki]

theorem or_low_two (v k : Nat) (hk : k < 4) : v ||| k = 4 * (v / 4) + ((v % 4) ||| k) := by
  have hv : v = 2 ^ 2 * (v / 4) ||| v % 4 := by
    have h := Nat.mul_add_lt_is_or (Nat.mod_lt v (by decide : 0 < 2 ^ 2)) (v / 4)
    have h2 : 2 ^ 2 * (v / 4) + v % 2 ^ 2 = v := by
      have := Nat.div_add_mod v 4
      norm_num at this ⊢
      omega
    have h4 : v % 2 ^ 2 = v % 4 := by norm_num
    rw [h2, h4] at h
    exact h
  have hlt : (v % 4) ||| k < 2 ^ 2 :=
    Nat.or_lt_two_pow (Nat.mod_lt v (by decide)) (by simpa using hk)
  have h3 := Nat.mul_add_lt_is_or hlt (v / 4)
  have h5 : 2 ^ 2 * (v / 4) + (v % 4 ||| k) = 4 * (v / 4) + (v % 4 ||| k) := by norm_num
  rw [← h5, h3, ← Nat.or_assoc, ← hv]

theorem xor_and_low_two (v w k : Nat) (hk : k < 4) :
    (v ^^^ w) &&& k = ((v % 4) ^^^ (w % 4)) &&& k := by
  rw [Nat.and_xor_distrib_right, Nat.and_xor_distrib_right, and_low_two v k hk,
    and_low_two w k hk]

/-- The test of `start_batch` after its loop, for the phase bit of value 1: it
lets the batch advance exactly when bit 0 was clear and bit 1 set in `v`; then
`v | 1` is the batch number followed by both phase bits. -/
theorem Rcu.phase_test_one (v : Nat) :
    ((v ^^^ not64 1) &&& 3 = 0 ↔ (v &&& 1 = 0 ∧ v &&& 2 ≠ 0)) ∧
    ((v &&& 1 = 0 ∧ v &&& 2 ≠ 0) → v ||| 1 = 4 * (v / 4) + 3) ∧
    (v ||| 1) / 4 = v / 4 ∧ (v ||| 1) &&& 1 ≠ 0 ∧ (v &&& 1 ≠ 0 → v ||| 1 = v) := by
  have hn : not64 1 % 4 = 2 := by decide
  rw [xor_and_low_two v _ 3 (by decide), hn, and_low_two v 1 (by decide),
    and_low_two v 2 (by decide), and_low_two (v ||| 1) 1 (by decide),
    or_low_two v 1 (by decide)]
  clear hn
  simp only [Nat.mul_add_mod]
  have hp : v % 4 < 4 := Nat.mod_lt v (by decide)
  have hd := Nat.div_add_mod v 4
  generalize v % 4 = p at hp hd ⊢
  interval_cases p <;> simp <;> omega

/-- The same for the phase bit of value 2, with the roles of the two bits
exchanged. -/
theorem Rcu.phase_test_two (v : Nat) :
    ((v ^^^ not64 2) &&& 3 = 0 ↔ (v &&& 2 = 0 ∧ v &&& 1 ≠ 0)) ∧
    ((v &&& 2 = 0 ∧ v &&& 1 ≠ 0) → v ||| 2 = 4 * (v / 4) + 3) ∧
    (v ||| 2) / 4 = v / 4 ∧ (v ||| 2) &&& 2 ≠ 0 ∧ (v &&& 2 ≠ 0 → v ||| 2 = v) := by
  have hn : not64 2 % 4 = 1 := by decide
  rw [xor_and_low_two v _ 3 (by decide), hn, and_low_two v 1 (by decide),
    and_low_two v 2 (by decide), and_low_two (v ||| 2) 2 (by decide),
    or_low_two v 2 (by decide)]
  clear hn
  simp only [Nat.mul_add_mod]
  have hp : v % 4 < 4 := Nat.mod_lt v (by decide)
  have hd := Nat.div_add_mod v 4
  generalize v % 4 = p at hp hd ⊢
  interval_cases p <;> simp <;> omega

/-- Without interference one pass of the loop of `start_batch` suffices: the
compare-and-swap is applied to the value just read. -/
theorem Rcu.start_batch_loop_eq (E : Rcu.Env) (fuel : Nat) (s : Rcu.State) (r : Rcu) :
    Rcu.start_batch_loop E (fuel + 1) s r
      = some (if r.state >>> 2 ≠ r.l_batch then r
              else if r.state &&& E.val s ≠ 0 then Rcu.start_batch_advance E s r.state r
              else Rcu.start_batch_advance E s r.state { r with state := r.state ||| E.val s }) := by
  simp only [Rcu.start_batch_loop, atomic_compare_exchange, if_true]
  split_ifs <;> rfl

theorem Rcu.advanced_state (v : Nat) (h : v = 4 * (v / 4) + 3) :
    (v + 1) % 2 ^ 64 = ((v >>> 2 + 1) <<< 2) % 2 ^ 64 ∧
    ((v + 1) % 2 ^ 64) &&& 1 = 0 ∧ ((v + 1) % 2 ^ 64) &&& 2 = 0 := by
  have h4 : ((v + 1) % 2 ^ 64) % 4 = 0 := by
    norm_num
    omega
  refine ⟨?_, ?_, ?_⟩
  · rw [Nat.shiftRight_eq_div_pow, Nat.shiftLeft_eq]
    norm_num
    omega
  · rw [and_low_two _ 1 (by decide), h4]
    rfl
  · rw [and_low_two _ 2 (by decide), h4]
    rfl

/-- The result of `start_batch` for a phase bit of value `sv`, the other having
value `ov`, given the behaviour of the two bits in the state word read. -/
theorem Rcu.start_batch_core (E : Rcu.Env) (fuel : Nat) (s : Rcu.State) (r : Rcu) (sv ov : Nat)
    (hsv : E.val s = sv) (hm : E.RCU_CMP ||| E.RCU_PND = 3)
    (hcp : (E.RCU_CMP = 1 ∨ E.RCU_CMP = 2) ∧ (E.RCU_PND = 1 ∨ E.RCU_PND = 2))
    (ht : ((r.state ^^^ not64 sv) &&& 3 = 0 ↔ (r.state &&& sv = 0 ∧ r.state &&& ov ≠ 0)) ∧
      ((r.state &&& sv = 0 ∧ r.state &&& ov ≠ 0) → r.state ||| sv = 4 * (r.state / 4) + 3) ∧
      (r.state ||| sv) / 4 = r.state / 4 ∧ (r.state ||| sv) &&& sv ≠ 0 ∧
      (r.state &&& sv ≠ 0 → r.state ||| sv = r.state)) :
    ∃ r1, Rcu.start_batch E (fuel + 1) s r = some r1 ∧
      r1.log = r.log ++ [Rcu.Event.start_batch s] ∧
      r1.l_batch = r.l_batch ∧ r1.c_batch = r.c_batch ∧ r1.next = r.next ∧ r1.curr = r.curr ∧
      r1.done = r.done ∧ r1.hazard = r.hazard ∧ r1.cpu_count = r.cpu_count ∧
      (r.state >>> 2 ≠ r.l_batch → r1.state = r.state ∧ r1.count = r.count) ∧
      (r.state >>> 2 = r.l_batch → r.state &&& sv = 0 → r.state &&& ov ≠ 0 →
        r1.count = r.cpu_count ∧
        r1.state = ((r.state ||| sv) + 1) % 2 ^ 64 ∧
        r1.state = ((r.state >>> 2 + 1) <<< 2) % 2 ^ 64 ∧
        r1.state &&& E.RCU_CMP = 0 ∧ r1.state &&& E.RCU_PND = 0) ∧
      (r.state >>> 2 = r.l_batch → ¬ (r.state &&& sv = 0 ∧ r.state &&& ov ≠ 0) →
        r1.state = r.state ||| sv ∧ r1.state &&& sv ≠ 0 ∧ r1.count = r.count ∧
        r1.state >>> 2 = r.state >>> 2) := by
  obtain ⟨t1, t2, t3, t4, t5⟩ := ht
  rw [Rcu.start_batch, Rcu.start_batch_loop_eq]
  simp only [hsv, Rcu.start_batch_advance, hm]
  by_cases hb : r.state >>> 2 = r.l_batch
  · have hb1 : ¬ (r.state >>> 2 ≠ r.l_batch) := not_not.mpr hb
    simp only [if_neg hb1]
    by_cases hadv : r.state &&& sv = 0 ∧ r.state &&& ov ≠ 0
    · have hs0 : ¬ (r.state &&& sv ≠ 0) := not_not.mpr hadv.1
      have htest : ¬ ((r.state ^^^ not64 sv) &&& 3 ≠ 0) := not_not.mpr (t1.mpr hadv)
      simp only [if_neg hs0, if_neg htest]
      have hor := t2 hadv
      have hX := Rcu.advanced_state (r.state ||| sv) (by rw [t3]; exact hor)
      have hsh : (r.state ||| sv) >>> 2 = r.state >>> 2 := by
        rw [Nat.shiftRight_eq_div_pow, Nat.shiftRight_eq_div_pow]
        exact t3
      rw [hsh] at hX
      refine ⟨_, rfl, rfl, rfl, rfl, rfl, rfl, rfl, rfl, rfl, fun h => absurd hb h, ?_, ?_⟩
      · intro _ _ _
        refine ⟨rfl, rfl, hX.1, ?_, ?_⟩
        · rcases hcp.1 with h | h
          · rw [h]
            exact hX.2.1
          · rw [h]
            exact hX.2.2
        · rcases hcp.2 with h | h
          · rw [h]
            exact hX.2.1
          · rw [h]
            exact hX.2.2
      · intro _ hn
        exact absurd hadv hn
    · have htest : (r.state ^^^ not64 sv) &&& 3 ≠ 0 := fun h => hadv (t1.mp h)
      by_cases hs : r.state &&& sv ≠ 0
      · simp only [if_pos hs, if_pos htest]
        refine ⟨_, rfl, rfl, rfl, rfl, rfl, rfl, rfl, rfl, rfl, fun h => absurd hb h, ?_, ?_⟩
        · intro _ h1 h2
          exact absurd ⟨h1, h2⟩ hadv
        · intro _ _
          exact ⟨(t5 hs).symm, hs, rfl, rfl⟩
      · simp only [if_neg hs, if_pos htest]
        refine ⟨_, rfl, rfl, rfl, rfl, rfl, rfl, rfl, rfl, rfl, fun h => absurd hb h, ?_, ?_⟩
        · intro _ h1 h2
          exact absurd ⟨h1, h2⟩ hadv
        · intro _ _
          refine ⟨rfl, t4, rfl, ?_⟩
          show (r.state ||| sv) >>> 2 = r.state >>> 2
          rw [Nat.shiftRight_eq_div_pow, Nat.shiftRight_eq_div_pow]
          exact t3
  · simp only [if_pos hb]
    refine ⟨_, rfl, rfl, rfl, rfl, rfl, rfl, rfl, rfl, rfl, fun _ => ⟨rfl, rfl⟩, ?_, ?_⟩
    · intro h
      exact absurd h hb
    · intro h
      exact absurd h hb

/-- C16: `start_batch (s)` returns, and: if the global batch (`state >> 2`) differs
from the caller's `l_batch`, `state` and `count` are unchanged. Otherwise, exactly
when `s` was clear and the other phase bit was set, `s` is set, `count` is reset
to `Cpu::count` and the state word is incremented, which makes it
`(batch + 1) << 2` as a 64-bit word, with both phase bits clear; in every other case `s` is set in the state word (by the call
if it was not already), and `count` and the batch number are unchanged. Nothing
else of the coordinator changes. -/
theorem Rcu.start_batch_sets_phase_or_advances (E : Rcu.Env) (hE : E.phase_bits) (fuel : Nat)
    (s : Rcu.State) (r : Rcu) :
    ∃ r1, Rcu.start_batch E (fuel + 1) s r = some r1 ∧
      r1.log = r.log ++ [Rcu.Event.start_batch s] ∧
      r1.l_batch = r.l_batch ∧ r1.c_batch = r.c_batch ∧ r1.next = r.next ∧ r1.curr = r.curr ∧
      r1.done = r.done ∧ r1.hazard = r.hazard ∧ r1.cpu_count = r.cpu_count ∧
      (r.state >>> 2 ≠ r.l_batch → r1.state = r.state ∧ r1.count = r.count) ∧
      (r.state >>> 2 = r.l_batch → r.state &&& E.val s = 0 → r.state &&& E.val s.other ≠ 0 →
        r1.count = r.cpu_count ∧
        r1.state = ((r.state ||| E.val s) + 1) % 2 ^ 64 ∧
        r1.state = ((r.state >>> 2 + 1) <<< 2) % 2 ^ 64 ∧
        r1.state &&& E.RCU_CMP = 0 ∧ r1.state &&& E.RCU_PND = 0) ∧
      (r.state >>> 2 = r.l_batch →
        ¬ (r.state &&& E.val s = 0 ∧ r.state &&& E.val s.other ≠ 0) →
        r1.state = r.state ||| E.val s ∧ r1.state &&& E.val s ≠ 0 ∧ r1.count = r.count ∧
        r1.state >>> 2 = r.state >>> 2) := by
  rcases hE with ⟨hc, hp⟩ | ⟨hc, hp⟩
  · cases s
    · have hv : E.val Rcu.State.RCU_CMP = 1 := hc
      have ho : E.val Rcu.State.RCU_CMP.other = 2 := hp
      rw [hv, ho]
      exact Rcu.start_batch_core E fuel _ r 1 2 hv (by rw [hc, hp]; rfl)
        ⟨Or.inl hc, Or.inr hp⟩ (Rcu.phase_test_one r.state)
    · have hv : E.val Rcu.State.RCU_PND = 2 := hp
      have ho : E.val Rcu.State.RCU_PND.other = 1 := hc
      rw [hv, ho]
      exact Rcu.start_batch_core E fuel _ r 2 1 hv (by rw [hc, hp]; rfl)
        ⟨Or.inl hc, Or.inr hp⟩ (Rcu.phase_test_two r.state)
  · cases s
    · have hv : E.val Rcu.State.RCU_CMP = 2 := hc
      have ho : E.val Rcu.State.RCU_CMP.other = 1 := hp
      rw [hv, ho]
      exact Rcu.start_batch_core E fuel _ r 2 1 hv (by rw [hc, hp]; rfl)
        ⟨Or.inr hc, Or.inl hp⟩ (Rcu.phase_test_two r.state)
    · have hv : E.val Rcu.State.RCU_PND = 1 := hp
      have ho : E.val Rcu.State.RCU_PND.other = 2 := hc
      rw [hv, ho]
      exact Rcu.start_batch_core E fuel _ r 1 2 hv (by rw [hc, hp]; rfl)
        ⟨Or.inr hc, Or.inl hp⟩ (Rcu.phase_test_one r.state)

theorem Rcu.start_batch_sets_phase_or_advances_witness :
    Rcu.Env.sample.phase_bits ∧
    ∃ r1, Rcu.start_batch Rcu.Env.sample (0 + 1) Rcu.State.RCU_PND
        (Rcu.init Rcu.Env.sample 2) = some r1 ∧
      r1.log = (Rcu.init Rcu.Env.sample 2).log ++ [Rcu.Event.start_batch Rcu.State.RCU_PND] ∧
      r1.l_batch = (Rcu.init Rcu.Env.sample 2).l_batch ∧
      r1.c_batch = (Rcu.init Rcu.Env.sample 2).c_batch ∧
      r1.next = (Rcu.init Rcu.Env.sample 2).next ∧
      r1.curr = (Rcu.init Rcu.Env.sample 2).curr ∧
      r1.done = (Rcu.init Rcu.Env.sample 2).done ∧
      r1.hazard = (Rcu.init Rcu.Env.sample 2).hazard ∧
      r1.cpu_count = (Rcu.init Rcu.Env.sample 2).cpu_count ∧
      ((Rcu.init Rcu.Env.sample 2).state >>> 2 ≠ (Rcu.init Rcu.Env.sample 2).l_batch →
        r1.state = (Rcu.init Rcu.Env.sample 2).state ∧
        r1.count = (Rcu.init Rcu.Env.sample 2).count) ∧
      ((Rcu.init Rcu.Env.sample 2).state >>> 2 = (Rcu.init Rcu.Env.sample 2).l_batch →
        (Rcu.init Rcu.Env.sample 2).state &&& Rcu.Env.sample.val Rcu.State.RCU_PND = 0 →
        (Rcu.init Rcu.Env.sample 2).state &&& Rcu.Env.sample.val Rcu.State.RCU_PND.other ≠ 0 →
        r1.count = (Rcu.init Rcu.Env.sample 2).cpu_count ∧
        r1.state = (((Rcu.init Rcu.Env.sample 2).state |||
          Rcu.Env.sample.val Rcu.State.RCU_PND) + 1) % 2 ^ 64 ∧
        r1.state = (((Rcu.init Rcu.Env.sample 2).state >>> 2 + 1) <<< 2) % 2 ^ 64 ∧
        r1.state &&& Rcu.Env.sample.RCU_CMP = 0 ∧ r1.state &&& Rcu.Env.sample.RCU_PND = 0) ∧
      ((Rcu.init Rcu.Env.sample 2).state >>> 2 = (Rcu.init Rcu.Env.sample 2).l_batch →
        ¬ ((Rcu.init Rcu.Env.sample 2).state &&& Rcu.Env.sample.val Rcu.State.RCU_PND = 0 ∧
          (Rcu.init Rcu.Env.sample 2).state &&&
            Rcu.Env.sample.val Rcu.State.RCU_PND.other ≠ 0) →
        r1.state = (Rcu.init Rcu.Env.sample 2).state ||| Rcu.Env.sample.val Rcu.State.RCU_PND ∧
        r1.state &&& Rcu.Env.sample.val Rcu.State.RCU_PND ≠ 0 ∧
        r1.count = (Rcu.init Rcu.Env.sample 2).count ∧
        r1.state >>> 2 = (Rcu.init Rcu.Env.sample 2).state >>> 2) :=
  ⟨Or.inl ⟨rfl, rfl⟩,
    Rcu.start_batch_sets_phase_or_advances Rcu.Env.sample (Or.inl ⟨rfl, rfl⟩) 0
      Rcu.State.RCU_PND (Rcu.init Rcu.Env.sample 2)⟩

/-- Whatever the state word holds, `start_batch` returns after one pass, records
its invocation and changes only `state` and `count`. -/
theorem Rcu.start_batch_frame (E : Rcu.Env) (fuel : Nat) (s : Rcu.State) (r : Rcu) :
    ∃ r1, Rcu.start_batch E (fuel + 1) s r = some r1 ∧
      r1.log = r.log ++ [Rcu.Event.start_batch s] ∧
      r1.l_batch = r.l_batch ∧ r1.c_batch = r.c_batch ∧ r1.next = r.next ∧ r1.curr = r.curr ∧
      r1.done = r.done ∧ r1.hazard = r.hazard ∧ r1.cpu_count = r.cpu_count := by
  rw [Rcu.start_batch, Rcu.start_batch_loop_eq]
  simp only [Rcu.start_batch_advance]
  split_ifs <;> exact ⟨_, rfl, rfl, rfl, rfl, rfl, rfl, rfl, rfl, rfl⟩

theorem atomic_sub_fetch64_one (x : Nat) :
    (0 < x → x < 2 ^ 64 → atomic_sub_fetch64 x 1 = x - 1) ∧
    (x = 0 → atomic_sub_fetch64 x 1 = 2 ^ 64 - 1) ∧
    (x < 2 ^ 64 → (atomic_sub_fetch64 x 1 = 0 ↔ x = 1)) := by
  unfold atomic_sub_fetch64
  norm_num
  refine ⟨?_, ?_, ?_⟩
  · intro h0 h1
    omega
  · intro h
    subst h
    rfl
  · intro h
    omega

/-- C17: `quiet()` returns, having cleared the RCU bit of the CPU hazard word and
left every other bit of the 32-bit word unchanged; it decrements `count` by one
(as a 64-bit word: `count - 1` for a positive count, all ones for zero); if the
decremented count is not zero, nothing else happens (no `start_batch` is
recorded and the state word is unchanged), and if it is zero the result is that
of `start_batch (RCU_CMP)` on the state with the hazard bit cleared and `count`
zero, whose invocation is recorded. -/
theorem Rcu.quiet_clears_hazard_and_decrements (E : Rcu.Env) (fuel : Nat) (r : Rcu) :
    ∃ r1, Rcu.quiet E (fuel + 1) r = some r1 ∧
      r1.hazard = r.hazard &&& not32 Hazard.RCU ∧
      r1.hazard &&& Hazard.RCU = 0 ∧
      (∀ i, i < 32 → BIT i ≠ Hazard.RCU → r1.hazard.testBit i = r.hazard.testBit i) ∧
      (atomic_sub_fetch64 r.count 1 ≠ 0 →
        r1 = { r with hazard := r.hazard &&& not32 Hazard.RCU,
                      count := atomic_sub_fetch64 r.count 1 } ∧
        r1.log = r.log ∧ r1.state = r.state ∧ r1.count = atomic_sub_fetch64 r.count 1) ∧
      (atomic_sub_fetch64 r.count 1 = 0 →
        Rcu.start_batch E (fuel + 1) Rcu.State.RCU_CMP
          { r with hazard := r.hazard &&& not32 Hazard.RCU, count := 0 } = some r1 ∧
        r1.log = r.log ++ [Rcu.Event.start_batch Rcu.State.RCU_CMP]) ∧
      (0 < r.count → r.count < 2 ^ 64 → atomic_sub_fetch64 r.count 1 = r.count - 1) ∧
      (r.count = 0 → atomic_sub_fetch64 r.count 1 = 2 ^ 64 - 1) ∧
      (r.count < 2 ^ 64 → (atomic_sub_fetch64 r.count 1 = 0 ↔ r.count = 1)) := by
  have hbit : ∀ x : Nat, (x &&& not32 Hazard.RCU) &&& Hazard.RCU = 0 ∧
      ∀ i, i < 32 → BIT i ≠ Hazard.RCU →
        (x &&& not32 Hazard.RCU).testBit i = x.testBit i := by
    intro x
    refine ⟨Hazard.clr_and_BIT x 4, ?_⟩
    intro i hi hne
    have h4 : i ≠ 4 := fun h => hne (by rw [h]; rfl)
    rw [Nat.testBit_and, testBit_not32, Hazard.RCU, HZD_RCU, testBit_BIT]
    have h4b : ¬ (4 = i) := fun h => h4 h.symm
    simp [hi, h4b]
  have hs := atomic_sub_fetch64_one r.count
  by_cases hc : atomic_sub_fetch64 r.count 1 = 0
  · obtain ⟨r1, h1, hlog, _, _, _, _, _, hhz, _⟩ := Rcu.start_batch_frame E fuel Rcu.State.RCU_CMP
      { r with hazard := r.hazard &&& not32 Hazard.RCU, count := 0 }
    refine ⟨r1, ?_, hhz, ?_, ?_, fun h => absurd hc h, fun _ => ⟨h1, hlog⟩, hs.1, hs.2.1, hs.2.2⟩
    · simp only [Rcu.quiet, hc, if_true]
      exact h1
    · rw [hhz]
      exact (hbit r.hazard).1
    · rw [hhz]
      exact (hbit r.hazard).2
  · refine ⟨{ r with hazard := r.hazard &&& not32 Hazard.RCU,
                     count := atomic_sub_fetch64 r.count 1 }, ?_, rfl, (hbit r.hazard).1,
      (hbit r.hazard).2, fun _ => ⟨rfl, rfl, rfl, rfl⟩, fun h => absurd h hc, hs.1, hs.2.1, hs.2.2⟩
    simp only [Rcu.quiet, hc, if_false]

/-- The callbacks of a list are recorded in list order after the earlier events. -/
theorem Rcu.invoke_list_eq (xs : Rcu_list) (log : List Rcu.Event) :
    Rcu.invoke_list xs log = log ++ xs.map Rcu.Event.invoke := by
  induction xs generalizing log with
  | nil => simp [Rcu.invoke_list]
  | cons e n ih => simp [Rcu.invoke_list, ih]

/-- A list without a null element has a null head exactly when it is empty. -/
theorem Rcu_list.head_eq_nullptr_iff (l : Rcu_list) (h : nullptr ∉ l) :
    l.head = nullptr ↔ l = [] := by
  cases l with
  | nil => simp [Rcu_list.head]
  | cons e n =>
    simp only [Rcu_list.head, List.headD_cons]
    constructor
    · intro he
      exact absurd (he ▸ List.mem_cons_self e n) h
    · intro he
      cases he

theorem Rcu.update_owe_eq (r : Rcu) :
    (Rcu.update_owe r).l_batch = r.state >>> 2 ∧
    (Rcu.update_owe r).hazard
      = (if r.l_batch ≠ r.state >>> 2 then r.hazard ||| Hazard.RCU else r.hazard) ∧
    (Rcu.update_owe r).state = r.state ∧ (Rcu.update_owe r).count = r.count ∧
    (Rcu.update_owe r).c_batch = r.c_batch ∧ (Rcu.update_owe r).next = r.next ∧
    (Rcu.update_owe r).curr = r.curr ∧ (Rcu.update_owe r).done = r.done ∧
    (Rcu.update_owe r).log = r.log ∧ (Rcu.update_owe r).cpu_count = r.cpu_count := by
  unfold Rcu.update_owe Rcu.batch
  split_ifs with h
  · exact ⟨rfl, rfl, rfl, rfl, rfl, rfl, rfl, rfl, rfl, rfl⟩
  · rw [not_not] at h
    exact ⟨h, rfl, rfl, rfl, rfl, rfl, rfl, rfl, rfl, rfl⟩

/-- The steps of `update` after the first leave `l_batch` and the hazard word
alone, and `update` returns. -/
theorem Rcu.update_frame (E : Rcu.Env) (fuel : Nat) (r : Rcu) :
    ∃ r1, Rcu.update E (fuel + 1) r = some r1 ∧
      r1.l_batch = (Rcu.update_owe r).l_batch ∧ r1.hazard = (Rcu.update_owe r).hazard := by
  unfold Rcu.update Rcu.update_promote
  have hc : (Rcu.update_complete E (Rcu.update_owe r)).l_batch = (Rcu.update_owe r).l_batch ∧
      (Rcu.update_complete E (Rcu.update_owe r)).hazard = (Rcu.update_owe r).hazard := by
    unfold Rcu.update_complete
    split_ifs <;> exact ⟨rfl, rfl⟩
  have hi : ∀ x : Rcu, (Rcu.update_invoke x).l_batch = x.l_batch ∧
      (Rcu.update_invoke x).hazard = x.hazard := by
    intro x
    unfold Rcu.update_invoke Rcu.invoke_batch_seq
    split_ifs <;> exact ⟨rfl, rfl⟩
  split_ifs with hp
  · obtain ⟨r3, h3, _, hl, _, _, _, _, hh, _⟩ := Rcu.start_batch_frame E fuel Rcu.State.RCU_PND
      { Rcu.update_complete E (Rcu.update_owe r) with
        curr := (Rcu_list.append (Rcu.update_complete E (Rcu.update_owe r)).curr
          (Rcu.update_complete E (Rcu.update_owe r)).next).1,
        next := (Rcu_list.append (Rcu.update_complete E (Rcu.update_owe r)).curr
          (Rcu.update_complete E (Rcu.update_owe r)).next).2,
        c_batch := ((Rcu.update_complete E (Rcu.update_owe r)).l_batch + 1) % 2 ^ 64 }
    rw [h3]
    refine ⟨_, rfl, ?_, ?_⟩
    · rw [(hi r3).1, hl]
      exact hc.1
    · rw [(hi r3).2, hh]
      exact hc.2
  · refine ⟨_, rfl, ?_, ?_⟩
    · rw [(hi _).1]
      exact hc.1
    · rw [(hi _).2]
      exact hc.2

/-- C18: `update()` returns, and: if the last-seen batch `l_batch` differs from
the global batch (`state >> 2`) on entry, afterwards `l_batch` is the global
batch and the RCU bit of the CPU hazard word is set, the other bits being
unchanged; if they are equal on entry, `l_batch` and the hazard word are
unchanged. -/
theorem Rcu.update_owes_quiescence (E : Rcu.Env) (fuel : Nat) (r : Rcu) :
    ∃ r1, Rcu.update E (fuel + 1) r = some r1 ∧
      (r.l_batch ≠ r.batch →
        r1.l_batch = r.batch ∧ r1.hazard = r.hazard ||| Hazard.RCU ∧
        r1.hazard &&& Hazard.RCU ≠ 0 ∧
        ∀ i, BIT i ≠ Hazard.RCU → r1.hazard.testBit i = r.hazard.testBit i) ∧
      (r.l_batch = r.batch → r1.l_batch = r.l_batch ∧ r1.hazard = r.hazard) ∧
      r.batch = r.state >>> 2 := by
  obtain ⟨r1, h1, hl, hh⟩ := Rcu.update_frame E fuel r
  rw [(Rcu.update_owe_eq r).1] at hl
  rw [(Rcu.update_owe_eq r).2.1] at hh
  refine ⟨r1, h1, ?_, ?_, rfl⟩
  · intro hne
    have hne2 : r.l_batch ≠ r.state >>> 2 := hne
    rw [if_pos hne2] at hh
    refine ⟨hl, hh, ?_, ?_⟩
    · rw [hh, Hazard.RCU, HZD_RCU, and_BIT_ne_zero_iff, Nat.testBit_or, testBit_BIT]
      simp
    · intro i hi
      have h4 : ¬ (4 = i) := fun h => hi (by rw [← h]; rfl)
      rw [hh, Nat.testBit_or, Hazard.RCU, HZD_RCU, testBit_BIT]
      simp [h4]
  · intro he
    have he2 : ¬ (r.l_batch ≠ r.state >>> 2) := not_not.mpr he
    rw [if_neg he2] at hh
    exact ⟨hl.trans he.symm, hh⟩

/-- The completion step touches only `curr` and `done`. -/
theorem Rcu.update_complete_eq (E : Rcu.Env) (x : Rcu) (hc : nullptr ∉ x.curr) :
    (Rcu.update_complete E x).next = x.next ∧ (Rcu.update_complete E x).c_batch = x.c_batch ∧
    (Rcu.update_complete E x).l_batch = x.l_batch ∧ (Rcu.update_complete E x).state = x.state ∧
    (Rcu.update_complete E x).count = x.count ∧ (Rcu.update_complete E x).log = x.log ∧
    (x.curr ≠ [] ∧ E.complete x.state x.c_batch = true →
      (Rcu.update_complete E x).curr = [] ∧ (Rcu.update_complete E x).done = x.done ++ x.curr) ∧
    (¬ (x.curr ≠ [] ∧ E.complete x.state x.c_batch = true) →
      (Rcu.update_complete E x).curr = x.curr ∧ (Rcu.update_complete E x).done = x.done) := by
  unfold Rcu.update_complete
  simp only [ne_eq, Rcu_list.head_eq_nullptr_iff x.curr hc]
  split_ifs with h
  · exact ⟨rfl, rfl, rfl, rfl, rfl, rfl, fun _ => ⟨rfl, rfl⟩, fun hn => absurd h hn⟩
  · exact ⟨rfl, rfl, rfl, rfl, rfl, rfl, fun hp => absurd hp h, fun _ => ⟨rfl, rfl⟩⟩

/-- The last step of `update` invokes the callbacks of `done` and touches nothing
else but `done`. -/
theorem Rcu.update_invoke_eq (x : Rcu) (hd : nullptr ∉ x.done) :
    (Rcu.update_invoke x).log = x.log ++ x.done.map Rcu.Event.invoke ∧
    (Rcu.update_invoke x).done = [] ∧
    (Rcu.update_invoke x).next = x.next ∧ (Rcu.update_invoke x).curr = x.curr ∧
    (Rcu.update_invoke x).c_batch = x.c_batch ∧ (Rcu.update_invoke x).state = x.state ∧
    (Rcu.update_invoke x).count = x.count := by
  unfold Rcu.update_invoke Rcu.invoke_batch_seq
  simp only [ne_eq, Rcu_list.head_eq_nullptr_iff x.done hd]
  split_ifs with h
  · rw [h]
    simp
  · exact ⟨Rcu.invoke_list_eq _ _, rfl, rfl, rfl, rfl, rfl, rfl⟩

/-- C19: `update()` returns, and with `curr` and `done` as the completion step
leaves them (`curr` spliced onto `done` if it was non-empty and its batch
complete): when `curr` is then empty and `next` non-empty, afterwards `curr` is
the former `next`, in order, `next` is empty, `c_batch` is the global batch plus
one, and one `start_batch (RCU_PND)` is recorded, before the callbacks of `done`;
otherwise `next`, `c_batch`, `curr`, the state word and `count` are unchanged and
no `start_batch` is recorded. The lists hold no null element. -/
theorem Rcu.update_promotes_next (E : Rcu.Env) (fuel : Nat) (r : Rcu)
    (hn : nullptr ∉ r.next) (hc : nullptr ∉ r.curr) (hd : nullptr ∉ r.done) :
    ∃ r1, Rcu.update E (fuel + 1) r = some r1 ∧
      (r.curr ≠ [] ∧ E.complete r.state r.c_batch = true →
        (Rcu.update_complete E (Rcu.update_owe r)).curr = [] ∧
        (Rcu.update_complete E (Rcu.update_owe r)).done = r.done ++ r.curr) ∧
      (¬ (r.curr ≠ [] ∧ E.complete r.state r.c_batch = true) →
        (Rcu.update_complete E (Rcu.update_owe r)).curr = r.curr ∧
        (Rcu.update_complete E (Rcu.update_owe r)).done = r.done) ∧
      ((Rcu.update_complete E (Rcu.update_owe r)).curr = [] ∧ r.next ≠ [] →
        r1.curr = r.next ∧ r1.next = [] ∧
        r1.c_batch = (r.batch + 1) % 2 ^ 64 ∧
        (r.state < 2 ^ 64 → r1.c_batch = r.batch + 1) ∧
        r1.log = r.log ++ [Rcu.Event.start_batch Rcu.State.RCU_PND]
          ++ (Rcu.update_complete E (Rcu.update_owe r)).done.map Rcu.Event.invoke) ∧
      (¬ ((Rcu.update_complete E (Rcu.update_owe r)).curr = [] ∧ r.next ≠ []) →
        r1.next = r.next ∧ r1.c_batch = r.c_batch ∧
        r1.curr = (Rcu.update_complete E (Rcu.update_owe r)).curr ∧
        r1.state = r.state ∧ r1.count = r.count ∧
        r1.log = r.log
          ++ (Rcu.update_complete E (Rcu.update_owe r)).done.map Rcu.Event.invoke) := by
  obtain ⟨ol, _, ost, oct, ocb, onx, ocu, odn, olg, _⟩ := Rcu.update_owe_eq r
  have hc1 : nullptr ∉ (Rcu.update_owe r).curr := by rw [ocu]; exact hc
  obtain ⟨cnx, ccb, cl, cst, cct, clg, cyes, cno⟩ :=
    Rcu.update_complete_eq E (Rcu.update_owe r) hc1
  rw [ocu, ost, ocb, odn] at cyes cno
  rw [onx] at cnx
  rw [ocb] at ccb
  rw [ol] at cl
  rw [ost] at cst
  rw [oct] at cct
  rw [olg] at clg
  have hc2 : nullptr ∉ (Rcu.update_complete E (Rcu.update_owe r)).curr := by
    by_cases h : r.curr ≠ [] ∧ E.complete r.state r.c_batch = true
    · rw [(cyes h).1]
      simp
    · rw [(cno h).1]
      exact hc
  have hd2 : nullptr ∉ (Rcu.update_complete E (Rcu.update_owe r)).done := by
    by_cases h : r.curr ≠ [] ∧ E.complete r.state r.c_batch = true
    · rw [(cyes h).2]
      simp only [List.mem_append, not_or]
      exact ⟨hd, hc⟩
    · rw [(cno h).2]
      exact hd
  unfold Rcu.update Rcu.update_promote
  simp only [ne_eq, Rcu_list.head_eq_nullptr_iff _ hc2, cnx, Rcu_list.head_eq_nullptr_iff _ hn]
  generalize Rcu.update_complete E (Rcu.update_owe r) = r2 at *
  by_cases hp : r2.curr = [] ∧ ¬ r.next = []
  · rw [if_pos hp]
    obtain ⟨r3, h3, l3, _, c3, n3, u3, d3, _, _⟩ := Rcu.start_batch_frame E fuel Rcu.State.RCU_PND
      { r2 with curr := (Rcu_list.append r2.curr r.next).1,
                next := (Rcu_list.append r2.curr r.next).2,
                c_batch := (r2.l_batch + 1) % 2 ^ 64 }
    rw [h3]
    have hd3 : nullptr ∉ r3.done := by rw [d3]; exact hd2
    obtain ⟨il, _, inx, icu, icb, _, _⟩ := Rcu.update_invoke_eq r3 hd3
    refine ⟨_, rfl, cyes, cno, ?_, fun h => absurd hp h⟩
    intro _
    have hcb : (Rcu.update_invoke r3).c_batch = (r.batch + 1) % 2 ^ 64 := by
      rw [icb, c3]
      show (r2.l_batch + 1) % 2 ^ 64 = (r.batch + 1) % 2 ^ 64
      rw [cl]
      rfl
    refine ⟨?_, ?_, hcb, ?_, ?_⟩
    · rw [icu, u3]
      show r2.curr ++ r.next = r.next
      rw [hp.1, List.nil_append]
    · rw [inx, n3]
      rfl
    · intro hst
      rw [hcb]
      apply Nat.mod_eq_of_lt
      have : r.batch = r.state / 4 := by
        unfold Rcu.batch
        rw [Nat.shiftRight_eq_div_pow]
      rw [this]
      norm_num at hst ⊢
      omega
    · rw [il, l3, d3]
      show (r2.log ++ _) ++ _ = _
      rw [clg]
  · rw [if_neg hp]
    obtain ⟨il, _, inx, icu, icb, ist, ict⟩ := Rcu.update_invoke_eq r2 hd2
    refine ⟨_, rfl, cyes, cno, fun h => absurd h hp, ?_⟩
    intro _
    refine ⟨inx.trans cnx, icb.trans ccb, icu, ist.trans cst, ict.trans cct, ?_⟩
    rw [il, clg]

theorem Rcu.update_promotes_next_witness :
    nullptr ∉ ({ Rcu.init Rcu.Env.sample 2 with next := [8, 16] } : Rcu).next ∧
    ∃ r1, Rcu.update Rcu.Env.sample (0 + 1)
        { Rcu.init Rcu.Env.sample 2 with next := [8, 16] } = some r1 ∧
      r1.curr = [8, 16] ∧ r1.next = [] ∧ r1.c_batch = 1 ∧
      r1.log = [Rcu.Event.start_batch Rcu.State.RCU_PND] := by
  have hn : nullptr ∉ ({ Rcu.init Rcu.Env.sample 2 with next := [8, 16] } : Rcu).next := by
    decide
  obtain ⟨r1, h1, _, _, hp, _⟩ := Rcu.update_promotes_next Rcu.Env.sample 0
    { Rcu.init Rcu.Env.sample 2 with next := [8, 16] } hn (by decide) (by decide)
  have h := hp ⟨by decide, by decide⟩
  exact ⟨hn, r1, h1, h.1, h.2.1, h.2.2.2.1 (by decide), h.2.2.2.2⟩

/-! ### The traversal of `invoke_batch` -/

/-- The list that starts at a pointer is unique. -/
theorem Rcu.is_list_unique (h : Rcu_heap) :
    ∀ (xs : List Ptr) (p : Ptr) (ys : List Ptr),
      Rcu.is_list h p xs = true → Rcu.is_list h p ys = true → xs = ys := by
  intro xs
  induction xs with
  | nil =>
    intro p ys hx hy
    cases ys with
    | nil => rfl
    | cons e es =>
      simp only [Rcu.is_list, beq_iff_eq, Bool.and_eq_true, bne_iff_ne] at hx hy
      exact absurd (hy.1.1.symm.trans hx) hy.1.2
  | cons e es ih =>
    intro p ys hx hy
    cases ys with
    | nil =>
      simp only [Rcu.is_list, beq_iff_eq, Bool.and_eq_true, bne_iff_ne] at hx hy
      exact absurd (hx.1.1.symm.trans hy) hx.1.2
    | cons e2 es2 =>
      simp only [Rcu.is_list, beq_iff_eq, Bool.and_eq_true, bne_iff_ne] at hx hy
      have he : e = e2 := hx.1.1.symm.trans hy.1.1
      subst he
      cases hh : h e with
      | none =>
        rw [hh] at hx
        exact absurd hx.2 (by simp)
      | some el =>
        rw [hh] at hx hy
        rw [ih el.next es2 hx.2 hy.2]

/-- Every element of a list heads the rest of the list from it. -/
theorem Rcu.is_list_suffix (h : Rcu_heap) :
    ∀ (a : List Ptr) (p e : Ptr) (b : List Ptr),
      Rcu.is_list h p (a ++ e :: b) = true → Rcu.is_list h e (e :: b) = true := by
  intro a
  induction a with
  | nil =>
    intro p e b hx
    simp only [List.nil_append, Rcu.is_list, beq_iff_eq, Bool.and_eq_true, bne_iff_ne] at hx
    have hpe : p = e := hx.1.1
    subst hpe
    simp only [Rcu.is_list, beq_iff_eq, Bool.and_eq_true, bne_iff_ne]
    exact ⟨⟨trivial, hx.1.2⟩, hx.2⟩
  | cons x a ih =>
    intro p e b hx
    simp only [List.cons_append, Rcu.is_list, beq_iff_eq, Bool.and_eq_true, bne_iff_ne] at hx
    cases hh : h x with
    | none =>
      rw [hh] at hx
      exact absurd hx.2 (by simp)
    | some el =>
      rw [hh] at hx
      exact ih el.next e b hx.2

/-- A list that ends in the null pointer holds no element twice. -/
theorem Rcu.is_list_nodup (h : Rcu_heap) :
    ∀ (xs : List Ptr) (p : Ptr), Rcu.is_list h p xs = true → xs.Nodup := by
  intro xs
  induction xs with
  | nil =>
    intro _ _
    exact List.nodup_nil
  | cons e es ih =>
    intro p hx
    have hx0 := hx
    simp only [Rcu.is_list, beq_iff_eq, Bool.and_eq_true, bne_iff_ne] at hx
    cases hh : h e with
    | none =>
      rw [hh] at hx
      exact absurd hx.2 (by simp)
    | some el =>
      rw [hh] at hx
      rw [List.nodup_cons]
      refine ⟨?_, ih el.next hx.2⟩
      intro hmem
      obtain ⟨a, b, hab⟩ := List.append_of_mem hmem
      have hs : Rcu.is_list h e (e :: b) = true := by
        have h2 := hx.2
        rw [hab] at h2
        exact Rcu.is_list_suffix h a el.next e b h2
      have hx1 : Rcu.is_list h e (e :: es) = true := by
        have hpe : p = e := hx.1.1
        subst hpe
        exact hx0
      have hu := Rcu.is_list_unique h (e :: es) e (e :: b) hx1 hs
      have hl := congrArg List.length hu
      rw [hab] at hl
      simp only [List.length_cons, List.length_append] at hl
      omega

/-- Memories that agree on the elements of a list agree on the list. -/
theorem Rcu.is_list_congr (h1 h2 : Rcu_heap) :
    ∀ (xs : List Ptr) (p : Ptr), (∀ a, a ∈ xs → h1 a = h2 a) →
      Rcu.is_list h1 p xs = Rcu.is_list h2 p xs := by
  intro xs
  induction xs with
  | nil =>
    intro p _
    rfl
  | cons e es ih =>
    intro p hag
    simp only [Rcu.is_list]
    rw [hag e (List.mem_cons_self e es)]
    cases h2 e with
    | none => rfl
    | some el =>
      simp only
      rw [ih el.next (fun a ha => hag a (List.mem_cons_of_mem e ha))]

/-- The loop of `invoke_batch` on a list: with one unit of fuel per element it
ends, having called the callback of each element on that element, in list order. -/
theorem Rcu.invoke_batch_loop_eq (cb : Rcu_callbacks) :
    ∀ (xs : List Ptr) (fuel : Nat) (p : Ptr) (h : Rcu_heap) (calls : List (Nat × Ptr)),
      Rcu.is_list h p xs = true → Rcu.own_element_only cb xs → xs.length ≤ fuel →
      ∃ h1, Rcu.invoke_batch_loop cb fuel p h calls
        = some (h1, calls ++ xs.map (fun e => (Rcu.func_of h e, e))) := by
  intro xs
  induction xs with
  | nil =>
    intro fuel p h calls hl _ _
    simp only [Rcu.is_list, beq_iff_eq] at hl
    subst hl
    cases fuel <;> exact ⟨h, by simp [Rcu.invoke_batch_loop]⟩
  | cons e es ih =>
    intro fuel p h calls hl hown hfuel
    have hnd := Rcu.is_list_nodup h (e :: es) p hl
    rw [List.nodup_cons] at hnd
    simp only [Rcu.is_list, beq_iff_eq, Bool.and_eq_true, bne_iff_ne] at hl
    cases fuel with
    | zero => simp at hfuel
    | succ f =>
      cases hh : h e with
      | none =>
        rw [hh] at hl
        exact absurd hl.2 (by simp)
      | some el =>
        rw [hh] at hl
        have hpe : p = e := hl.1.1
        subst hpe
        have hag : ∀ a, a ∈ es → cb el.func p h a = h a := by
          intro a ha
          have hne : a ≠ p := fun hq => hnd.1 (hq ▸ ha)
          exact hown el.func p h a (List.mem_cons_of_mem p ha) hne
        have hl2 : Rcu.is_list (cb el.func p h) el.next es = true := by
          rw [Rcu.is_list_congr (cb el.func p h) h es el.next hag]
          exact hl.2
        have hown2 : Rcu.own_element_only cb es := by
          intro f2 e2 h2 a ha hne
          exact hown f2 e2 h2 a (List.mem_cons_of_mem p ha) hne
        have hf2 : es.length ≤ f := by
          simp only [List.length_cons] at hfuel
          omega
        obtain ⟨h1, hres⟩ := ih f el.next (cb el.func p h) (calls ++ [(el.func, p)]) hl2 hown2 hf2
        refine ⟨h1, ?_⟩
        have hnz : ¬ (p = nullptr) := hl.1.2
        simp only [Rcu.invoke_batch_loop, if_neg hnz, hh]
        rw [hres]
        have hfp : Rcu.func_of h p = el.func := by
          simp only [Rcu.func_of, hh]
        have hmap : es.map (fun e => (Rcu.func_of (cb el.func p h) e, e))
            = es.map (fun e => (Rcu.func_of h e, e)) := by
          apply List.map_congr_left
          intro a ha
          simp only [Rcu.func_of, hag a ha]
        rw [hmap]
        simp only [List.map_cons, hfp, List.append_assoc, List.singleton_append]

/-- C20: `invoke_batch()` drains `done`: for every list of elements that starts at
`done.head` and ends in the null pointer, and callbacks that leave the other
elements of the list alone (each may free or relink its own element), a run that
may take one loop iteration per element returns, having invoked the callback of
each element once, in list order, on that element (the successor is read before
the callback runs), and `done.head` is null afterwards. -/
theorem Rcu.invoke_batch_drains_done (cb : Rcu_callbacks) (fuel : Nat) (m : Rcu_mem)
    (xs : List Ptr) (hl : Rcu.is_list m.heap m.done_head xs = true)
    (hown : Rcu.own_element_only cb xs) (hfuel : xs.length ≤ fuel) :
    ∃ m1, Rcu.invoke_batch cb fuel m = some m1 ∧
      m1.done_head = nullptr ∧
      m1.calls = m.calls ++ xs.map (fun e => (Rcu.func_of m.heap e, e)) ∧
      xs.Nodup := by
  obtain ⟨h1, hres⟩ := Rcu.invoke_batch_loop_eq cb xs fuel m.done_head m.heap m.calls hl hown hfuel
  refine ⟨{ heap := h1, done_head := nullptr,
            calls := m.calls ++ xs.map (fun e => (Rcu.func_of m.heap e, e)) }, ?_, rfl, rfl,
    Rcu.is_list_nodup m.heap xs m.done_head hl⟩
  simp only [Rcu.invoke_batch, hres]

theorem Rcu.invoke_batch_drains_done_witness :
    Rcu.is_list Rcu_heap.sample 8 [8, 16, 24] = true ∧
    ∃ m1, Rcu.invoke_batch Rcu_callbacks.free 3
        { heap := Rcu_heap.sample, done_head := 8, calls := [] } = some m1 ∧
      m1.done_head = nullptr ∧ m1.calls = [(1, 8), (2, 16), (3, 24)] := by
  have hl : Rcu.is_list Rcu_heap.sample 8 [8, 16, 24] = true := by decide
  obtain ⟨m1, h1, hd, hc, _⟩ := Rcu.invoke_batch_drains_done Rcu_callbacks.free 3
    { heap := Rcu_heap.sample, done_head := 8, calls := [] } [8, 16, 24] hl
    (by
      intro f e h a _ hne
      simp only [Rcu_callbacks.free, if_neg hne])
    (by decide)
  refine ⟨hl, m1, h1, hd, ?_⟩
  rw [hc]
  decide


/-! ## Properties of the dispatcher past the point of no return -/

/-- When `handle_hazard` returns, it has run its last part on the state on entry,
and if its gate was open none of the four diversions applied. -/
theorem Ec.handle_hazard_ret (K : Consts) (h : Nat) (func : cont_t) (m m1 : Machine)
    (hr : Ec.handle_hazard K h func m = Outcome.ret m1) :
    Ec.handle_hazard_run K h m = Outcome.ret m1 ∧
    (h &&& (Hazard.ILLEGAL ||| Hazard.RECALL ||| K.SLEEP ||| Hazard.SCHED) ≠ 0 →
      m.cpu.hazard &&& K.SLEEP = 0 ∧ m.cpu.hazard &&& Hazard.SCHED = 0 ∧
      h &&& Hazard.ILLEGAL = 0 ∧ m.ec.regs.hazard &&& Hazard.RECALL = 0) := by
  unfold Ec.handle_hazard at hr
  simp only [Cpu.preemption_point] at hr
  split_ifs at hr with h1 h2 h3 h4 h5 h6
  · exact ⟨hr, fun _ => ⟨not_not.mp h2, not_not.mp h3, not_not.mp h4, not_not.mp h5⟩⟩
  · exact ⟨hr, fun hg => absurd hg h1⟩

/-- A return path reaches its architectural return either with no hazard at all,
in the state on entry, or after `handle_hazard` returned. -/
theorem Outcome.then_eret_eq_eret (K : Consts) (h : Nat) (func : cont_t) (m m1 : Machine)
    (hp : (if h ≠ 0 then Ec.handle_hazard K h func m else Outcome.ret m).then_eret
      = Outcome.eret m1) :
    (h = 0 ∧ m1 = m) ∨ (h ≠ 0 ∧ Ec.handle_hazard K h func m = Outcome.ret m1) := by
  by_cases h0 : h = 0
  · left
    rw [if_neg (not_not.mpr h0)] at hp
    simp only [Outcome.then_eret, Outcome.eret.injEq] at hp
    exact ⟨h0, hp.symm⟩
  · right
    rw [if_pos h0] at hp
    refine ⟨h0, ?_⟩
    obtain ⟨m2, hrun⟩ := Ec.handle_hazard_run_ret K h m
    unfold Ec.handle_hazard at hp ⊢
    simp only [Cpu.preemption_point] at hp ⊢
    rw [hrun] at hp ⊢
    split_ifs at hp ⊢ <;> simp_all [Outcome.then_eret]

/-- The last part of `handle_hazard` on the FPU: the trap-control register and the
FPU bit of the CPU hazard word; the EC and `Cpu::cptr` are not touched. -/
theorem Ec.handle_hazard_run_fpu (K : Consts) (h : Nat) (m m1 : Machine)
    (hr : Ec.handle_hazard_run K h m = Outcome.ret m1) :
    m1.ec = m.ec ∧ m1.cpu.cptr = m.cpu.cptr ∧
    m1.cpu.cptr_el2 = (if h &&& Hazard.FPU ≠ 0 then
      (if m.cpu.hazard &&& Hazard.FPU ≠ 0 then m.cpu.cptr ||| K.CPTR_TFP else m.cpu.cptr)
      else m.cpu.cptr_el2) ∧
    m1.cpu.hazard.testBit 16 = (if h &&& Hazard.FPU ≠ 0 then !m.cpu.hazard.testBit 16
      else m.cpu.hazard.testBit 16) := by
  simp only [Ec.handle_hazard_run, Outcome.ret.injEq] at hr
  subst hr
  have hF : ∀ x : Nat, x &&& Hazard.FPU ≠ 0 ↔ x.testBit 16 = true := fun x =>
    and_BIT_ne_zero_iff x 16
  refine ⟨?_, ?_, ?_, ?_⟩
  · split_ifs <;> rfl
  · simp only [Fpu.disable, Fpu.enable]
    split_ifs <;> rfl
  · simp only [Fpu.disable, Fpu.enable]
    split_ifs <;> rfl
  · simp only [Fpu.disable, Fpu.enable, hF]
    split_ifs <;>
      simp_all [Nat.testBit_and, Nat.testBit_or, testBit_not32, testBit_BIT, Hazard.FPU, HZD_FPU,
        Hazard.BOOT_HST, HZD_BOOT_HST, Hazard.BOOT_GST, HZD_BOOT_GST]

/-- The FPU bits of a state agree after a resolved mismatch. -/
theorem Ec.fpu_bits_agree (c e c1 : Nat) (hne : ((c ^^^ e) &&& Hazard.FPU) ≠ 0)
    (h1 : c1.testBit 16 = !c.testBit 16) :
    c1 &&& Hazard.FPU = e &&& Hazard.FPU ∧ (c1 ^^^ e) &&& Hazard.FPU = 0 := by
  have hx : (c ^^^ e).testBit 16 = true := (and_BIT_ne_zero_iff _ 16).mp hne
  rw [Nat.testBit_xor] at hx
  have he : c1.testBit 16 = e.testBit 16 := by
    rw [h1]
    revert hx
    cases c.testBit 16 <;> cases e.testBit 16 <;> simp
  refine ⟨(and_BIT_eq_and_BIT_iff c1 e 16).mpr he, ?_⟩
  rw [Hazard.FPU, HZD_FPU, and_BIT_eq_zero_iff, Nat.testBit_xor, he]
  simp

/-- C22: for every `handle_hazard` call that returns (it passed the point of no
return) with the FPU bit set in `h`: if the CPU hazard word has FPU set, the FPU is
disabled (`CPTR_EL2` is written with `Cpu::cptr | CPTR_TFP`, so with the trap bits
on, and the CPU bit is cleared), otherwise it is enabled (`CPTR_EL2` is written
with `Cpu::cptr`, so with the trap off when `Cpu::cptr` has no trap bit, and the
CPU bit is set); when `h` is the value a return path computes, afterwards the FPU
bits of the CPU and of the EC are equal and the effective FPU hazard is zero. When
the FPU bit is not in `h`, neither FPU bit nor `CPTR_EL2` is touched. The EC's
hazard word is never touched, and every return path that reaches its
architectural return does so with equal FPU bits. -/
theorem Ec.handle_hazard_resolves_fpu (K : Consts) (h : Nat) (func : cont_t) (m m1 : Machine) :
    (Ec.handle_hazard K h func m = Outcome.ret m1 →
      m1.ec = m.ec ∧ m1.cpu.cptr = m.cpu.cptr ∧
      (h &&& Hazard.FPU ≠ 0 → m.cpu.hazard &&& Hazard.FPU ≠ 0 →
        m1.cpu.cptr_el2 = m.cpu.cptr ||| K.CPTR_TFP ∧
        m1.cpu.cptr_el2 &&& K.CPTR_TFP = K.CPTR_TFP ∧
        m1.cpu.hazard &&& Hazard.FPU = 0) ∧
      (h &&& Hazard.FPU ≠ 0 → m.cpu.hazard &&& Hazard.FPU = 0 →
        m1.cpu.cptr_el2 = m.cpu.cptr ∧
        (m.cpu.cptr &&& K.CPTR_TFP = 0 → m1.cpu.cptr_el2 &&& K.CPTR_TFP = 0) ∧
        m1.cpu.hazard &&& Hazard.FPU ≠ 0) ∧
      (h &&& Hazard.FPU ≠ 0 →
        h &&& Hazard.FPU = (m.cpu.hazard ^^^ m.ec.regs.hazard) &&& Hazard.FPU →
        m1.cpu.hazard &&& Hazard.FPU = m1.ec.regs.hazard &&& Hazard.FPU ∧
        (m1.cpu.hazard ^^^ m1.ec.regs.hazard) &&& Hazard.FPU = 0) ∧
      (h &&& Hazard.FPU = 0 →
        m1.cpu.hazard &&& Hazard.FPU = m.cpu.hazard &&& Hazard.FPU ∧
        m1.ec.regs.hazard &&& Hazard.FPU = m.ec.regs.hazard &&& Hazard.FPU ∧
        m1.cpu.cptr_el2 = m.cpu.cptr_el2)) ∧
    ((Ec_arch.ret_user_hypercall K m = Outcome.eret m1 ∨
      Ec_arch.ret_user_exception K m = Outcome.eret m1 ∨
      Ec_arch.ret_user_vmexit K m = Outcome.eret m1) →
      m1.cpu.hazard &&& Hazard.FPU = m1.ec.regs.hazard &&& Hazard.FPU ∧
      (m1.cpu.hazard ^^^ m1.ec.regs.hazard) &&& Hazard.FPU = 0) := by
  have key : ∀ (h : Nat) (func : cont_t), Ec.handle_hazard K h func m = Outcome.ret m1 →
      m1.ec = m.ec ∧ m1.cpu.cptr = m.cpu.cptr ∧
      m1.cpu.cptr_el2 = (if h &&& Hazard.FPU ≠ 0 then
        (if m.cpu.hazard &&& Hazard.FPU ≠ 0 then m.cpu.cptr ||| K.CPTR_TFP else m.cpu.cptr)
        else m.cpu.cptr_el2) ∧
      m1.cpu.hazard.testBit 16 = (if h &&& Hazard.FPU ≠ 0 then !m.cpu.hazard.testBit 16
        else m.cpu.hazard.testBit 16) := fun h func hr =>
    Ec.handle_hazard_run_fpu K h m m1 (Ec.handle_hazard_ret K h func m m1 hr).1
  constructor
  · intro hr
    obtain ⟨hec, hcptr, hel2, hbit⟩ := key h func hr
    refine ⟨hec, hcptr, ?_, ?_, ?_, ?_⟩
    · intro hF hC
      rw [if_pos hF, if_pos hC] at hel2
      rw [if_pos hF] at hbit
      refine ⟨hel2, ?_, ?_⟩
      · rw [hel2]
        apply Nat.eq_of_testBit_eq
        intro i
        rw [Nat.testBit_and, Nat.testBit_or]
        cases m.cpu.cptr.testBit i <;> cases K.CPTR_TFP.testBit i <;> rfl
      · rw [Hazard.FPU, HZD_FPU, and_BIT_eq_zero_iff, hbit]
        rw [(and_BIT_ne_zero_iff m.cpu.hazard 16).mp hC]
        rfl
    · intro hF hC
      rw [if_pos hF, if_neg (not_not.mpr hC)] at hel2
      rw [if_pos hF] at hbit
      refine ⟨hel2, ?_, ?_⟩
      · intro h0
        rw [hel2]
        exact h0
      · rw [Hazard.FPU, HZD_FPU, and_BIT_ne_zero_iff, hbit]
        rw [(and_BIT_eq_zero_iff m.cpu.hazard 16).mp hC]
        rfl
    · intro hF hx
      rw [if_pos hF] at hbit
      rw [hec]
      exact Ec.fpu_bits_agree m.cpu.hazard m.ec.regs.hazard m1.cpu.hazard (hx ▸ hF) hbit
    · intro hF
      rw [if_neg (not_not.mpr hF)] at hel2 hbit
      refine ⟨(and_BIT_eq_and_BIT_iff _ _ 16).mpr hbit, ?_, hel2⟩
      rw [hec]
  · have path : ∀ (mask : Nat) (func : cont_t), mask.testBit 16 = true →
        (if (m.cpu.hazard ^^^ m.ec.regs.hazard) &&& mask ≠ 0 then
          Ec.handle_hazard K ((m.cpu.hazard ^^^ m.ec.regs.hazard) &&& mask) func m
          else Outcome.ret m).then_eret = Outcome.eret m1 →
        m1.cpu.hazard &&& Hazard.FPU = m1.ec.regs.hazard &&& Hazard.FPU ∧
        (m1.cpu.hazard ^^^ m1.ec.regs.hazard) &&& Hazard.FPU = 0 := by
      intro mask func hm hp
      have hbitF : ((m.cpu.hazard ^^^ m.ec.regs.hazard) &&& mask).testBit 16
          = (m.cpu.hazard ^^^ m.ec.regs.hazard).testBit 16 := by
        rw [Nat.testBit_and, hm, Bool.and_true]
      have hagree : ∀ c e : Nat, (c ^^^ e).testBit 16 = false →
          c &&& Hazard.FPU = e &&& Hazard.FPU ∧ (c ^^^ e) &&& Hazard.FPU = 0 := by
        intro c e hce
        refine ⟨(and_BIT_eq_and_BIT_iff c e 16).mpr ?_, (and_BIT_eq_zero_iff _ 16).mpr hce⟩
        rw [Nat.testBit_xor] at hce
        revert hce
        cases c.testBit 16 <;> cases e.testBit 16 <;> simp
      rcases Outcome.then_eret_eq_eret K _ func m m1 hp with ⟨h0, hm1⟩ | ⟨_, hr⟩
      · rw [hm1]
        apply hagree
        rw [← hbitF, h0, Nat.zero_testBit]
      · obtain ⟨hec, _, _, hbit⟩ := key _ func hr
        rw [hec]
        by_cases hF : ((m.cpu.hazard ^^^ m.ec.regs.hazard) &&& mask) &&& Hazard.FPU ≠ 0
        · rw [if_pos hF] at hbit
          have hx : ((m.cpu.hazard ^^^ m.ec.regs.hazard) &&& Hazard.FPU) ≠ 0 := by
            rw [Hazard.FPU, HZD_FPU, and_BIT_ne_zero_iff] at hF ⊢
            rw [← hbitF]
            exact hF
          exact Ec.fpu_bits_agree _ _ _ hx hbit
        · rw [if_neg hF] at hbit
          apply hagree
          rw [Nat.testBit_xor, hbit, ← Nat.testBit_xor, ← hbitF]
          exact (and_BIT_eq_zero_iff _ 16).mp (not_not.mp hF)
    have hmh : (Ec_arch.mask_hst K).testBit 16 = true := by
      rw [Ec_arch.mask_hst_eq, Nat.testBit_or, Hazard.FPU, HZD_FPU, testBit_BIT]
      simp
    have hmg : (Ec_arch.mask_gst K).testBit 16 = true := by
      rw [Ec_arch.mask_gst_eq, Nat.testBit_or, Hazard.FPU, HZD_FPU, testBit_BIT]
      simp
    rintro (hp | hp | hp)
    · exact path _ cont_t.ret_user_hypercall hmh hp
    · exact path _ cont_t.ret_user_exception hmh hp
    · exact path _ cont_t.ret_user_vmexit hmg hp

/-- C22, witness: at the sample constants, a host EC that wants the FPU (hazard
word `FPU`) dispatched on a CPU that holds none: the pass returns with the trap
off and the CPU bit set. -/
theorem Ec.handle_hazard_resolves_fpu_witness :
    Ec.handle_hazard Consts.sample Hazard.FPU cont_t.ret_user_exception
        (Machine.sample_hst Consts.sample 0 Hazard.FPU)
      = Outcome.ret { Machine.sample_hst Consts.sample 0 Hazard.FPU with
          cpu := { hazard := Hazard.FPU, cptr := 0, cptr_el2 := 0 } } ∧
    (0 : Nat) &&& Consts.sample.CPTR_TFP = 0 ∧
    Hazard.FPU &&& Hazard.FPU ≠ 0 :=
  have hr : Ec.handle_hazard Consts.sample Hazard.FPU cont_t.ret_user_exception
        (Machine.sample_hst Consts.sample 0 Hazard.FPU)
      = Outcome.ret { Machine.sample_hst Consts.sample 0 Hazard.FPU with
          cpu := { hazard := Hazard.FPU, cptr := 0, cptr_el2 := 0 } } := by decide
  have h := ((Ec.handle_hazard_resolves_fpu Consts.sample Hazard.FPU cont_t.ret_user_exception
    (Machine.sample_hst Consts.sample 0 Hazard.FPU) _).1 hr).2.2.2.1 (by decide) (by decide)
  ⟨hr, h.2.1 (by decide), h.2.2⟩

/-- The last part of `handle_hazard` on the boot metric: `first_hec` is traced once
exactly when `h` has `BOOT_HST`, and then `BOOT_HST` is clear on the CPU word. -/
theorem Ec.handle_hazard_run_boot (K : Consts) (h : Nat) (m m1 : Machine)
    (hr : Ec.handle_hazard_run K h m = Outcome.ret m1) :
    m1.perf.count Perf.first_hec
      = m.perf.count Perf.first_hec + (if h &&& Hazard.BOOT_HST ≠ 0 then 1 else 0) ∧
    (h &&& Hazard.BOOT_HST ≠ 0 → m1.cpu.hazard.testBit 5 = false) ∧
    (h &&& Hazard.BOOT_HST = 0 → m1.cpu.hazard.testBit 5 = m.cpu.hazard.testBit 5) ∧
    (∀ i, i < 32 → i ≠ 5 → i ≠ 16 →
      m1.cpu.hazard.testBit i
        = (m.cpu.hazard.testBit i && !(h.testBit 6 && decide (i = 6)))) := by
  simp only [Ec.handle_hazard_run, Outcome.ret.injEq] at hr
  subst hr
  have hG : h &&& Hazard.BOOT_GST ≠ 0 ↔ h.testBit 6 = true := and_BIT_ne_zero_iff h 6
  refine ⟨?_, ?_, ?_, ?_⟩
  · split_ifs <;> simp [List.count_append, List.count_cons]
  · intro hH
    simp only [Fpu.disable, Fpu.enable, if_pos hH]
    split_ifs <;>
      simp [Nat.testBit_and, Nat.testBit_or, testBit_not32, testBit_BIT, Hazard.FPU, HZD_FPU,
        Hazard.BOOT_HST, HZD_BOOT_HST, Hazard.BOOT_GST, HZD_BOOT_GST]
  · intro hH
    simp only [Fpu.disable, Fpu.enable, if_neg (not_not.mpr hH)]
    split_ifs <;>
      simp [Nat.testBit_and, Nat.testBit_or, testBit_not32, testBit_BIT, Hazard.FPU, HZD_FPU,
        Hazard.BOOT_HST, HZD_BOOT_HST, Hazard.BOOT_GST, HZD_BOOT_GST]
  · intro i hi h5 h16
    have h5b : ¬ (5 = i) := fun hh => h5 hh.symm
    have h16b : ¬ (16 = i) := fun hh => h16 hh.symm
    simp only [Fpu.disable, Fpu.enable, hG]
    by_cases h6 : i = 6
    · subst h6
      split_ifs with a1 <;>
        simp [Nat.testBit_and, Nat.testBit_or, testBit_not32, testBit_BIT, Hazard.FPU, HZD_FPU,
          Hazard.BOOT_HST, HZD_BOOT_HST, Hazard.BOOT_GST, HZD_BOOT_GST, a1]
    · have h6b : ¬ (6 = i) := fun hh => h6 hh.symm
      split_ifs <;>
        simp [Nat.testBit_and, Nat.testBit_or, testBit_not32, testBit_BIT, Hazard.FPU, HZD_FPU,
          Hazard.BOOT_HST, HZD_BOOT_HST, Hazard.BOOT_GST, HZD_BOOT_GST, hi, h5b, h16b, h6, h6b]

/-- No outcome of `handle_hazard` traces the first-host-EC line unless `h` has
`BOOT_HST`. -/
theorem Ec.handle_hazard_perf (K : Consts) (h : Nat) (func : cont_t) (m : Machine)
    (hH : h &&& Hazard.BOOT_HST = 0) :
    (Ec.handle_hazard K h func m).machine.perf.count Perf.first_hec
      = m.perf.count Perf.first_hec := by
  obtain ⟨m2, hrun⟩ := Ec.handle_hazard_run_ret K h m
  have hb := (Ec.handle_hazard_run_boot K h m m2 hrun).1
  rw [if_neg (not_not.mpr hH), Nat.add_zero] at hb
  unfold Ec.handle_hazard
  simp only [Cpu.preemption_point]
  rw [hrun]
  split_ifs <;>
    simp_all [Outcome.machine, Machine.set_cont, Machine.set_ec_hazard, Machine.set_ep]

/-- Bit 5 of the mask of the host paths is set, and bit 6 only through `SLEEP`. -/
theorem Ec_arch.mask_hst_boot (K : Consts) :
    (Ec_arch.mask_hst K).testBit 5 = true ∧
    (Ec_arch.mask_hst K).testBit 6 = K.SLEEP.testBit 6 := by
  simp [Ec_arch.mask_hst, Nat.testBit_or, testBit_BIT, Hazard.ILLEGAL, HZD_ILLEGAL,
    Hazard.RECALL, HZD_RECALL, Hazard.FPU, HZD_FPU, Hazard.BOOT_HST, HZD_BOOT_HST, Hazard.RCU,
    HZD_RCU, Hazard.SCHED, HZD_SCHED]

/-- One pass of a host return path (`func` is the path itself) that reaches its
architectural return with `BOOT_HST` pending on the CPU word only, and the pass
that follows it. -/
theorem Ec_arch.boot_pass (K : Consts) (func : cont_t) (m m1 : Machine)
    (hp : (if (m.cpu.hazard ^^^ m.ec.regs.hazard) &&& Ec_arch.mask_hst K ≠ 0 then
        Ec.handle_hazard K ((m.cpu.hazard ^^^ m.ec.regs.hazard) &&& Ec_arch.mask_hst K) func m
        else Outcome.ret m).then_eret = Outcome.eret m1)
    (hc : m.cpu.hazard &&& Hazard.BOOT_HST ≠ 0) (he : m.ec.regs.hazard &&& Hazard.BOOT_HST = 0) :
    m1.perf.count Perf.first_hec = m.perf.count Perf.first_hec + 1 ∧
    m1.cpu.hazard &&& Hazard.BOOT_HST = 0 ∧
    (∀ i, i < 32 → i ≠ 5 → i ≠ 16 → m1.cpu.hazard.testBit i = m.cpu.hazard.testBit i) ∧
    m1.ec = m.ec ∧
    ((m1.cpu.hazard ^^^ m1.ec.regs.hazard) &&& Ec_arch.mask_hst K) &&& Hazard.BOOT_HST = 0 ∧
    ∀ func2 : cont_t,
      ((if (m1.cpu.hazard ^^^ m1.ec.regs.hazard) &&& Ec_arch.mask_hst K ≠ 0 then
        Ec.handle_hazard K ((m1.cpu.hazard ^^^ m1.ec.regs.hazard) &&& Ec_arch.mask_hst K)
          func2 m1
        else Outcome.ret m1).then_eret).machine.perf.count Perf.first_hec
      = m1.perf.count Perf.first_hec := by
  have hc5 : m.cpu.hazard.testBit 5 = true := (and_BIT_ne_zero_iff _ 5).mp hc
  have he5 : m.ec.regs.hazard.testBit 5 = false := (and_BIT_eq_zero_iff _ 5).mp he
  have hh5 : ((m.cpu.hazard ^^^ m.ec.regs.hazard) &&& Ec_arch.mask_hst K).testBit 5 = true := by
    rw [Nat.testBit_and, Nat.testBit_xor, hc5, he5, (Ec_arch.mask_hst_boot K).1]
    rfl
  have hH : ((m.cpu.hazard ^^^ m.ec.regs.hazard) &&& Ec_arch.mask_hst K) &&& Hazard.BOOT_HST ≠ 0 :=
    (and_BIT_ne_zero_iff _ 5).mpr hh5
  rcases Outcome.then_eret_eq_eret K _ func m m1 hp with ⟨h0, _⟩ | ⟨_, hr⟩
  · exact absurd h0 (ne_zero_of_testBit _ 5 hh5)
  obtain ⟨hrun, hgate⟩ := Ec.handle_hazard_ret K _ func m m1 hr
  obtain ⟨hcount, hclr, _, hbits⟩ := Ec.handle_hazard_run_boot K _ m m1 hrun
  have hec : m1.ec = m.ec := (Ec.handle_hazard_run_fpu K _ m m1 hrun).1
  rw [if_pos hH] at hcount
  have h15 : m1.cpu.hazard.testBit 5 = false := hclr hH
  have hnext : ((m1.cpu.hazard ^^^ m1.ec.regs.hazard) &&& Ec_arch.mask_hst K)
      &&& Hazard.BOOT_HST = 0 := by
    rw [Hazard.BOOT_HST, HZD_BOOT_HST, and_BIT_eq_zero_iff, Nat.testBit_and, Nat.testBit_xor, h15,
      hec, he5]
    rfl
  refine ⟨hcount, (and_BIT_eq_zero_iff _ 5).mpr h15, ?_, hec, hnext, ?_⟩
  · intro i hi h5 h16
    rw [hbits i hi h5 h16]
    by_cases h6 : i = 6
    · subst h6
      by_cases hh6 : ((m.cpu.hazard ^^^ m.ec.regs.hazard) &&& Ec_arch.mask_hst K).testBit 6 = true
      · have hs6 : K.SLEEP.testBit 6 = true := by
          rw [Nat.testBit_and, (Ec_arch.mask_hst_boot K).2, Bool.and_eq_true] at hh6
          exact hh6.2
        have hg : ((m.cpu.hazard ^^^ m.ec.regs.hazard) &&& Ec_arch.mask_hst K)
            &&& (Hazard.ILLEGAL ||| Hazard.RECALL ||| K.SLEEP ||| Hazard.SCHED) ≠ 0 := by
          apply ne_zero_of_testBit _ 6
          rw [Nat.testBit_and, hh6]
          simp [Nat.testBit_or, hs6]
        have hcs := (eq_zero_iff_testBit _).mp (hgate hg).1 6
        rw [Nat.testBit_and, hs6, Bool.and_true] at hcs
        rw [hcs]
        rfl
      · rw [Bool.not_eq_true] at hh6
        rw [hh6]
        simp
    · simp [h6]
  · intro func2
    by_cases h2 : (m1.cpu.hazard ^^^ m1.ec.regs.hazard) &&& Ec_arch.mask_hst K ≠ 0
    · rw [if_pos h2, Outcome.then_eret_machine]
      exact Ec.handle_hazard_perf K _ func2 m1 hnext
    · rw [if_neg h2]
      rfl

/-- C23, counterexample: at the sample constants, a pass of `ret_user_exception`
(and of `ret_user_hypercall`) to the sample host EC on a CPU whose hazard word is
`BOOT_HST | SCHED`. `h` contains `BOOT_HST`, set on the CPU word; the pass enters
the scheduler before the boot branch: the first-host-EC metric is not traced and
`BOOT_HST` is still set on the CPU word. -/
theorem Ec_arch.boot_hst_pass_diverted_by_sched :
    Ec_arch.hazard_exception Consts.sample (Hazard.BOOT_HST ||| Hazard.SCHED) 0
      &&& Hazard.BOOT_HST ≠ 0 ∧
    Ec_arch.ret_user_exception Consts.sample
        (Machine.sample_hst Consts.sample (Hazard.BOOT_HST ||| Hazard.SCHED) 0)
      = Outcome.schedule ((Machine.sample_hst Consts.sample
          (Hazard.BOOT_HST ||| Hazard.SCHED) 0).set_cont cont_t.ret_user_exception) ∧
    Ec_arch.ret_user_hypercall Consts.sample
        (Machine.sample_hst Consts.sample (Hazard.BOOT_HST ||| Hazard.SCHED) 0)
      = Outcome.schedule ((Machine.sample_hst Consts.sample
          (Hazard.BOOT_HST ||| Hazard.SCHED) 0).set_cont cont_t.ret_user_hypercall) ∧
    ((Machine.sample_hst Consts.sample (Hazard.BOOT_HST ||| Hazard.SCHED) 0).set_cont
        cont_t.ret_user_exception).perf.count Perf.first_hec = 0 ∧
    ((Machine.sample_hst Consts.sample (Hazard.BOOT_HST ||| Hazard.SCHED) 0).set_cont
        cont_t.ret_user_exception).cpu.hazard &&& Hazard.BOOT_HST ≠ 0 := by
  refine ⟨by decide, by decide, by decide, by decide, by decide⟩

/-- C23, amended: for every pass of a host return path (`ret_user_hypercall` or
`ret_user_exception`) that passes the point of no return and reaches its
architectural return, with `BOOT_HST` set on the CPU word and not on the EC word
(so it is in `h`): the first-host-EC metric is traced exactly once, `BOOT_HST` is
clear on the CPU word afterwards, every other bit of the 32-bit CPU word except
the ownership-style FPU bit is unchanged and the EC is untouched; the pass that
follows for the same EC has no `BOOT_HST` in its `h` and, whatever its outcome,
does not trace the metric again. -/
theorem Ec_arch.boot_hst_reported_once (K : Consts) (m m1 : Machine)
    (hp : Ec_arch.ret_user_hypercall K m = Outcome.eret m1 ∨
      Ec_arch.ret_user_exception K m = Outcome.eret m1)
    (hc : m.cpu.hazard &&& Hazard.BOOT_HST ≠ 0) (he : m.ec.regs.hazard &&& Hazard.BOOT_HST = 0) :
    m1.perf.count Perf.first_hec = m.perf.count Perf.first_hec + 1 ∧
    m1.cpu.hazard &&& Hazard.BOOT_HST = 0 ∧
    (∀ i, i < 32 → i ≠ 5 → i ≠ 16 → m1.cpu.hazard.testBit i = m.cpu.hazard.testBit i) ∧
    m1.ec = m.ec ∧
    Ec_arch.hazard_hypercall K m1.cpu.hazard m1.ec.regs.hazard &&& Hazard.BOOT_HST = 0 ∧
    Ec_arch.hazard_exception K m1.cpu.hazard m1.ec.regs.hazard &&& Hazard.BOOT_HST = 0 ∧
    (Ec_arch.ret_user_hypercall K m1).machine.perf.count Perf.first_hec
      = m1.perf.count Perf.first_hec ∧
    (Ec_arch.ret_user_exception K m1).machine.perf.count Perf.first_hec
      = m1.perf.count Perf.first_hec := by
  have fin : ∀ func : cont_t,
      (if (m.cpu.hazard ^^^ m.ec.regs.hazard) &&& Ec_arch.mask_hst K ≠ 0 then
        Ec.handle_hazard K ((m.cpu.hazard ^^^ m.ec.regs.hazard) &&& Ec_arch.mask_hst K) func m
        else Outcome.ret m).then_eret = Outcome.eret m1 →
      m1.perf.count Perf.first_hec = m.perf.count Perf.first_hec + 1 ∧
      m1.cpu.hazard &&& Hazard.BOOT_HST = 0 ∧
      (∀ i, i < 32 → i ≠ 5 → i ≠ 16 → m1.cpu.hazard.testBit i = m.cpu.hazard.testBit i) ∧
      m1.ec = m.ec ∧
      Ec_arch.hazard_hypercall K m1.cpu.hazard m1.ec.regs.hazard &&& Hazard.BOOT_HST = 0 ∧
      Ec_arch.hazard_exception K m1.cpu.hazard m1.ec.regs.hazard &&& Hazard.BOOT_HST = 0 ∧
      (Ec_arch.ret_user_hypercall K m1).machine.perf.count Perf.first_hec
        = m1.perf.count Perf.first_hec ∧
      (Ec_arch.ret_user_exception K m1).machine.perf.count Perf.first_hec
        = m1.perf.count Perf.first_hec := by
    intro func hq
    obtain ⟨h1, h2, h3, h4, h5, h6⟩ := Ec_arch.boot_pass K func m m1 hq hc he
    exact ⟨h1, h2, h3, h4, h5, h5, h6 cont_t.ret_user_hypercall, h6 cont_t.ret_user_exception⟩
  rcases hp with hq | hq
  · exact fin cont_t.ret_user_hypercall hq
  · exact fin cont_t.ret_user_exception hq

/-- C23, witness: at the sample constants, the first `ret_user_exception` pass to
the sample host EC on a CPU whose hazard word is `BOOT_HST`. -/
theorem Ec_arch.boot_hst_reported_once_witness :
    Ec_arch.ret_user_exception Consts.sample (Machine.sample_hst Consts.sample Hazard.BOOT_HST 0)
      = Outcome.eret { Machine.sample_hst Consts.sample 0 0 with perf := [Perf.first_hec] } ∧
    (Ec_arch.ret_user_exception Consts.sample
      { Machine.sample_hst Consts.sample 0 0 with perf := [Perf.first_hec] }).machine.perf.count
        Perf.first_hec = 1 :=
  have hr : Ec_arch.ret_user_exception Consts.sample
      (Machine.sample_hst Consts.sample Hazard.BOOT_HST 0)
      = Outcome.eret { Machine.sample_hst Consts.sample 0 0 with perf := [Perf.first_hec] } := by
    decide
  ⟨hr, (Ec_arch.boot_hst_reported_once Consts.sample
    (Machine.sample_hst Consts.sample Hazard.BOOT_HST 0) _ (Or.inr hr) (by decide)
    (by decide)).2.2.2.2.2.2.2⟩

/-- C24: for all CPU and EC hazard words `c` and `e` in which no event-style bit
(ILLEGAL, RECALL, BOOT_HST, BOOT_GST, RCU, SLEEP, SCHED) is set in both words, the
value `(c ^ e) & MASK` of each of the three return paths equals the OR of `c` and
`e` on the event-style bits of that path's mask combined with their XOR on the
FPU bit. -/
theorem Ec_arch.hazard_xor_is_or_on_disjoint_events (K : Consts) (c e : Nat)
    (h : c &&& e &&& Spec.events K = 0) :
    Ec_arch.hazard_hypercall K c e = Spec.effective_hazard (Spec.events_hst K) c e ∧
    Ec_arch.hazard_exception K c e = Spec.effective_hazard (Spec.events_hst K) c e ∧
    Ec_arch.hazard_vmexit K c e = Spec.effective_hazard (Spec.events_gst K) c e := by
  have hh : c &&& e &&& Spec.events_hst K = 0 := by
    rw [eq_zero_iff_testBit] at h ⊢
    intro i
    have hi := h i
    simp only [Spec.events, Spec.events_hst, Nat.testBit_and, Nat.testBit_or] at hi ⊢
    revert hi
    cases c.testBit i <;> cases e.testBit i <;> cases Hazard.ILLEGAL.testBit i <;>
      cases Hazard.RECALL.testBit i <;> cases Hazard.BOOT_HST.testBit i <;>
      cases Hazard.RCU.testBit i <;> cases K.SLEEP.testBit i <;>
      cases Hazard.SCHED.testBit i <;> simp
  have hg : c &&& e &&& Spec.events_gst K = 0 := by
    rw [eq_zero_iff_testBit] at h ⊢
    intro i
    have hi := h i
    simp only [Spec.events, Spec.events_gst, Nat.testBit_and, Nat.testBit_or] at hi ⊢
    revert hi
    cases c.testBit i <;> cases e.testBit i <;> cases Hazard.ILLEGAL.testBit i <;>
      cases Hazard.RECALL.testBit i <;> cases Hazard.BOOT_GST.testBit i <;>
      cases Hazard.RCU.testBit i <;> cases K.SLEEP.testBit i <;>
      cases Hazard.SCHED.testBit i <;> simp
  refine ⟨?_, ?_, ?_⟩
  · rw [Ec_arch.hazard_hypercall, Ec_arch.mask_hst_eq]
    exact (xor_and_eq_effective_iff _ c e).mpr hh
  · rw [Ec_arch.hazard_exception, Ec_arch.mask_hst_eq]
    exact (xor_and_eq_effective_iff _ c e).mpr hh
  · rw [Ec_arch.hazard_vmexit, Ec_arch.mask_gst_eq]
    exact (xor_and_eq_effective_iff _ c e).mpr hg

/-- C24, witness: at the sample constants, `SCHED` and `FPU` on the CPU word,
`RECALL` and `FPU` on the EC word: no event-style bit is shared, and the host
paths compute `RECALL | SCHED`. -/
theorem Ec_arch.hazard_xor_is_or_on_disjoint_events_witness :
    (Hazard.SCHED ||| Hazard.FPU) &&& (Hazard.RECALL ||| Hazard.FPU)
      &&& Spec.events Consts.sample = 0 ∧
    Ec_arch.hazard_exception Consts.sample (Hazard.SCHED ||| Hazard.FPU)
        (Hazard.RECALL ||| Hazard.FPU)
      = Spec.effective_hazard (Spec.events_hst Consts.sample) (Hazard.SCHED ||| Hazard.FPU)
          (Hazard.RECALL ||| Hazard.FPU) ∧
    Spec.effective_hazard (Spec.events_hst Consts.sample) (Hazard.SCHED ||| Hazard.FPU)
        (Hazard.RECALL ||| Hazard.FPU) = Hazard.RECALL ||| Hazard.SCHED :=
  ⟨by decide,
    (Ec_arch.hazard_xor_is_or_on_disjoint_events Consts.sample _ _ (by decide)).2.1, by decide⟩

/-! ## Properties of FPU access -/

theorem Fpu.run_concat (K : Consts) (ops : List Fpu.Op) (op : Fpu.Op) (c : Cpu) :
    Fpu.run K (ops ++ [op]) c = Fpu.apply K (Fpu.run K ops c) op := by
  simp only [Fpu.run, List.foldl_append, List.foldl_cons, List.foldl_nil]

/-- One call changes neither `Cpu::cptr` nor any hazard bit but FPU. -/
theorem Fpu.apply_frame (K : Consts) (c : Cpu) (op : Fpu.Op) :
    (Fpu.apply K c op).cptr = c.cptr ∧
    ∀ i, i < 32 → i ≠ 16 → (Fpu.apply K c op).hazard.testBit i = c.hazard.testBit i := by
  cases op
  · refine ⟨rfl, ?_⟩
    intro i _ h16
    have h16b : ¬ (16 = i) := fun hh => h16 hh.symm
    simp [Fpu.apply, Fpu.enable, Nat.testBit_or, Hazard.FPU, HZD_FPU, testBit_BIT, h16b]
  · refine ⟨rfl, ?_⟩
    intro i hi h16
    have h16b : ¬ (16 = i) := fun hh => h16 hh.symm
    simp [Fpu.apply, Fpu.disable, Nat.testBit_and, testBit_not32, Hazard.FPU, HZD_FPU,
      testBit_BIT, h16b, hi]

theorem Fpu.run_frame (K : Consts) (ops : List Fpu.Op) (c : Cpu) :
    (Fpu.run K ops c).cptr = c.cptr ∧
    ∀ i, i < 32 → i ≠ 16 → (Fpu.run K ops c).hazard.testBit i = c.hazard.testBit i := by
  induction ops generalizing c with
  | nil => exact ⟨rfl, fun _ _ _ => rfl⟩
  | cons op ops ih =>
    have h1 := Fpu.apply_frame K c op
    have h2 := ih (Fpu.apply K c op)
    simp only [Fpu.run, List.foldl_cons] at h2 ⊢
    refine ⟨h2.1.trans h1.1, fun i hi h16 => (h2.2 i hi h16).trans (h1.2 i hi h16)⟩

/-- C25: `Fpu::enable` sets the FPU bit of the CPU hazard word and writes `CPTR_EL2`
with `Cpu::cptr`; `Fpu::disable` clears the FPU bit and writes `CPTR_EL2` with
`Cpu::cptr | CPTR_TFP`; neither changes `Cpu::cptr` or another bit of the 32-bit
hazard word. So, `CPTR_TFP` being a non-zero mask and `Cpu::cptr` having no bit
of it, after any non-empty sequence of the two calls the FPU hazard bit is set
if and only if the value last written to `CPTR_EL2` has the trap bit clear. -/
theorem Fpu.hazard_bit_tracks_access (K : Consts) (c : Cpu) (ops : List Fpu.Op)
    (hT : K.CPTR_TFP ≠ 0) (hc : c.cptr &&& K.CPTR_TFP = 0) (hne : ops ≠ []) :
    ((Fpu.run K ops c).hazard &&& Hazard.FPU ≠ 0 ↔
      (Fpu.run K ops c).cptr_el2 &&& K.CPTR_TFP = 0) ∧
    (∀ i, i < 32 → i ≠ 16 → (Fpu.run K ops c).hazard.testBit i = c.hazard.testBit i) ∧
    (Fpu.run K ops c).cptr = c.cptr ∧
    (Fpu.enable c).hazard &&& Hazard.FPU ≠ 0 ∧ (Fpu.enable c).cptr_el2 = c.cptr ∧
    (Fpu.enable c).cptr_el2 &&& K.CPTR_TFP = 0 ∧
    (∀ i, i ≠ 16 → (Fpu.enable c).hazard.testBit i = c.hazard.testBit i) ∧
    (Fpu.disable K c).hazard &&& Hazard.FPU = 0 ∧
    (Fpu.disable K c).cptr_el2 = c.cptr ||| K.CPTR_TFP ∧
    (Fpu.disable K c).cptr_el2 &&& K.CPTR_TFP = K.CPTR_TFP ∧
    (∀ i, i < 32 → i ≠ 16 → (Fpu.disable K c).hazard.testBit i = c.hazard.testBit i) := by
  have hen : ∀ d : Cpu, (Fpu.enable d).hazard &&& Hazard.FPU ≠ 0 := by
    intro d
    rw [Hazard.FPU, HZD_FPU, and_BIT_ne_zero_iff]
    simp [Fpu.enable, Nat.testBit_or, Hazard.FPU, HZD_FPU, testBit_BIT]
  have hdis : ∀ d : Cpu, (Fpu.disable K d).hazard &&& Hazard.FPU = 0 := fun d =>
    Hazard.clr_and_BIT d.hazard 16
  have hor : ∀ x : Nat, (x ||| K.CPTR_TFP) &&& K.CPTR_TFP = K.CPTR_TFP := by
    intro x
    apply Nat.eq_of_testBit_eq
    intro i
    rw [Nat.testBit_and, Nat.testBit_or]
    cases x.testBit i <;> cases K.CPTR_TFP.testBit i <;> rfl
  refine ⟨?_, (Fpu.run_frame K ops c).2, (Fpu.run_frame K ops c).1, hen c, rfl, hc, ?_, hdis c,
    rfl, hor c.cptr, ?_⟩
  · rcases List.eq_nil_or_concat ops with h0 | ⟨l, op, hl⟩
    · exact absurd h0 hne
    · rw [hl, List.concat_eq_append, Fpu.run_concat]
      have hcp : (Fpu.run K l c).cptr = c.cptr := (Fpu.run_frame K l c).1
      cases op
      · simp only [Fpu.apply]
        constructor
        · intro _
          show (Fpu.run K l c).cptr &&& K.CPTR_TFP = 0
          rw [hcp]
          exact hc
        · intro _
          exact hen _
      · simp only [Fpu.apply]
        constructor
        · intro h
          exact absurd (hdis _) h
        · intro h
          have h2 : ((Fpu.run K l c).cptr ||| K.CPTR_TFP) &&& K.CPTR_TFP = 0 := h
          rw [hor] at h2
          exact absurd h2 hT
  · intro i h16
    have h16b : ¬ (16 = i) := fun hh => h16 hh.symm
    simp [Fpu.enable, Nat.testBit_or, Hazard.FPU, HZD_FPU, testBit_BIT, h16b]
  · intro i hi h16
    exact (Fpu.apply_frame K c Fpu.Op.disable).2 i hi h16

/-- C25, witness: at the sample constants, enable, disable, enable on a CPU with
base value 0: the FPU bit ends set and the last value written has no trap bit. -/
theorem Fpu.hazard_bit_tracks_access_witness :
    Consts.sample.CPTR_TFP ≠ 0 ∧
    ((Fpu.run Consts.sample [Fpu.Op.enable, Fpu.Op.disable, Fpu.Op.enable]
        { hazard := Hazard.SCHED, cptr := 0, cptr_el2 := 0 }).hazard &&& Hazard.FPU ≠ 0 ↔
      (Fpu.run Consts.sample [Fpu.Op.enable, Fpu.Op.disable, Fpu.Op.enable]
        { hazard := Hazard.SCHED, cptr := 0, cptr_el2 := 0 }).cptr_el2
          &&& Consts.sample.CPTR_TFP = 0) :=
  ⟨by decide, (Fpu.hazard_bit_tracks_access Consts.sample
    { hazard := Hazard.SCHED, cptr := 0, cptr_el2 := 0 }
    [Fpu.Op.enable, Fpu.Op.disable, Fpu.Op.enable] (by decide) (by decide) (by decide)).1⟩

/-! ## Properties of the stage-2 leaf attributes -/

theorem testBit_mul_toNat (x : Nat) (b : Bool) (i : Nat) :
    (x * b.toNat).testBit i = (x.testBit i && b) := by
  cases b <;> simp

theorem testBit_toNat_mul (x : Nat) (b : Bool) (i : Nat) :
    (b.toNat * x).testBit i = (x.testBit i && b) := by
  cases b <;> simp

theorem testBit_BIT64 (n i : Nat) : (BIT64 n).testBit i = decide (n = i) := by
  rw [BIT64, Nat.one_shiftLeft, Nat.testBit_two_pow]

theorem and_BIT64_eq_zero_iff (x n : Nat) : x &&& BIT64 n = 0 ↔ x.testBit n = false := by
  rw [BIT64, Nat.one_shiftLeft, and_two_pow_eq_zero_iff]

/-- The bits of a leaf attribute word that `page_pm` reads, and its present bit. -/
theorem Npt.page_attr_bits (P : Paging) (npt_attr : Nat → Nat) (l pm ca sh : Nat)
    (h : pm &&& P.API ≠ 0) :
    (Npt.page_attr P npt_attr true l pm ca sh).testBit 55 = pm.testBit P.k ∧
    (Npt.page_attr P npt_attr true l pm ca sh).testBit 54 = !pm.testBit P.xu ∧
    (Npt.page_attr P npt_attr true l pm ca sh).testBit 53
      = xor (pm.testBit P.xs) (pm.testBit P.xu) ∧
    (Npt.page_attr P npt_attr true l pm ca sh).testBit 7 = pm.testBit P.w ∧
    (Npt.page_attr P npt_attr true l pm ca sh).testBit 6 = pm.testBit P.r ∧
    (Npt.page_attr P npt_attr true l pm ca sh).testBit 0 = true := by
  have hK : ∀ p : Nat, decide (pm &&& BIT p ≠ 0) = pm.testBit p := by
    intro p
    cases hb : pm.testBit p
    · simp [(and_BIT_eq_zero_iff pm p).mpr hb]
    · simp [(and_BIT_ne_zero_iff pm p).mpr hb]
  have hN : ∀ p : Nat, decide (pm &&& BIT p = 0) = !pm.testBit p := by
    intro p
    cases hb : pm.testBit p
    · simp [(and_BIT_eq_zero_iff pm p).mpr hb]
    · simp [(and_BIT_ne_zero_iff pm p).mpr hb]
  have h3 : ∀ j : Nat, 2 ≤ j → (3 : Nat).testBit j = false := by
    intro j hj
    apply Nat.testBit_lt_two_pow
    calc 3 < 2 ^ 2 := by decide
      _ ≤ 2 ^ j := Nat.pow_le_pow_right (by decide) hj
  have h15 : ∀ j : Nat, 4 ≤ j → (15 : Nat).testBit j = false := by
    intro j hj
    apply Nat.testBit_lt_two_pow
    calc 15 < 2 ^ 4 := by decide
      _ ≤ 2 ^ j := Nat.pow_le_pow_right (by decide) hj
  simp only [Npt.page_attr, if_neg h, Paging.K, Paging.XS, Paging.XU, Paging.W, Paging.R, hK, hN,
    Npt.ATTR_K, Npt.ATTR_nX1, Npt.ATTR_nX0, Npt.ATTR_W, Npt.ATTR_R, Npt.ATTR_nL, Npt.ATTR_A,
    Npt.ATTR_P, Nat.testBit_or, testBit_mul_toNat, testBit_toNat_mul, testBit_BIT64,
    Nat.testBit_shiftLeft, Nat.testBit_and]
  refine ⟨?_, ?_, ?_, ?_, ?_, ?_⟩
  · simp [h3 47, h15 53]
  · simp [h3 46, h15 52]
  · simp [h3 45, h15 51]
  · simp [h15 5]
  · simp [h15 4]
  · simp

/-- A permission bit of `pm`, placed at its own position, is the bit of `pm` there. -/
theorem Paging.bit_at (x p i : Nat) (b : Bool) (hb : b = x.testBit p) :
    ((b.toNat * BIT p).testBit i) = (x.testBit i && decide (p = i)) := by
  rw [testBit_toNat_mul, testBit_BIT, hb]
  by_cases hp : p = i
  · subst hp
    simp
  · simp [hp]

/-- C26: with `Npt::xnx` true, for every level `l`, every permission set `pm` with
at least one bit of `Paging::API` (R, W, XU, XS), and every cacheability and
shareability, `page_pm (page_attr (l, pm, ca, sh))` is `pm` restricted to K, XS,
XU, W and R; and for every `pm` with no bit of `Paging::API`, whatever `xnx` is,
`page_attr` returns 0 (not present) and `page_pm (0)` is the empty permission
set. -/
theorem Npt.page_pm_page_attr (P : Paging) (npt_attr : Nat → Nat) (xnx : Bool)
    (l pm ca sh : Nat) :
    (pm &&& P.API ≠ 0 →
      Npt.page_pm P (Npt.page_attr P npt_attr true l pm ca sh)
        = pm &&& (P.K ||| P.XS ||| P.XU ||| P.W ||| P.R)) ∧
    (pm &&& P.API = 0 →
      Npt.page_attr P npt_attr xnx l pm ca sh = 0 ∧
      Npt.page_pm P (Npt.page_attr P npt_attr xnx l pm ca sh) = 0) := by
  constructor
  · intro h
    obtain ⟨b55, b54, b53, b7, b6, b0⟩ := Npt.page_attr_bits P npt_attr l pm ca sh h
    have hne : Npt.page_attr P npt_attr true l pm ca sh ≠ 0 := ne_zero_of_testBit _ 0 b0
    have hK : ∀ n : Nat, decide (Npt.page_attr P npt_attr true l pm ca sh &&& BIT64 n ≠ 0)
        = (Npt.page_attr P npt_attr true l pm ca sh).testBit n := by
      intro n
      cases hb : (Npt.page_attr P npt_attr true l pm ca sh).testBit n
      · simp [(and_BIT64_eq_zero_iff _ n).mpr hb]
      · have : Npt.page_attr P npt_attr true l pm ca sh &&& BIT64 n ≠ 0 := by
          rw [Ne, and_BIT64_eq_zero_iff, hb]
          simp
        simp [this]
    have hN : ∀ n : Nat, decide (Npt.page_attr P npt_attr true l pm ca sh &&& BIT64 n = 0)
        = !(Npt.page_attr P npt_attr true l pm ca sh).testBit n := by
      intro n
      cases hb : (Npt.page_attr P npt_attr true l pm ca sh).testBit n
      · simp [(and_BIT64_eq_zero_iff _ n).mpr hb]
      · have : Npt.page_attr P npt_attr true l pm ca sh &&& BIT64 n ≠ 0 := by
          rw [Ne, and_BIT64_eq_zero_iff, hb]
          simp
        simp [this]
    simp only [Npt.page_pm, if_neg hne, Npt.ATTR_K, Npt.ATTR_nX1, Npt.ATTR_nX0, Npt.ATTR_W,
      Npt.ATTR_R, hK, hN, b55, b54, b53, b7, b6]
    apply Nat.eq_of_testBit_eq
    intro i
    simp only [Nat.testBit_or, Nat.testBit_and, Paging.K, Paging.XS, Paging.XU, Paging.W,
      Paging.R]
    rw [Paging.bit_at pm P.k i _ rfl, Paging.bit_at pm P.xu i _ (by simp),
      Paging.bit_at pm P.w i _ rfl, Paging.bit_at pm P.r i _ rfl,
      Paging.bit_at pm P.xs i _
        (by cases pm.testBit P.xs <;> cases pm.testBit P.xu <;> rfl)]
    simp only [testBit_BIT]
    cases pm.testBit i <;> cases decide (P.k = i) <;> cases decide (P.xs = i) <;>
      cases decide (P.xu = i) <;> cases decide (P.w = i) <;> cases decide (P.r = i) <;> rfl
  · intro h
    have h0 : Npt.page_attr P npt_attr xnx l pm ca sh = 0 := by
      simp only [Npt.page_attr, if_pos h]
    rw [h0]
    exact ⟨rfl, rfl⟩

/-! ## Properties of the per-CPU identity -/

/-- C27: for every value `v`, `constrain_hcr (v)` is a 64-bit value that has no bit
of `hyp0_hcr` or `res0_hcr` set, has every bit (of the 64) of `hyp1_hcr` that is
not in `hyp0_hcr | res0_hcr` set, and agrees with `v` on every remaining bit of
the 64; consequently `constrain_hcr` is idempotent. The value that
`fill_info_regs` reports is `hyp1_hcr` without the bits of `hyp0_hcr | res0_hcr`. -/
theorem Cpu.constrain_hcr_constrains (H : Hcr) (res0_hcr v : Nat) :
    Cpu.constrain_hcr H res0_hcr v < 2 ^ 64 ∧
    Cpu.constrain_hcr H res0_hcr v &&& (Cpu.hyp0_hcr H ||| res0_hcr) = 0 ∧
    (∀ i, (Cpu.hyp0_hcr H).testBit i = true ∨ res0_hcr.testBit i = true →
      (Cpu.constrain_hcr H res0_hcr v).testBit i = false) ∧
    (∀ i, i < 64 → (Cpu.hyp1_hcr H).testBit i = true →
      (Cpu.hyp0_hcr H ||| res0_hcr).testBit i = false →
      (Cpu.constrain_hcr H res0_hcr v).testBit i = true) ∧
    (∀ i, i < 64 → (Cpu.hyp1_hcr H).testBit i = false →
      (Cpu.hyp0_hcr H ||| res0_hcr).testBit i = false →
      (Cpu.constrain_hcr H res0_hcr v).testBit i = v.testBit i) ∧
    Cpu.constrain_hcr H res0_hcr (Cpu.constrain_hcr H res0_hcr v)
      = Cpu.constrain_hcr H res0_hcr v ∧
    Cpu.fill_info_regs_hcr H res0_hcr
      = Cpu.hyp1_hcr H &&& not64 (Cpu.hyp0_hcr H ||| res0_hcr) := by
  have hbit : ∀ (w i : Nat), (Cpu.constrain_hcr H res0_hcr w).testBit i
      = ((w.testBit i || (Cpu.hyp1_hcr H).testBit i) &&
        (decide (i < 64) && !(Cpu.hyp0_hcr H ||| res0_hcr).testBit i)) := by
    intro w i
    rw [Cpu.constrain_hcr, Nat.testBit_and, Nat.testBit_or, testBit_not64]
  refine ⟨?_, ?_, ?_, ?_, ?_, ?_, ?_⟩
  · apply Nat.lt_of_testBit 64
    · rw [hbit]
      simp
    · exact Nat.testBit_two_pow_self
    · intro j hj
      rw [hbit, Nat.testBit_two_pow]
      have h1 : ¬ (j < 64) := by omega
      have h2 : ¬ (64 = j) := by omega
      simp [h1, h2]
  · rw [eq_zero_iff_testBit]
    intro i
    rw [Nat.testBit_and, hbit]
    cases (Cpu.hyp0_hcr H ||| res0_hcr).testBit i <;> simp
  · intro i hi
    have h01 : (Cpu.hyp0_hcr H ||| res0_hcr).testBit i = true := by
      rw [Nat.testBit_or, Bool.or_eq_true]
      exact hi
    rw [hbit, h01]
    simp
  · intro i hi h1 h0
    rw [hbit, h1, h0]
    simp [hi]
  · intro i hi h1 h0
    rw [hbit, h1, h0]
    simp [hi]
  · apply Nat.eq_of_testBit_eq
    intro i
    rw [hbit, hbit]
    cases v.testBit i <;> cases (Cpu.hyp1_hcr H).testBit i <;> cases decide (i < 64) <;>
      cases (Cpu.hyp0_hcr H ||| res0_hcr).testBit i <;> rfl
  · rw [Cpu.fill_info_regs_hcr, Cpu.constrain_hcr, Nat.zero_or]

/-- The expression shared by the overloads of `Cpu::feature`, on an index inside
the array: the 4-bit field number `f mod 16` of the word number `f / 16`. -/
theorem Cpu.feature_of_eq (feat : List Nat) (f : Nat) (h : f / 16 < feat.length) :
    ∃ w, feat[f / 16]? = some w ∧
      Cpu.feature_of feat f = some (w / 2 ^ (4 * (f % 16)) % 16) ∧
      w / 2 ^ (4 * (f % 16)) % 16 < 16 := by
  refine ⟨feat[f / 16], List.getElem?_eq_getElem h, ?_, Nat.mod_lt _ (by decide)⟩
  have hm : BIT_RANGE 3 0 = 2 ^ 4 - 1 := by decide
  simp only [Cpu.feature_of, List.getElem?_eq_getElem h, hm, Nat.and_pow_two_sub_one_eq_mod,
    Nat.shiftRight_eq_div_pow, Nat.mul_comm (f % 16) 4]
  congr 1
  have hlt : feat[f / 16] / 2 ^ (4 * (f % 16)) % 2 ^ 4 < 16 := Nat.mod_lt _ (by decide)
  have h16 : (2 : Nat) ^ 4 = 16 := by decide
  rw [h16] at hlt ⊢
  apply Nat.mod_eq_of_lt
  calc _ < 16 := hlt
    _ < 2 ^ 32 := by decide

/-- C28: for every enumerator `f` of `Cpu_feature`, `Dbg_feature`, `Isa_feature`
and `Mem_feature`, the word index `f / 16` that `Cpu::feature (f)` uses is
strictly less than the declared length of the corresponding feature array (2,
2, 3 and 3 words), so the lookup has a result, and the result is exactly the
4-bit field number `f mod 16` of that word, a value below 16. -/
theorem Cpu.feature_in_bounds (F : Cpu.Feat) (hF : F.declared) :
    (∀ f : Cpu.Cpu_feature, f.val / 16 < 2 ∧ f.val / 16 < F.feat_cpu64.length ∧
      ∃ w, F.feat_cpu64[f.val / 16]? = some w ∧
        Cpu.feature_cpu F f = some (w / 2 ^ (4 * (f.val % 16)) % 16) ∧
        w / 2 ^ (4 * (f.val % 16)) % 16 < 16) ∧
    (∀ f : Cpu.Dbg_feature, f.val / 16 < 2 ∧ f.val / 16 < F.feat_dbg64.length ∧
      ∃ w, F.feat_dbg64[f.val / 16]? = some w ∧
        Cpu.feature_dbg F f = some (w / 2 ^ (4 * (f.val % 16)) % 16) ∧
        w / 2 ^ (4 * (f.val % 16)) % 16 < 16) ∧
    (∀ f : Cpu.Isa_feature, f.val / 16 < 3 ∧ f.val / 16 < F.feat_isa64.length ∧
      ∃ w, F.feat_isa64[f.val / 16]? = some w ∧
        Cpu.feature_isa F f = some (w / 2 ^ (4 * (f.val % 16)) % 16) ∧
        w / 2 ^ (4 * (f.val % 16)) % 16 < 16) ∧
    (∀ f : Cpu.Mem_feature, f.val / 16 < 3 ∧ f.val / 16 < F.feat_mem64.length ∧
      ∃ w, F.feat_mem64[f.val / 16]? = some w ∧
        Cpu.feature_mem F f = some (w / 2 ^ (4 * (f.val % 16)) % 16) ∧
        w / 2 ^ (4 * (f.val % 16)) % 16 < 16) := by
  obtain ⟨hc, hd, hi, hm⟩ := hF
  refine ⟨?_, ?_, ?_, ?_⟩
  · intro f
    have hb : f.val / 16 < 2 := by cases f <;> decide
    exact ⟨hb, hc ▸ hb, Cpu.feature_of_eq F.feat_cpu64 f.val (hc ▸ hb)⟩
  · intro f
    have hb : f.val / 16 < 2 := by cases f <;> decide
    exact ⟨hb, hd ▸ hb, Cpu.feature_of_eq F.feat_dbg64 f.val (hd ▸ hb)⟩
  · intro f
    have hb : f.val / 16 < 3 := by cases f <;> decide
    exact ⟨hb, hi ▸ hb, Cpu.feature_of_eq F.feat_isa64 f.val (hi ▸ hb)⟩
  · intro f
    have hb : f.val / 16 < 3 := by cases f <;> decide
    exact ⟨hb, hm ▸ hb, Cpu.feature_of_eq F.feat_mem64 f.val (hm ▸ hb)⟩

/-- C28, witness: on the sample arrays, `Cpu::feature (Mem_feature::E0PD)` reads
field 15 of word 2. -/
theorem Cpu.feature_in_bounds_witness :
    Cpu.Feat.sample.declared ∧
    ∃ w, Cpu.Feat.sample.feat_mem64[Cpu.Mem_feature.E0PD.val / 16]? = some w ∧
      Cpu.feature_mem Cpu.Feat.sample Cpu.Mem_feature.E0PD
        = some (w / 2 ^ (4 * (Cpu.Mem_feature.E0PD.val % 16)) % 16) ∧
      w / 2 ^ (4 * (Cpu.Mem_feature.E0PD.val % 16)) % 16 < 16 :=
  ⟨⟨rfl, rfl, rfl, rfl⟩,
    ((Cpu.feature_in_bounds Cpu.Feat.sample ⟨rfl, rfl, rfl, rfl⟩).2.2.2
      Cpu.Mem_feature.E0PD).2.2⟩

/-! ## Properties of the reference-counted pointer -/

/-- C30, counterexample: on an object whose count is the largest 32-bit value, the
constructor of `Refptr` holds the object (the pointer is not null) and the count
is 0, not `c + 1`. -/
theorem Refptr.new_wraps_at_max :
    Refptr.new 1 8 { rc := { ref := 4294967295 }, ops := [] }
      = some ({ ptr := 8 }, { rc := { ref := 0 }, ops := [Obj_op.add_ref] }) ∧
    (4294967295 : Nat) ≠ 0 ∧ (4294967295 : Nat) < U32 ∧ (8 : Ptr) ≠ nullptr ∧
    (0 : Nat) ≠ 4294967295 + 1 := by
  decide

/-- The destructor on a null pointer does nothing. -/
theorem Refptr.delete_null (o : Obj) : Refptr.delete { ptr := nullptr } o = o := by
  unfold Refptr.delete
  rw [if_neg (fun h => h rfl)]

/-- The destructor on a pointer that is not null calls `del_ref` once and deletes
the object exactly when the call returned true. -/
theorem Refptr.delete_eq (p : Ptr) (hp : p ≠ nullptr) (o : Obj) :
    Refptr.delete { ptr := p } o
      = { rc := o.rc.del_ref.2,
          ops := o.ops ++ [Obj_op.del_ref]
            ++ (if o.rc.del_ref.1 = true then [Obj_op.delete] else []) } := by
  unfold Refptr.delete
  rw [if_pos hp]
  generalize o.rc.del_ref = x
  rcases x with ⟨b, rc1⟩
  cases b <;> simp

/-- C30, amended: for every object at a non-null address `p` with a 32-bit count
`c` and no interference, the constructor of `Refptr` returns (one pass of the
loop of `add_ref` suffices); the pointer it holds is null if and only if `c = 0`,
in which case the count stays 0, and otherwise it is `p` and the count is
`(c + 1) mod 2^32`, which is `c + 1` when `c + 1` fits in 32 bits. Destroying the
`Refptr` then restores the count to `c`; it does not touch the object when the
pointer is null; otherwise it calls `del_ref` once, and deletes the object
exactly when that `del_ref` returned true. -/
theorem Refptr.count_neutral (fuel : Nat) (p : Ptr) (c : Nat) (ops : List Obj_op)
    (hp : p ≠ nullptr) (hc : c < U32) :
    ∃ r o1, Refptr.new (fuel + 1) p { rc := { ref := c }, ops := ops } = some (r, o1) ∧
      (r.ptr = nullptr ↔ c = 0) ∧
      (c = 0 → o1.rc.ref = 0) ∧
      (c ≠ 0 → r.ptr = p ∧ o1.rc.ref = (c + 1) % U32) ∧
      (c ≠ 0 → c + 1 < U32 → o1.rc.ref = c + 1) ∧
      o1.ops = ops ++ [Obj_op.add_ref] ∧
      (Refptr.delete r o1).rc.ref = c ∧
      (r.ptr = nullptr → Refptr.delete r o1 = o1) ∧
      (r.ptr ≠ nullptr →
        (Refptr.delete r o1).ops
          = o1.ops ++ [Obj_op.del_ref] ++ (if o1.rc.del_ref.1 = true then [Obj_op.delete] else [])) := by
  have hU : U32 = 4294967296 := by decide
  by_cases h0 : c = 0
  · subst h0
    refine ⟨{ ptr := nullptr }, { rc := { ref := 0 }, ops := ops ++ [Obj_op.add_ref] }, ?_,
      ?_, fun _ => rfl, fun h => absurd rfl h, fun h => absurd rfl h, rfl, ?_, ?_, ?_⟩
    · simp only [Refptr.new, Refcount.add_ref_zero]
      rfl
    · exact ⟨fun _ => rfl, fun _ => rfl⟩
    · rw [Refptr.delete_null]
    · intro _
      exact Refptr.delete_null _
    · intro h
      exact absurd rfl h
  · refine ⟨{ ptr := p }, { rc := { ref := (c + 1) % U32 }, ops := ops ++ [Obj_op.add_ref] }, ?_,
      ?_, fun h => absurd h h0, fun _ => ⟨rfl, rfl⟩, ?_, rfl, ?_, ?_, ?_⟩
    · simp only [Refptr.new, Refcount.add_ref_pos fuel c h0]
      rfl
    · exact ⟨fun h => absurd h hp, fun h => absurd h h0⟩
    · intro _ hlt
      exact Nat.mod_eq_of_lt hlt
    · have hlt : (c + 1) % U32 < U32 := Nat.mod_lt _ (by decide)
      have hd := Refcount.del_ref_eq ((c + 1) % U32) hlt
      have hv : (if (c + 1) % U32 = 0 then 4294967295 else (c + 1) % U32 - 1) = c := by
        rw [hU] at hc ⊢
        split <;> omega
      rw [hv] at hd
      rw [Refptr.delete_eq p hp]
      show (Refcount.del_ref { ref := (c + 1) % U32 }).2.ref = c
      rw [hd]
    · intro h
      exact absurd h hp
    · intro _
      rw [Refptr.delete_eq p hp]

/-- C30, witness: an object with count 1 at address 8. -/
theorem Refptr.count_neutral_witness :
    ∃ r o1, Refptr.new (0 + 1) 8 { rc := { ref := 1 }, ops := [] } = some (r, o1) ∧
      r.ptr = 8 ∧ o1.rc.ref = 2 ∧ (Refptr.delete r o1).rc.ref = 1 := by
  obtain ⟨r, o1, h1, _, _, h2, h3, _, h4, _⟩ :=
    Refptr.count_neutral 0 8 1 [] (by decide) (by decide)
  exact ⟨r, o1, h1, (h2 (by decide)).1, h3 (by decide) (by decide), h4⟩

/-! ## The coordinator on several CPUs -/

/-- Setting one phase bit leaves the other as it was. -/
theorem Rcu.phase_or_other (v : Nat) :
    (v ||| 1) &&& 2 = v &&& 2 ∧ (v ||| 2) &&& 1 = v &&& 1 := by
  constructor
  · show (v ||| BIT 0) &&& BIT 1 = v &&& BIT 1
    rw [and_BIT_eq_and_BIT_iff, Nat.testBit_or, testBit_BIT]
    simp
  · show (v ||| BIT 1) &&& BIT 0 = v &&& BIT 0
    rw [and_BIT_eq_and_BIT_iff, Nat.testBit_or, testBit_BIT]
    simp

/-- The three things `start_batch (s)` can do, for a 64-bit state word: nothing
(the batch is not the caller's, or `s` is already set), set `s` (both phase bits
were clear), or advance the batch (the other bit was set). -/
theorem Rcu.start_batch_cases (E : Rcu.Env) (hE : E.phase_bits) (fuel : Nat) (s : Rcu.State)
    (r : Rcu) (hst : r.state < 2 ^ 64) :
    ∃ r1, Rcu.start_batch E (fuel + 1) s r = some r1 ∧
      r1.log = r.log ++ [Rcu.Event.start_batch s] ∧
      r1.l_batch = r.l_batch ∧ r1.c_batch = r.c_batch ∧ r1.next = r.next ∧ r1.curr = r.curr ∧
      r1.done = r.done ∧ r1.hazard = r.hazard ∧ r1.cpu_count = r.cpu_count ∧
      r1.state < 2 ^ 64 ∧
      (((r.state >>> 2 ≠ r.l_batch ∨ r.state &&& E.val s ≠ 0) ∧
          r1.state = r.state ∧ r1.count = r.count) ∨
        (r.state >>> 2 = r.l_batch ∧ r.state &&& E.val s = 0 ∧ r.state &&& E.val s.other = 0 ∧
          r1.state >>> 2 = r.state >>> 2 ∧ r1.state &&& E.val s ≠ 0 ∧
          r1.state &&& E.val s.other = 0 ∧ r1.count = r.count) ∨
        (r.state >>> 2 = r.l_batch ∧ r.state &&& E.val s = 0 ∧ r.state &&& E.val s.other ≠ 0 ∧
          r1.state = ((r.state >>> 2 + 1) <<< 2) % 2 ^ 64 ∧
          r1.state &&& E.RCU_CMP = 0 ∧ r1.state &&& E.RCU_PND = 0 ∧
          r1.count = r.cpu_count)) := by
  have main : ∀ sv ov : Nat, E.val s = sv → E.val s.other = ov →
      ((sv = 1 ∧ ov = 2) ∨ (sv = 2 ∧ ov = 1)) →
      ∃ r1, Rcu.start_batch E (fuel + 1) s r = some r1 ∧
        r1.log = r.log ++ [Rcu.Event.start_batch s] ∧
        r1.l_batch = r.l_batch ∧ r1.c_batch = r.c_batch ∧ r1.next = r.next ∧
        r1.curr = r.curr ∧ r1.done = r.done ∧ r1.hazard = r.hazard ∧
        r1.cpu_count = r.cpu_count ∧ r1.state < 2 ^ 64 ∧
        (((r.state >>> 2 ≠ r.l_batch ∨ r.state &&& sv ≠ 0) ∧
            r1.state = r.state ∧ r1.count = r.count) ∨
          (r.state >>> 2 = r.l_batch ∧ r.state &&& sv = 0 ∧ r.state &&& ov = 0 ∧
            r1.state >>> 2 = r.state >>> 2 ∧ r1.state &&& sv ≠ 0 ∧
            r1.state &&& ov = 0 ∧ r1.count = r.count) ∨
          (r.state >>> 2 = r.l_batch ∧ r.state &&& sv = 0 ∧ r.state &&& ov ≠ 0 ∧
            r1.state = ((r.state >>> 2 + 1) <<< 2) % 2 ^ 64 ∧
            r1.state &&& E.RCU_CMP = 0 ∧ r1.state &&& E.RCU_PND = 0 ∧
            r1.count = r.cpu_count)) := by
    intro sv ov hsv hov h12
    have hcp : (E.RCU_CMP = 1 ∨ E.RCU_CMP = 2) ∧ (E.RCU_PND = 1 ∨ E.RCU_PND = 2) := by
      rcases hE with ⟨a, b⟩ | ⟨a, b⟩
      · exact ⟨Or.inl a, Or.inr b⟩
      · exact ⟨Or.inr a, Or.inl b⟩
    have hm : E.RCU_CMP ||| E.RCU_PND = 3 := by
      rcases hE with ⟨a, b⟩ | ⟨a, b⟩ <;> rw [a, b] <;> rfl
    have ht : ((r.state ^^^ not64 sv) &&& 3 = 0 ↔ (r.state &&& sv = 0 ∧ r.state &&& ov ≠ 0)) ∧
        ((r.state &&& sv = 0 ∧ r.state &&& ov ≠ 0) → r.state ||| sv = 4 * (r.state / 4) + 3) ∧
        (r.state ||| sv) / 4 = r.state / 4 ∧ (r.state ||| sv) &&& sv ≠ 0 ∧
        (r.state &&& sv ≠ 0 → r.state ||| sv = r.state) := by
      rcases h12 with ⟨a, b⟩ | ⟨a, b⟩
      · rw [a, b]
        exact Rcu.phase_test_one r.state
      · rw [a, b]
        exact Rcu.phase_test_two r.state
    have hoth : (r.state ||| sv) &&& ov = r.state &&& ov := by
      rcases h12 with ⟨a, b⟩ | ⟨a, b⟩
      · rw [a, b]
        exact (Rcu.phase_or_other r.state).1
      · rw [a, b]
        exact (Rcu.phase_or_other r.state).2
    have hsvlt : sv < 2 ^ 64 := by
      rcases h12 with ⟨a, _⟩ | ⟨a, _⟩ <;> rw [a] <;> decide
    obtain ⟨r1, h1, hlog, hl, hc, hn, hcu, hd, hh, hcc, hne, hadv, hset⟩ :=
      Rcu.start_batch_core E fuel s r sv ov hsv hm hcp ht
    refine ⟨r1, h1, hlog, hl, hc, hn, hcu, hd, hh, hcc, ?_, ?_⟩
    · by_cases hb : r.state >>> 2 = r.l_batch
      · by_cases ha : r.state &&& sv = 0 ∧ r.state &&& ov ≠ 0
        · rw [(hadv hb ha.1 ha.2).2.2.1]
          exact Nat.mod_lt _ (by decide)
        · rw [(hset hb ha).1]
          exact Nat.or_lt_two_pow hst hsvlt
      · rw [(hne hb).1]
        exact hst
    · by_cases hb : r.state >>> 2 = r.l_batch
      · by_cases ha : r.state &&& sv = 0 ∧ r.state &&& ov ≠ 0
        · obtain ⟨a1, _, a3, a4, a5⟩ := hadv hb ha.1 ha.2
          exact Or.inr (Or.inr ⟨hb, ha.1, ha.2, a3, a4, a5, a1⟩)
        · obtain ⟨b1, b2, b3, b4⟩ := hset hb ha
          by_cases hs0 : r.state &&& sv = 0
          · have ho0 : r.state &&& ov = 0 := by
              by_contra hx
              exact ha ⟨hs0, hx⟩
            refine Or.inr (Or.inl ⟨hb, hs0, ho0, b4, b2, ?_, b3⟩)
            rw [b1, hoth]
            exact ho0
          · refine Or.inl ⟨Or.inr hs0, ?_, b3⟩
            rw [b1]
            exact ht.2.2.2.2 hs0
      · exact Or.inl ⟨Or.inl hb, hne hb⟩
  rcases hE with ⟨hc, hp⟩ | ⟨hc, hp⟩
  · cases s
    · have hv : E.val Rcu.State.RCU_CMP = 1 := hc
      have ho : E.val Rcu.State.RCU_CMP.other = 2 := hp
      rw [hv, ho]
      exact main 1 2 hv ho (Or.inl ⟨rfl, rfl⟩)
    · have hv : E.val Rcu.State.RCU_PND = 2 := hp
      have ho : E.val Rcu.State.RCU_PND.other = 1 := hc
      rw [hv, ho]
      exact main 2 1 hv ho (Or.inr ⟨rfl, rfl⟩)
  · cases s
    · have hv : E.val Rcu.State.RCU_CMP = 2 := hc
      have ho : E.val Rcu.State.RCU_CMP.other = 1 := hp
      rw [hv, ho]
      exact main 2 1 hv ho (Or.inr ⟨rfl, rfl⟩)
    · have hv : E.val Rcu.State.RCU_PND = 1 := hp
      have ho : E.val Rcu.State.RCU_PND.other = 2 := hc
      rw [hv, ho]
      exact main 1 2 hv ho (Or.inl ⟨rfl, rfl⟩)

/-- An event logged by one CPU is never a report or a registration. -/
theorem Rcu_sys.Event.of_rcu_ne (i : Nat) (l : List Rcu.Event) :
    (∀ j b, Rcu_sys.Event.quiet j b ∉ l.map (Rcu_sys.Event.of_rcu i)) ∧
    (∀ j e b, Rcu_sys.Event.call j e b ∉ l.map (Rcu_sys.Event.of_rcu i)) := by
  constructor
  · intro j b hm
    rw [List.mem_map] at hm
    obtain ⟨a, _, ha⟩ := hm
    cases a <;> simp [Rcu_sys.Event.of_rcu] at ha
  · intro j e b hm
    rw [List.mem_map] at hm
    obtain ⟨a, _, ha⟩ := hm
    cases a <;> simp [Rcu_sys.Event.of_rcu] at ha

/-- The invocations among the events logged by a CPU that only invoked. -/
theorem Rcu_sys.Event.invoke_mem_map (i j : Nat) (e : Ptr) (l : List Ptr) :
    Rcu_sys.Event.invoke j e ∈ (l.map Rcu.Event.invoke).map (Rcu_sys.Event.of_rcu i) ↔
      j = i ∧ e ∈ l := by
  simp only [List.map_map, List.mem_map, Function.comp, Rcu_sys.Event.of_rcu,
    Rcu_sys.Event.invoke.injEq]
  constructor
  · rintro ⟨a, ha, h1, h2⟩
    exact ⟨h1.symm, h2 ▸ ha⟩
  · rintro ⟨h1, h2⟩
    exact ⟨e, h2, h1.symm, rfl⟩

/-! ### Registrations and invocations in a trace -/

theorem Rcu_sys.calls_append (i : Nat) (t l : List Rcu_sys.Event) :
    Rcu_sys.calls i (t ++ l) = Rcu_sys.calls i t ++ Rcu_sys.calls i l :=
  List.filterMap_append _ _ _

theorem Rcu_sys.invokes_append (i : Nat) (t l : List Rcu_sys.Event) :
    Rcu_sys.invokes i (t ++ l) = Rcu_sys.invokes i t ++ Rcu_sys.invokes i l :=
  List.filterMap_append _ _ _

theorem Rcu_sys.calls_cons (i : Nat) (x : Rcu_sys.Event) (t : List Rcu_sys.Event) :
    Rcu_sys.calls i (x :: t) = Rcu_sys.calls i [x] ++ Rcu_sys.calls i t :=
  Rcu_sys.calls_append i [x] t

theorem Rcu_sys.calls_call_self (i : Nat) (e : Ptr) (b : Nat) :
    Rcu_sys.calls i [Rcu_sys.Event.call i e b] = [(e, b)] := by
  simp [Rcu_sys.calls, Rcu_sys.Event.call_on]

/-- Events without a registration on CPU `i` add nothing to its registrations. -/
theorem Rcu_sys.calls_eq_nil (i : Nat) (l : List Rcu_sys.Event)
    (h : ∀ e b, Rcu_sys.Event.call i e b ∉ l) : Rcu_sys.calls i l = [] := by
  induction l with
  | nil => rfl
  | cons x l ih =>
    rw [Rcu_sys.calls_cons, ih (fun e b hm => h e b (List.mem_cons_of_mem _ hm)),
      List.append_nil]
    cases x with
    | call j e b =>
      have hji : j ≠ i := by
        intro hji
        subst hji
        exact h e b (List.mem_cons_self _ _)
      simp [Rcu_sys.calls, Rcu_sys.Event.call_on, hji]
    | quiet j b => rfl
    | start_batch j st => rfl
    | invoke j e => rfl

/-- Events without an invocation on CPU `i` add nothing to its invocations. -/
theorem Rcu_sys.invokes_eq_nil (i : Nat) (l : List Rcu_sys.Event)
    (h : ∀ e, Rcu_sys.Event.invoke i e ∉ l) : Rcu_sys.invokes i l = [] := by
  induction l with
  | nil => rfl
  | cons x l ih =>
    have hc : Rcu_sys.invokes i (x :: l) = Rcu_sys.invokes i [x] ++ Rcu_sys.invokes i l :=
      Rcu_sys.invokes_append i [x] l
    rw [hc, ih (fun e hm => h e (List.mem_cons_of_mem _ hm)), List.append_nil]
    cases x with
    | invoke j e =>
      have hji : j ≠ i := by
        intro hji
        subst hji
        exact h e (List.mem_cons_self _ _)
      simp [Rcu_sys.invokes, Rcu_sys.Event.invoke_on, hji]
    | quiet j b => rfl
    | start_batch j st => rfl
    | call j e b => rfl

/-- The elements that CPU `i` invokes in a run of `invoke_batch`. -/
theorem Rcu_sys.invokes_log (i : Nat) (l : List Ptr) :
    Rcu_sys.invokes i ((l.map Rcu.Event.invoke).map (Rcu_sys.Event.of_rcu i)) = l := by
  induction l with
  | nil => rfl
  | cons x l ih =>
    have hc : Rcu_sys.invokes i (Rcu_sys.Event.invoke i x ::
        (l.map Rcu.Event.invoke).map (Rcu_sys.Event.of_rcu i))
        = Rcu_sys.invokes i [Rcu_sys.Event.invoke i x] ++
          Rcu_sys.invokes i ((l.map Rcu.Event.invoke).map (Rcu_sys.Event.of_rcu i)) :=
      Rcu_sys.invokes_append i [Rcu_sys.Event.invoke i x] _
    simp only [List.map_cons, Rcu_sys.Event.of_rcu]
    rw [hc, ih]
    simp [Rcu_sys.invokes, Rcu_sys.Event.invoke_on]

/-- A registration in the list of registrations is in the trace. -/
theorem Rcu_sys.mem_calls (i : Nat) (t : List Rcu_sys.Event) (x : Ptr × Nat)
    (h : x ∈ Rcu_sys.calls i t) : Rcu_sys.Event.call i x.1 x.2 ∈ t := by
  unfold Rcu_sys.calls at h
  rw [List.mem_filterMap] at h
  obtain ⟨ev, hev, hx⟩ := h
  cases ev with
  | call j e b =>
    simp only [Rcu_sys.Event.call_on] at hx
    split_ifs at hx with hji
    · subst hji
      have hx2 : (e, b) = x := Option.some.inj hx
      rw [← hx2]
      exact hev
  | quiet j b => simp [Rcu_sys.Event.call_on] at hx
  | start_batch j st => simp [Rcu_sys.Event.call_on] at hx
  | invoke j e => simp [Rcu_sys.Event.call_on] at hx

/-- A place in the list of registrations is a place in the trace. -/
theorem Rcu_sys.calls_split (i : Nat) (t : List Rcu_sys.Event) :
    ∀ (A Bs : List (Ptr × Nat)) (x : Ptr × Nat), Rcu_sys.calls i t = A ++ x :: Bs →
      ∃ p1 p2, t = p1 ++ Rcu_sys.Event.call i x.1 x.2 :: p2 ∧ Rcu_sys.calls i p1 = A ∧
        Rcu_sys.calls i p2 = Bs := by
  induction t with
  | nil =>
    intro A Bs x h
    cases A <;> cases h
  | cons ev t ih =>
    intro A Bs x h
    rw [Rcu_sys.calls_cons] at h
    by_cases hev : ∃ e b, ev = Rcu_sys.Event.call i e b
    · obtain ⟨e, b, hev⟩ := hev
      subst hev
      rw [Rcu_sys.calls_call_self] at h
      cases A with
      | nil =>
        simp only [List.nil_append, List.singleton_append, List.cons.injEq] at h
        refine ⟨[], t, ?_, rfl, h.2⟩
        rw [← h.1]
        rfl
      | cons a A =>
        simp only [List.cons_append, List.singleton_append, List.cons.injEq] at h
        obtain ⟨p1, p2, h1, h2, h3⟩ := ih A Bs x h.2
        refine ⟨Rcu_sys.Event.call i e b :: p1, p2, by rw [h1]; rfl, ?_, h3⟩
        rw [Rcu_sys.calls_cons, Rcu_sys.calls_call_self, h2, ← h.1]
        rfl
    · have hnil : Rcu_sys.calls i [ev] = [] := by
        apply Rcu_sys.calls_eq_nil
        intro e b hm
        rw [List.mem_singleton] at hm
        exact hev ⟨e, b, hm.symm⟩
      rw [hnil, List.nil_append] at h
      obtain ⟨p1, p2, h1, h2, h3⟩ := ih A Bs x h
      refine ⟨ev :: p1, p2, by rw [h1]; rfl, ?_, h3⟩
      rw [Rcu_sys.calls_cons, hnil, h2]
      rfl

/-- A grace period seen in a trace is seen in every longer trace. -/
theorem Rcu_sys.grace_mono (n : Nat) (t l : List Rcu_sys.Event) (i k : Nat) (e : Ptr)
    (h : Rcu_sys.grace n t i k e) : Rcu_sys.grace n (t ++ l) i k e := by
  obtain ⟨p1, p2, b, c, ht, hk, hbc, hq⟩ := h
  refine ⟨p1, p2 ++ l, b, c, ?_, hk, hbc, fun j hj => List.mem_append_left l (hq j hj)⟩
  rw [ht, List.append_assoc]
  rfl

/-- Where a trace that has grown is cut at an event that the growth does not
contain, the cut is in the old trace. -/
theorem Rcu_sys.split_append (t l p1 p2 : List Rcu_sys.Event) (x : Rcu_sys.Event)
    (h : t ++ l = p1 ++ x :: p2) (hx : x ∉ l) :
    ∃ q, t = p1 ++ x :: q ∧ p2 = q ++ l := by
  rcases List.append_eq_append_iff.mp h with ⟨a, _, hla⟩ | ⟨c, ht, hcl⟩
  · exfalso
    apply hx
    rw [hla]
    exact List.mem_append_right a (List.mem_cons_self _ _)
  · cases c with
    | nil =>
      exfalso
      apply hx
      rw [List.nil_append] at hcl
      rw [← hcl]
      exact List.mem_cons_self _ _
    | cons y c =>
      rw [List.cons_append, List.cons.injEq] at hcl
      refine ⟨c, ?_, hcl.2⟩
      rw [ht, hcl.1]

/-- A safe trace stays safe when it grows by events that are not invocations. -/
theorem Rcu_sys.safe_append (n : Nat) (t l : List Rcu_sys.Event) (hs : Rcu_sys.safe n t)
    (hl : ∀ i e, Rcu_sys.Event.invoke i e ∉ l) : Rcu_sys.safe n (t ++ l) := by
  intro pre post i e heq
  obtain ⟨q, ht, _⟩ := Rcu_sys.split_append t l pre post _ heq (hl i e)
  exact hs pre q i e ht

/-- A safe trace stays safe when it grows by the invocation of the next
registration of a CPU, once that registration has had its grace period. -/
theorem Rcu_sys.safe_invoke (n : Nat) (t : List Rcu_sys.Event) (i : Nat) (e : Ptr)
    (hs : Rcu_sys.safe n t)
    (hg : Rcu_sys.grace n t i (Rcu_sys.invokes i t).length e) :
    Rcu_sys.safe n (t ++ [Rcu_sys.Event.invoke i e]) := by
  intro pre post j x heq
  rcases List.append_eq_append_iff.mp heq with ⟨a, hpre, hla⟩ | ⟨c, ht, hcl⟩
  · cases a with
    | nil =>
      rw [List.nil_append, List.cons.injEq, Rcu_sys.Event.invoke.injEq] at hla
      rw [List.append_nil] at hpre
      rw [hpre, ← hla.1.1, ← hla.1.2]
      exact hg
    | cons y a =>
      rw [List.cons_append, List.cons.injEq] at hla
      cases a <;> cases hla.2
  · cases c with
    | nil =>
      rw [List.nil_append, List.cons.injEq, Rcu_sys.Event.invoke.injEq] at hcl
      rw [List.append_nil] at ht
      rw [← ht, hcl.1.1, hcl.1.2]
      exact hg
    | cons y c =>
      rw [List.cons_append, List.cons.injEq] at hcl
      rw [← hcl.1] at ht
      exact hs pre c j x ht

/-- A safe trace stays safe when a CPU invokes, in order, its next registrations,
once each of them has had its grace period. -/
theorem Rcu_sys.safe_invokes (n : Nat) (i : Nat) (done : List Ptr) :
    ∀ t : List Rcu_sys.Event, Rcu_sys.safe n t →
      (∀ d1 x d2, done = d1 ++ x :: d2 →
        Rcu_sys.grace n t i ((Rcu_sys.invokes i t).length + d1.length) x) →
      Rcu_sys.safe n (t ++ (done.map Rcu.Event.invoke).map (Rcu_sys.Event.of_rcu i)) := by
  induction done with
  | nil =>
    intro t hs _
    simp only [List.map_nil, List.append_nil]
    exact hs
  | cons x done ih =>
    intro t hs hg
    have h1 : t ++ ((x :: done).map Rcu.Event.invoke).map (Rcu_sys.Event.of_rcu i)
        = (t ++ [Rcu_sys.Event.invoke i x]) ++
          (done.map Rcu.Event.invoke).map (Rcu_sys.Event.of_rcu i) := by
      simp only [List.map_cons, Rcu_sys.Event.of_rcu, List.append_assoc, List.singleton_append]
    rw [h1]
    apply ih
    · apply Rcu_sys.safe_invoke n t i x hs
      have := hg [] x done rfl
      simpa using this
    · intro d1 y d2 hd
      have := hg (x :: d1) y d2 (by rw [hd]; rfl)
      have hlen : (Rcu_sys.invokes i (t ++ [Rcu_sys.Event.invoke i x])).length
          = (Rcu_sys.invokes i t).length + 1 := by
        rw [Rcu_sys.invokes_append]
        simp [Rcu_sys.invokes, Rcu_sys.Event.invoke_on]
      rw [hlen]
      have h2 : (Rcu_sys.invokes i t).length + 1 + d1.length
          = (Rcu_sys.invokes i t).length + (x :: d1).length := by
        rw [List.length_cons]
        omega
      rw [h2]
      exact Rcu_sys.grace_mono n t _ i _ y this

/-- An ordered trace stays ordered when it grows by events that are not
registrations. -/
theorem Rcu_sys.ordered_append (t l : List Rcu_sys.Event) (ho : Rcu_sys.ordered t)
    (hl : ∀ j e b, Rcu_sys.Event.call j e b ∉ l) : Rcu_sys.ordered (t ++ l) := by
  intro p1 p2 j e b heq
  obtain ⟨q, ht, _⟩ := Rcu_sys.split_append t l p1 p2 _ heq (hl j e b)
  exact ho p1 q j e b ht

/-- An ordered trace stays ordered when it grows by a registration at a batch that
no earlier report is beyond. -/
theorem Rcu_sys.ordered_call (t : List Rcu_sys.Event) (j : Nat) (e : Ptr) (b : Nat)
    (ho : Rcu_sys.ordered t) (hb : ∀ i c, Rcu_sys.Event.quiet i c ∈ t → c ≤ b) :
    Rcu_sys.ordered (t ++ [Rcu_sys.Event.call j e b]) := by
  intro p1 p2 j1 e1 b1 heq
  rcases List.append_eq_append_iff.mp heq with ⟨a, hpre, hla⟩ | ⟨c, ht, hcl⟩
  · cases a with
    | nil =>
      rw [List.nil_append, List.cons.injEq, Rcu_sys.Event.call.injEq] at hla
      rw [List.append_nil] at hpre
      rw [hpre, ← hla.1.2.2]
      exact hb
    | cons y a =>
      rw [List.cons_append, List.cons.injEq] at hla
      cases a <;> cases hla.2
  · cases c with
    | nil =>
      rw [List.nil_append, List.cons.injEq, Rcu_sys.Event.call.injEq] at hcl
      rw [List.append_nil] at ht
      rw [← ht, hcl.1.2.2]
      exact hb
    | cons y c =>
      rw [List.cons_append, List.cons.injEq] at hcl
      rw [← hcl.1] at ht
      exact ho p1 c j1 e1 b1 ht

/-- Events other than reports of batch `b` do not change the number of CPUs that
have reported in `b`. -/
theorem Rcu_sys.quieted_append (t l : List Rcu_sys.Event) (n b : Nat)
    (h : ∀ j, Rcu_sys.Event.quiet j b ∉ l) :
    Rcu_sys.quieted (t ++ l) n b = Rcu_sys.quieted t n b := by
  unfold Rcu_sys.quieted
  apply List.countP_congr
  intro j _
  simp only [List.mem_append, decide_eq_true_eq]
  constructor
  · rintro (h1 | h1)
    · exact h1
    · exact absurd h1 (h j)
  · intro h1
    exact Or.inl h1

/-- No CPU has reported in a batch that no report belongs to. -/
theorem Rcu_sys.quieted_zero (t : List Rcu_sys.Event) (n b : Nat)
    (h : ∀ j, Rcu_sys.Event.quiet j b ∉ t) : Rcu_sys.quieted t n b = 0 := by
  unfold Rcu_sys.quieted
  rw [List.countP_eq_zero]
  intro j _
  simp only [decide_eq_true_eq]
  exact h j

/-- If all `n` CPUs are counted, each of them has reported. -/
theorem Rcu_sys.quieted_all (t : List Rcu_sys.Event) (n b : Nat)
    (h : Rcu_sys.quieted t n b = n) (j : Nat) (hj : j < n) :
    Rcu_sys.Event.quiet j b ∈ t := by
  unfold Rcu_sys.quieted at h
  have hlen : (List.range n).length = n := List.length_range n
  have h2 : (List.range n).countP (fun j => decide (Rcu_sys.Event.quiet j b ∈ t))
      = (List.range n).length := by rw [hlen]; exact h
  rw [List.countP_eq_length] at h2
  have := h2 j (List.mem_range.mpr hj)
  simpa using this

/-- Counting with one more index accepted. -/
theorem List.countP_range_insert (p q : Nat → Bool) (j0 : Nat) (hp : p j0 = false)
    (hq : ∀ j, q j = (p j || decide (j = j0))) (n : Nat) :
    (List.range n).countP q = (List.range n).countP p + (if j0 < n then 1 else 0) := by
  induction n with
  | zero => simp
  | succ n ih =>
    rw [List.range_succ, List.countP_append, List.countP_append, ih]
    simp only [List.countP_cons, List.countP_nil, Nat.zero_add, hq n]
    by_cases h1 : n = j0
    · subst h1
      simp [hp]
    · have h2 : ¬ (j0 < n + 1) ↔ ¬ (j0 < n) := by omega
      by_cases h3 : j0 < n
      · have h4 : j0 < n + 1 := by omega
        simp [h1, h3, h4]
        omega
      · have h4 : ¬ (j0 < n + 1) := by omega
        simp [h1, h3, h4]

/-- The first report of a CPU in a batch is counted once. -/
theorem Rcu_sys.quieted_report (t : List Rcu_sys.Event) (n b j0 : Nat) (hj : j0 < n)
    (hnot : Rcu_sys.Event.quiet j0 b ∉ t) :
    Rcu_sys.quieted (t ++ [Rcu_sys.Event.quiet j0 b]) n b = Rcu_sys.quieted t n b + 1 ∧
    Rcu_sys.quieted t n b < n := by
  have h1 : Rcu_sys.quieted (t ++ [Rcu_sys.Event.quiet j0 b]) n b
      = Rcu_sys.quieted t n b + 1 := by
    unfold Rcu_sys.quieted
    rw [List.countP_range_insert (fun j => decide (Rcu_sys.Event.quiet j b ∈ t))
      (fun j => decide (Rcu_sys.Event.quiet j b ∈ t ++ [Rcu_sys.Event.quiet j0 b])) j0
      (by simpa using hnot) (by
        intro j
        simp only [List.mem_append, List.mem_singleton, Rcu_sys.Event.quiet.injEq, and_true,
          Bool.decide_or]) n, if_pos hj]
  refine ⟨h1, ?_⟩
  have h2 : Rcu_sys.quieted (t ++ [Rcu_sys.Event.quiet j0 b]) n b ≤ (List.range n).length :=
    List.countP_le_length _
  rw [List.length_range, h1] at h2
  omega

/-! ### The lists of a CPU against the trace -/

/-- A place in a list of first components is a place in the list of pairs. -/
theorem Rcu_sys.map_fst_split (l : List (Ptr × Nat)) :
    ∀ (d1 : List Ptr) (x : Ptr) (d2 : List Ptr), l.map Prod.fst = d1 ++ x :: d2 →
      ∃ e1 y e2, l = e1 ++ y :: e2 ∧ e1.map Prod.fst = d1 ∧ y.1 = x ∧
        e2.map Prod.fst = d2 := by
  induction l with
  | nil =>
    intro d1 x d2 h
    cases d1 <;> cases h
  | cons a l ih =>
    intro d1 x d2 h
    cases d1 with
    | nil =>
      simp only [List.map_cons, List.nil_append, List.cons.injEq] at h
      exact ⟨[], a, l, rfl, rfl, h.1, h.2⟩
    | cons d d1 =>
      simp only [List.map_cons, List.cons_append, List.cons.injEq] at h
      obtain ⟨e1, y, e2, h1, h2, h3, h4⟩ := ih d1 x d2 h.2
      refine ⟨a :: e1, y, e2, by rw [h1]; rfl, ?_, h3, h4⟩
      rw [List.map_cons, h2, h.1]

/-- Before anything has happened the lists are empty. -/
theorem Rcu_sys.queue_nil (n j c : Nat) : Rcu_sys.Queue n [] j [] [] [] c := by
  refine ⟨[], [], [], [], rfl, rfl, rfl, rfl, rfl, ?_, ?_⟩
  · intro x hx
    cases hx
  · intro d1 x d2 h
    cases d1 <;> cases h

/-- Events that are neither registrations nor invocations on CPU `j` leave its
lists in order. -/
theorem Rcu_sys.queue_append (n : Nat) (t l : List Rcu_sys.Event) (j : Nat)
    (done curr next : Rcu_list) (cb : Nat) (h : Rcu_sys.Queue n t j done curr next cb)
    (hc : Rcu_sys.calls j l = []) (hi : Rcu_sys.invokes j l = []) :
    Rcu_sys.Queue n (t ++ l) j done curr next cb := by
  obtain ⟨ci, cd, cc, cn, h1, h2, h3, h4, h5, h6, h7⟩ := h
  refine ⟨ci, cd, cc, cn, ?_, ?_, h3, h4, h5, h6, ?_⟩
  · rw [Rcu_sys.calls_append, hc, List.append_nil]
    exact h1
  · rw [Rcu_sys.invokes_append, hi, List.append_nil]
    exact h2
  · intro d1 x d2 hd
    exact Rcu_sys.grace_mono n t l j _ _ (h7 d1 x d2 hd)

/-- A registration on CPU `i` goes to the end of `next`. -/
theorem Rcu_sys.queue_call (n : Nat) (t : List Rcu_sys.Event) (i : Nat)
    (done curr next : Rcu_list) (cb : Nat) (e : Ptr) (b : Nat)
    (h : Rcu_sys.Queue n t i done curr next cb) :
    Rcu_sys.Queue n (t ++ [Rcu_sys.Event.call i e b]) i done curr (next ++ [e]) cb := by
  obtain ⟨ci, cd, cc, cn, h1, h2, h3, h4, h5, h6, h7⟩ := h
  refine ⟨ci, cd, cc, cn ++ [(e, b)], ?_, ?_, h3, h4, ?_, h6, ?_⟩
  · rw [Rcu_sys.calls_append, Rcu_sys.calls_call_self, h1]
    simp only [List.append_assoc]
  · rw [Rcu_sys.invokes_append, Rcu_sys.invokes_eq_nil i [Rcu_sys.Event.call i e b]
      (by intro x hm; simp at hm), List.append_nil]
    exact h2
  · rw [List.map_append, h5]
    rfl
  · intro d1 x d2 hd
    exact Rcu_sys.grace_mono n t _ i _ _ (h7 d1 x d2 hd)

/-- The registrations behind the elements of `curr` move to `done` once the
registrations made before `c_batch` have had their grace period. -/
theorem Rcu_sys.queue_complete (n : Nat) (t : List Rcu_sys.Event) (i : Nat)
    (done curr next : Rcu_list) (cb : Nat) (h : Rcu_sys.Queue n t i done curr next cb)
    (hg : ∀ p1 p2 e b, t = p1 ++ Rcu_sys.Event.call i e b :: p2 → b < cb →
      ∃ c, b < c ∧ ∀ j, j < n → Rcu_sys.Event.quiet j c ∈ p2) :
    Rcu_sys.Queue n t i (done ++ curr) [] next cb := by
  obtain ⟨ci, cd, cc, cn, h1, h2, h3, h4, h5, h6, h7⟩ := h
  have key : ∀ a x d2, cc = a ++ x :: d2 →
      Rcu_sys.grace n t i (ci.length + (cd ++ a).length) x.1 := by
    intro a x d2 hcc
    have hcalls : Rcu_sys.calls i t = (ci ++ (cd ++ a)) ++ x :: (d2 ++ cn) := by
      rw [h1, hcc]
      simp only [List.append_assoc, List.cons_append]
    obtain ⟨p1, p2, ht, hp1, _⟩ := Rcu_sys.calls_split i t _ _ x hcalls
    have hx : x ∈ cc := by
      rw [hcc]
      exact List.mem_append_right a (List.mem_cons_self _ _)
    obtain ⟨c, hbc, hq⟩ := hg p1 p2 x.1 x.2 ht (h6 x hx)
    refine ⟨p1, p2, x.2, c, ht, ?_, hbc, hq⟩
    rw [hp1, List.length_append]
  refine ⟨ci, cd ++ cc, [], cn, ?_, h2, ?_, rfl, h5, ?_, ?_⟩
  · rw [h1]
    simp only [List.append_assoc, List.nil_append]
  · rw [List.map_append, h3, h4]
  · intro x hx
    cases hx
  · intro d1 x d2 hd
    rcases List.append_eq_append_iff.mp hd with ⟨a, hd1, hcc⟩ | ⟨c, hcd, hcl⟩
    · rw [hd1]
      exact key a x d2 hcc
    · cases c with
      | nil =>
        rw [List.nil_append] at hcl
        rw [List.append_nil] at hcd
        have := key [] x d2 hcl.symm
        rw [List.append_nil, hcd] at this
        exact this
      | cons y c =>
        rw [List.cons_append, List.cons.injEq] at hcl
        rw [← hcl.1] at hcd
        exact h7 d1 x c hcd

/-- The promotion of `next` to an empty `curr`, with a target batch that every
registration so far precedes. -/
theorem Rcu_sys.queue_move (n : Nat) (t : List Rcu_sys.Event) (i : Nat)
    (done next : Rcu_list) (cb cb1 : Nat) (h : Rcu_sys.Queue n t i done [] next cb)
    (hb : ∀ e b, Rcu_sys.Event.call i e b ∈ t → b < cb1) :
    Rcu_sys.Queue n t i done next [] cb1 := by
  obtain ⟨ci, cd, cc, cn, h1, h2, h3, h4, h5, _, h7⟩ := h
  have hcc : cc = [] := List.map_eq_nil_iff.mp h4
  subst hcc
  refine ⟨ci, cd, cn, [], ?_, h2, h3, h5, rfl, ?_, h7⟩
  · rw [h1]
    simp only [List.nil_append, List.append_nil]
  · intro x hx
    apply hb x.1 x.2
    apply Rcu_sys.mem_calls
    rw [h1]
    exact List.mem_append_right _ (List.mem_append_right _ (List.mem_append_right _ hx))

/-- The invocation of the elements of `done`, in order, empties it. -/
theorem Rcu_sys.queue_invoke (n : Nat) (t : List Rcu_sys.Event) (i : Nat)
    (done curr next : Rcu_list) (cb : Nat) (h : Rcu_sys.Queue n t i done curr next cb) :
    Rcu_sys.Queue n (t ++ (done.map Rcu.Event.invoke).map (Rcu_sys.Event.of_rcu i)) i
      [] curr next cb := by
  obtain ⟨ci, cd, cc, cn, h1, h2, h3, h4, h5, h6, _⟩ := h
  refine ⟨ci ++ cd, [], cc, cn, ?_, ?_, rfl, h4, h5, h6, ?_⟩
  · rw [Rcu_sys.calls_append, Rcu_sys.calls_eq_nil i _
      (fun e b => (Rcu_sys.Event.of_rcu_ne i _).2 i e b), List.append_nil, h1]
    simp only [List.append_assoc, List.nil_append]
  · rw [Rcu_sys.invokes_append, Rcu_sys.invokes_log, List.map_append, h2, h3]
  · intro d1 x d2 hd
    cases d1 <;> cases hd

/-- The elements of `done` are the next registrations to be invoked, and each has
had its grace period. -/
theorem Rcu_sys.queue_done_grace (n : Nat) (t : List Rcu_sys.Event) (i : Nat)
    (done curr next : Rcu_list) (cb : Nat) (h : Rcu_sys.Queue n t i done curr next cb) :
    ∀ d1 x d2, done = d1 ++ x :: d2 →
      Rcu_sys.grace n t i ((Rcu_sys.invokes i t).length + d1.length) x := by
  obtain ⟨ci, cd, cc, cn, _, h2, h3, _, _, _, h7⟩ := h
  intro d1 x d2 hd
  obtain ⟨e1, y, e2, hcd, he1, hy, _⟩ := Rcu_sys.map_fst_split cd d1 x d2 (h3.trans hd)
  have := h7 e1 y e2 hcd
  rw [hy] at this
  have hl1 : ci.length = (Rcu_sys.invokes i t).length := by
    rw [← h2, List.length_map]
  have hl2 : e1.length = d1.length := by
    rw [← he1, List.length_map]
  rw [hl1, hl2] at this
  exact this

/-- Every element of the lists of a CPU was registered on it. -/
theorem Rcu_sys.queue_mem (n : Nat) (t : List Rcu_sys.Event) (i : Nat)
    (done curr next : Rcu_list) (cb : Nat) (h : Rcu_sys.Queue n t i done curr next cb)
    (e : Ptr) (he : e ∈ done ∨ e ∈ curr ∨ e ∈ next) :
    ∃ b, Rcu_sys.Event.call i e b ∈ t := by
  obtain ⟨ci, cd, cc, cn, h1, _, h3, h4, h5, _, _⟩ := h
  have fin : ∀ x : Ptr × Nat, x ∈ Rcu_sys.calls i t → x.1 = e →
      ∃ b, Rcu_sys.Event.call i e b ∈ t := by
    intro x hx hxe
    refine ⟨x.2, ?_⟩
    rw [← hxe]
    exact Rcu_sys.mem_calls i t x hx
  rcases he with he | he | he
  · rw [← h3, List.mem_map] at he
    obtain ⟨x, hx, hxe⟩ := he
    apply fin x _ hxe
    rw [h1]
    exact List.mem_append_right _ (List.mem_append_left _ hx)
  · rw [← h4, List.mem_map] at he
    obtain ⟨x, hx, hxe⟩ := he
    apply fin x _ hxe
    rw [h1]
    exact List.mem_append_right _ (List.mem_append_right _ (List.mem_append_left _ hx))
  · rw [← h5, List.mem_map] at he
    obtain ⟨x, hx, hxe⟩ := he
    apply fin x _ hxe
    rw [h1]
    exact List.mem_append_right _ (List.mem_append_right _ (List.mem_append_right _ hx))

theorem Rcu_sys.store_cpus_self (s : Rcu_sys) (i : Nat) (pre : List Rcu_sys.Event) (r : Rcu) :
    (s.store i pre r).cpus i = r.cpu_part := by
  simp only [Rcu_sys.store, if_true]

theorem Rcu_sys.store_cpus_other (s : Rcu_sys) (i j : Nat) (pre : List Rcu_sys.Event) (r : Rcu)
    (h : j ≠ i) : (s.store i pre r).cpus j = s.cpus j := by
  simp only [Rcu_sys.store, if_neg h]

/-- An invocation logged by CPU `i` is an invocation on CPU `i`. -/
theorem Rcu_sys.Event.of_rcu_invoke (i j : Nat) (e : Ptr) (l : List Rcu.Event)
    (h : Rcu_sys.Event.invoke j e ∈ l.map (Rcu_sys.Event.of_rcu i)) : j = i := by
  rw [List.mem_map] at h
  obtain ⟨a, _, ha⟩ := h
  cases a with
  | start_batch st => simp [Rcu_sys.Event.of_rcu] at ha
  | invoke x =>
    simp only [Rcu_sys.Event.of_rcu, Rcu_sys.Event.invoke.injEq] at ha
    exact ha.1.symm

/-- An operation of CPU `i` that leaves the shared words alone and reports nothing
keeps the invariant, provided the local variables it leaves are in order and the
trace it leaves is ordered and safe. -/
theorem Rcu_sys.Inv.frame (E : Rcu.Env) (k : Nat) (s : Rcu_sys) (hI : Rcu_sys.Inv E k s)
    (i : Nat) (hi : i < s.cpu_count) (pre : List Rcu_sys.Event) (r : Rcu)
    (l : List Rcu_sys.Event) (hlog : pre ++ r.log.map (Rcu_sys.Event.of_rcu i) = l)
    (hst : r.state = s.state) (hcnt : r.count = s.count)
    (hq : ∀ j b, Rcu_sys.Event.quiet j b ∉ l)
    (hlc : ∀ j e b, Rcu_sys.Event.call j e b ∈ l → j = i ∧ e ≠ nullptr ∧ b ≤ s.state >>> 2)
    (hli : ∀ j e, Rcu_sys.Event.invoke j e ∈ l → j = i)
    (hl : r.l_batch ≤ s.state >>> 2)
    (how : r.hazard &&& Hazard.RCU ≠ 0 →
      r.l_batch = s.state >>> 2 ∧ s.state &&& E.RCU_CMP = 0 ∧
        Rcu_sys.Event.quiet i (s.state >>> 2) ∉ s.trace)
    (hrep : Rcu_sys.Event.quiet i (s.state >>> 2) ∈ s.trace →
      r.l_batch = s.state >>> 2 ∧ r.hazard &&& Hazard.RCU = 0)
    (hqueue : Rcu_sys.Queue s.cpu_count (s.trace ++ l) i r.done r.curr r.next r.c_batch)
    (hord : Rcu_sys.ordered (s.trace ++ l))
    (hsafe : Rcu_sys.safe s.cpu_count (s.trace ++ l)) :
    Rcu_sys.Inv E k (s.store i pre r) := by
  have htr : (s.store i pre r).trace = s.trace ++ l := by
    rw [← hlog]
    simp only [Rcu_sys.store, List.append_assoc]
  have hqm : ∀ j b, Rcu_sys.Event.quiet j b ∈ (s.store i pre r).trace ↔
      Rcu_sys.Event.quiet j b ∈ s.trace := by
    intro j b
    rw [htr, List.mem_append]
    exact ⟨fun h => h.elim id (fun h2 => absurd h2 (hq j b)), Or.inl⟩
  have hS : (s.store i pre r).state = s.state := hst
  have hC : (s.store i pre r).count = s.count := hcnt
  have hN : (s.store i pre r).cpu_count = s.cpu_count := Eq.refl _
  have hmono : ∀ x, x ∈ s.trace → x ∈ (s.store i pre r).trace := by
    intro x hx
    rw [htr]
    exact List.mem_append_left _ hx
  have h1 : r.cpu_part.l_batch = r.l_batch := Eq.refl _
  have h2 : r.cpu_part.hazard = r.hazard := Eq.refl _
  have h3 : r.cpu_part.next = r.next := Eq.refl _
  have h4 : r.cpu_part.curr = r.curr := Eq.refl _
  have h5 : r.cpu_part.done = r.done := Eq.refl _
  have h6 : r.cpu_part.c_batch = r.c_batch := Eq.refl _
  refine ⟨?_, ?_, ?_, ?_, ?_, ?_, ?_, ?_, ?_, ?_, ?_, ?_, ?_, ?_, ?_⟩
  · rw [hS]
    exact hI.state_lt
  · rw [hS]
    exact hI.batch_le
  · exact hI.count_lt
  · intro j hj
    rw [hS]
    by_cases hji : j = i
    · subst hji
      rw [Rcu_sys.store_cpus_self, h1]
      exact hl
    · rw [Rcu_sys.store_cpus_other s i j pre r hji]
      exact hI.l_batch_le j hj
  · rw [hS]
    exact hI.first
  · intro j hj
    rw [hS, hqm]
    by_cases hji : j = i
    · subst hji
      rw [Rcu_sys.store_cpus_self, h1, h2]
      exact how
    · rw [Rcu_sys.store_cpus_other s i j pre r hji]
      exact hI.owes j hj
  · rw [hS]
    intro a1 a2 j hj
    exact hmono _ (hI.completed a1 a2 j hj)
  · intro j hj
    rw [hS, hqm]
    by_cases hji : j = i
    · subst hji
      rw [Rcu_sys.store_cpus_self, h1, h2]
      exact hrep
    · rw [Rcu_sys.store_cpus_other s i j pre r hji]
      exact hI.reported j hj
  · rw [hS, hC, hN]
    intro a1
    rw [htr, Rcu_sys.quieted_append]
    · exact hI.counted a1
    · intro j
      exact hq j _
  · intro j c
    rw [hS, hqm]
    exact hI.recent j c
  · rw [hS]
    intro c a1 a2 j hj
    exact hmono _ (hI.earlier c a1 a2 j hj)
  · intro j e b
    rw [hS, htr, List.mem_append]
    rintro (hm | hm)
    · exact hI.registered j e b hm
    · exact (hlc j e b hm).2
  · rw [htr]
    exact hord
  · intro j hj
    rw [hN, htr]
    by_cases hji : j = i
    · subst hji
      rw [Rcu_sys.store_cpus_self, h3, h4, h5, h6]
      exact hqueue
    · rw [Rcu_sys.store_cpus_other s i j pre r hji]
      apply Rcu_sys.queue_append _ _ _ _ _ _ _ _ (hI.queue j hj)
      · apply Rcu_sys.calls_eq_nil
        intro e b hm
        exact hji (hlc j e b hm).1
      · apply Rcu_sys.invokes_eq_nil
        intro e hm
        exact hji (hli j e hm)
  · rw [hN, htr]
    exact hsafe

/-- A change of the shared words that leaves the CPUs alone and logs no report, no
registration and no invocation keeps the invariant, provided the parts of the invariant
that read the shared words hold for the new ones. -/
theorem Rcu_sys.Inv.global (E : Rcu.Env) (k : Nat) (s : Rcu_sys) (hI : Rcu_sys.Inv E k s)
    (l : List Rcu_sys.Event) (hlq : ∀ j b, Rcu_sys.Event.quiet j b ∉ l)
    (hli : ∀ j e, Rcu_sys.Event.invoke j e ∉ l)
    (hlc : ∀ j e b, Rcu_sys.Event.call j e b ∉ l) (v1 c1 k1 : Nat)
    (h_lt : v1 < 2 ^ 64) (h_ble : v1 >>> 2 ≤ k1) (h_mono : s.state >>> 2 ≤ v1 >>> 2)
    (h_first : v1 >>> 2 = 0 → v1 &&& E.RCU_CMP ≠ 0)
    (h_owes : ∀ j, j < s.cpu_count → (s.cpus j).hazard &&& Hazard.RCU ≠ 0 →
      (s.cpus j).l_batch = v1 >>> 2 ∧ v1 &&& E.RCU_CMP = 0 ∧
        Rcu_sys.Event.quiet j (v1 >>> 2) ∉ s.trace)
    (h_completed : v1 &&& E.RCU_CMP ≠ 0 → 1 ≤ v1 >>> 2 →
      ∀ j, j < s.cpu_count → Rcu_sys.Event.quiet j (v1 >>> 2) ∈ s.trace)
    (h_reported : ∀ j, j < s.cpu_count → Rcu_sys.Event.quiet j (v1 >>> 2) ∈ s.trace →
      (s.cpus j).l_batch = v1 >>> 2 ∧ (s.cpus j).hazard &&& Hazard.RCU = 0)
    (h_counted : v1 &&& E.RCU_CMP = 0 →
      c1 + Rcu_sys.quieted s.trace s.cpu_count (v1 >>> 2) = s.cpu_count)
    (h_earlier : ∀ c, 1 ≤ c → c < v1 >>> 2 →
      ∀ j, j < s.cpu_count → Rcu_sys.Event.quiet j c ∈ s.trace) :
    Rcu_sys.Inv E k1
      { state := v1, count := c1, cpu_count := s.cpu_count, cpus := s.cpus,
        trace := s.trace ++ l } := by
  have hqm : ∀ j b, Rcu_sys.Event.quiet j b ∈ s.trace ++ l ↔
      Rcu_sys.Event.quiet j b ∈ s.trace := by
    intro j b
    rw [List.mem_append]
    exact ⟨fun h => h.elim id (fun h2 => absurd h2 (hlq j b)), Or.inl⟩
  refine ⟨h_lt, h_ble, hI.count_lt, ?_, h_first, ?_, ?_, ?_, ?_, ?_, ?_, ?_, ?_, ?_, ?_⟩
  · intro j hj
    exact Nat.le_trans (hI.l_batch_le j hj) h_mono
  · intro j hj hh
    simp only [hqm]
    exact h_owes j hj hh
  · intro h1 h2 j hj
    exact List.mem_append_left _ (h_completed h1 h2 j hj)
  · intro j hj
    simp only [hqm]
    exact h_reported j hj
  · intro h1
    simp only
    rw [Rcu_sys.quieted_append _ _ _ _ (fun j => hlq j _)]
    exact h_counted h1
  · intro j c
    simp only [hqm]
    intro h
    exact Nat.le_trans (hI.recent j c h) h_mono
  · intro c h1 h2 j hj
    exact List.mem_append_left _ (h_earlier c h1 h2 j hj)
  · intro j e b hm
    rcases List.mem_append.mp hm with h | h
    · obtain ⟨a1, a2⟩ := hI.registered j e b h
      exact ⟨a1, Nat.le_trans a2 h_mono⟩
    · exact absurd h (hlc j e b)
  · exact Rcu_sys.ordered_append _ _ hI.ordered hlc
  · intro j hj
    exact Rcu_sys.queue_append _ _ _ _ _ _ _ _ (hI.queue j hj)
      (Rcu_sys.calls_eq_nil j l (fun e b => hlc j e b))
      (Rcu_sys.invokes_eq_nil j l (fun e => hli j e))
  · exact Rcu_sys.safe_append _ _ _ hI.safe hli

/-- The system after an operation of CPU `i` that left its local variables as they
were. -/
theorem Rcu_sys.store_eq_global (s : Rcu_sys) (i : Nat) (pre : List Rcu_sys.Event) (r : Rcu)
    (h1 : r.l_batch = (s.cpus i).l_batch) (h2 : r.c_batch = (s.cpus i).c_batch)
    (h3 : r.next = (s.cpus i).next) (h4 : r.curr = (s.cpus i).curr)
    (h5 : r.done = (s.cpus i).done) (h6 : r.hazard = (s.cpus i).hazard) :
    s.store i pre r = Rcu_sys.mk r.state r.count s.cpu_count s.cpus
      (s.trace ++ (pre ++ r.log.map (Rcu_sys.Event.of_rcu i))) := by
  have hc : (fun j => if j = i then r.cpu_part else s.cpus j) = s.cpus := by
    funext j
    by_cases hji : j = i
    · subst hji
      rw [if_pos rfl]
      simp only [Rcu.cpu_part, h1, h2, h3, h4, h5, h6]
    · rw [if_neg hji]
  simp only [Rcu_sys.store, hc, List.append_assoc]

/-- What a CPU sees after its own operation. -/
theorem Rcu_sys.view_store (s : Rcu_sys) (i : Nat) (pre : List Rcu_sys.Event) (r : Rcu)
    (hlog : r.log = []) (hn : r.cpu_count = s.cpu_count) : (s.store i pre r).view i = r := by
  cases r
  simp only at hlog hn
  subst hlog hn
  simp only [Rcu_sys.view, Rcu_sys.store, if_true, Rcu.cpu_part]

/-- Two operations of one CPU in a row. -/
theorem Rcu_sys.store_store (s : Rcu_sys) (i : Nat) (pre pre2 : List Rcu_sys.Event)
    (r r2 : Rcu) :
    (s.store i pre r).store i pre2 r2
      = s.store i (pre ++ r.log.map (Rcu_sys.Event.of_rcu i) ++ pre2) r2 := by
  have hc : (fun j => if j = i then r2.cpu_part
      else (fun j => if j = i then r.cpu_part else s.cpus j) j)
      = (fun j => if j = i then r2.cpu_part else s.cpus j) := by
    funext j
    by_cases hji : j = i
    · rw [if_pos hji, if_pos hji]
    · rw [if_neg hji, if_neg hji]
      simp only [if_neg hji]
  simp only [Rcu_sys.store, List.append_assoc]
  simp only at hc
  rw [hc]

/-- The shared words can move to a later batch, with both phase bits clear and
`count` reset, when every CPU has reported in the current batch (if it is not the
first) and no CPU owes a report. -/
theorem Rcu_sys.Inv.advance (E : Rcu.Env) (k : Nat) (s : Rcu_sys) (hI : Rcu_sys.Inv E k s)
    (hk : k + 1 < 2 ^ 62) (l : List Rcu_sys.Event)
    (hlq : ∀ j b, Rcu_sys.Event.quiet j b ∉ l) (hli : ∀ j e, Rcu_sys.Event.invoke j e ∉ l)
    (hlc : ∀ j e b, Rcu_sys.Event.call j e b ∉ l)
    (v1 : Nat) (hv1 : v1 = ((s.state >>> 2 + 1) <<< 2) % 2 ^ 64) (hc1 : v1 &&& E.RCU_CMP = 0)
    (hall : 1 ≤ s.state >>> 2 →
      ∀ j, j < s.cpu_count → Rcu_sys.Event.quiet j (s.state >>> 2) ∈ s.trace)
    (hnoh : ∀ j, j < s.cpu_count → (s.cpus j).hazard &&& Hazard.RCU = 0) :
    Rcu_sys.Inv E (k + 1)
      { state := v1, count := s.cpu_count, cpu_count := s.cpu_count, cpus := s.cpus,
        trace := s.trace ++ l } := by
  have hB := hI.batch_le
  have hb1 : v1 >>> 2 = s.state >>> 2 + 1 := by
    rw [hv1, Nat.shiftLeft_eq, Nat.shiftRight_eq_div_pow]
    have h4 : (s.state >>> 2 + 1) * 2 ^ 2 < 2 ^ 64 := by
      have : s.state >>> 2 + 1 < 2 ^ 62 := by omega
      calc (s.state >>> 2 + 1) * 2 ^ 2 < 2 ^ 62 * 2 ^ 2 :=
            Nat.mul_lt_mul_of_pos_right this (by decide)
        _ = 2 ^ 64 := by decide
    rw [Nat.mod_eq_of_lt h4]
    exact Nat.mul_div_cancel _ (by decide)
  have hlt : v1 < 2 ^ 64 := by
    rw [hv1]
    exact Nat.mod_lt _ (by decide)
  have hnew : ∀ j, Rcu_sys.Event.quiet j (v1 >>> 2) ∉ s.trace := by
    intro j hm
    have := hI.recent j _ hm
    omega
  apply Rcu_sys.Inv.global E k s hI l hlq hli hlc v1 s.cpu_count (k + 1) hlt
  · omega
  · omega
  · intro h0
    omega
  · intro j hj hh
    exact absurd (hnoh j hj) hh
  · intro h
    exact absurd hc1 h
  · intro j _ hm
    exact absurd hm (hnew j)
  · intro _
    rw [Rcu_sys.quieted_zero _ _ _ hnew]
    rfl
  · intro c h1 h2 j hj
    by_cases hc : c < s.state >>> 2
    · exact hI.earlier c h1 hc j hj
    · have hcb : c = s.state >>> 2 := by omega
      rw [hcb]
      exact hall (hcb ▸ h1) j hj

/-- A call of `start_batch` on CPU `i`, for `RCU_PND`, or for `RCU_CMP` when `count`
is zero, returns and keeps the invariant; it leaves the CPUs alone. -/
theorem Rcu_sys.Inv.start_batch (E : Rcu.Env) (hE : E.phase_bits) (k fuel : Nat) (s : Rcu_sys)
    (hI : Rcu_sys.Inv E k s) (hk : k + 1 < 2 ^ 62) (i : Nat) (st : Rcu.State)
    (hcond : st = Rcu.State.RCU_PND ∨ (st = Rcu.State.RCU_CMP ∧ s.count = 0)) :
    ∃ r1, Rcu.start_batch E (fuel + 1) st (s.view i) = some r1 ∧
      Rcu_sys.Inv E (k + 1) (s.store i [] r1) ∧
      (s.store i [] r1).cpus = s.cpus ∧
      (s.store i [] r1).trace = s.trace ++ [Rcu_sys.Event.start_batch i st] ∧
      (s.store i [] r1).cpu_count = s.cpu_count := by
  obtain ⟨r1, h1, hlog, hl, hc, hn, hcu, hd, hh, _, hlt, hcases⟩ :=
    Rcu.start_batch_cases E hE fuel st (s.view i) hI.state_lt
  have heq := Rcu_sys.store_eq_global s i [] r1 hl hc hn hcu hd hh
  have hlog1 : r1.log.map (Rcu_sys.Event.of_rcu i) = [Rcu_sys.Event.start_batch i st] := by
    rw [hlog]
    rfl
  rw [List.nil_append, hlog1] at heq
  have hlq : ∀ j b, Rcu_sys.Event.quiet j b ∉ [Rcu_sys.Event.start_batch i st] := by
    intro j b hm
    simp at hm
  have hli : ∀ j e, Rcu_sys.Event.invoke j e ∉ [Rcu_sys.Event.start_batch i st] := by
    intro j e hm
    simp at hm
  have hlc : ∀ j e b, Rcu_sys.Event.call j e b ∉ [Rcu_sys.Event.start_batch i st] := by
    intro j e b hm
    simp at hm
  refine ⟨r1, h1, ?_, by rw [heq], by rw [heq], by rw [heq]⟩
  rw [heq]
  have hvs : (s.view i).state = s.state := rfl
  have hvc : (s.view i).count = s.count := rfl
  have hvn : (s.view i).cpu_count = s.cpu_count := rfl
  rw [hvs, hvc, hvn] at hcases
  have hcmpval : E.val Rcu.State.RCU_CMP = E.RCU_CMP := rfl
  have hpndval : E.val Rcu.State.RCU_PND = E.RCU_PND := rfl
  have hB := hI.batch_le
  rcases hcases with ⟨_, hs1, hc1⟩ | ⟨_, hs0, ho0, hb1, hs1, ho1, hc1⟩ |
      ⟨_, hs0, ho0, hv1, hcm, _, hc1⟩
  · rw [hs1, hc1]
    exact Rcu_sys.Inv.global E k s hI _ hlq hli hlc s.state s.count (k + 1) hI.state_lt
      (by omega) (Nat.le_refl _) hI.first hI.owes hI.completed hI.reported hI.counted hI.earlier
  · rw [hc1]
    rcases hcond with hp | ⟨hp, hz⟩
    · subst hp
      have ho0c : s.state &&& E.RCU_CMP = 0 := ho0
      have ho1c : r1.state &&& E.RCU_CMP = 0 := ho1
      apply Rcu_sys.Inv.global E k s hI _ hlq hli hlc r1.state s.count (k + 1) hlt
      · omega
      · omega
      · intro h0
        rw [hb1] at h0
        exact absurd ho0c (hI.first h0)
      · intro j hj hhz
        rw [hb1]
        exact ⟨(hI.owes j hj hhz).1, ho1c, (hI.owes j hj hhz).2.2⟩
      · intro h
        exact absurd ho1c h
      · rw [hb1]
        exact hI.reported
      · rw [hb1]
        intro _
        exact hI.counted ho0c
      · rw [hb1]
        exact hI.earlier
    · subst hp
      have hs0c : s.state &&& E.RCU_CMP = 0 := hs0
      have hs1c : r1.state &&& E.RCU_CMP ≠ 0 := hs1
      have hall : ∀ j, j < s.cpu_count →
          Rcu_sys.Event.quiet j (s.state >>> 2) ∈ s.trace := by
        intro j hj
        apply Rcu_sys.quieted_all _ _ _ _ j hj
        have := hI.counted hs0c
        omega
      apply Rcu_sys.Inv.global E k s hI _ hlq hli hlc r1.state s.count (k + 1) hlt
      · omega
      · omega
      · intro _
        exact hs1c
      · intro j hj hhz
        exact absurd (hall j hj) (hI.owes j hj hhz).2.2
      · intro _ _
        rw [hb1]
        exact hall
      · rw [hb1]
        exact hI.reported
      · intro h
        exact absurd h hs1c
      · rw [hb1]
        exact hI.earlier
  · rw [hc1]
    rcases hcond with hp | ⟨hp, hz⟩
    · subst hp
      have hcmp : s.state &&& E.RCU_CMP ≠ 0 := ho0
      apply Rcu_sys.Inv.advance E k s hI hk _ hlq hli hlc r1.state hv1 hcm
      · intro hb
        exact hI.completed hcmp hb
      · intro j hj
        by_contra hhz
        exact hcmp (hI.owes j hj hhz).2.1
    · subst hp
      have hs0c : s.state &&& E.RCU_CMP = 0 := hs0
      have hall : ∀ j, j < s.cpu_count →
          Rcu_sys.Event.quiet j (s.state >>> 2) ∈ s.trace := by
        intro j hj
        apply Rcu_sys.quieted_all _ _ _ _ j hj
        have := hI.counted hs0c
        omega
      apply Rcu_sys.Inv.advance E k s hI hk _ hlq hli hlc r1.state hv1 hcm
      · intro _
        exact hall
      · intro j hj
        exact (hI.reported j hj (hall j hj)).2

theorem Rcu.update_complete_frame (E : Rcu.Env) (x : Rcu) :
    (Rcu.update_complete E x).hazard = x.hazard ∧
    (Rcu.update_complete E x).cpu_count = x.cpu_count := by
  unfold Rcu.update_complete
  split_ifs <;> exact ⟨rfl, rfl⟩

theorem Rcu.update_invoke_frame (x : Rcu) :
    (Rcu.update_invoke x).l_batch = x.l_batch ∧ (Rcu.update_invoke x).hazard = x.hazard ∧
    (Rcu.update_invoke x).cpu_count = x.cpu_count := by
  unfold Rcu.update_invoke Rcu.invoke_batch_seq
  split_ifs <;> exact ⟨rfl, rfl, rfl⟩

/-- The lists of a CPU hold no null element. -/
theorem Rcu_sys.Inv.nonnull (E : Rcu.Env) (k : Nat) (s : Rcu_sys) (hI : Rcu_sys.Inv E k s)
    (j : Nat) (hj : j < s.cpu_count) :
    nullptr ∉ (s.cpus j).done ∧ nullptr ∉ (s.cpus j).curr ∧ nullptr ∉ (s.cpus j).next := by
  have fin : ∀ e, (e ∈ (s.cpus j).done ∨ e ∈ (s.cpus j).curr ∨ e ∈ (s.cpus j).next) →
      e ≠ nullptr := by
    intro e he
    obtain ⟨b, hb⟩ := Rcu_sys.queue_mem _ _ _ _ _ _ _ (hI.queue j hj) e he
    exact (hI.registered j e b hb).1
  exact ⟨fun h => fin _ (Or.inl h) rfl, fun h => fin _ (Or.inr (Or.inl h)) rfl,
    fun h => fin _ (Or.inr (Or.inr h)) rfl⟩

/-- The registration of a non-null element on CPU `i` keeps the invariant. -/
theorem Rcu_sys.Inv.call (E : Rcu.Env) (k : Nat) (s : Rcu_sys) (hI : Rcu_sys.Inv E k s)
    (i : Nat) (hi : i < s.cpu_count) (e : Ptr) (he : e ≠ nullptr) :
    Rcu_sys.Inv E k
      (s.store i [Rcu_sys.Event.call i e (s.state >>> 2)] (Rcu.call e (s.view i))) := by
  apply Rcu_sys.Inv.frame E k s hI i hi _ _ [Rcu_sys.Event.call i e (s.state >>> 2)]
    (by simp [Rcu.call, Rcu_sys.view]) (Eq.refl _) (Eq.refl _)
  · intro j b hm
    simp at hm
  · intro j x b hm
    rw [List.mem_singleton, Rcu_sys.Event.call.injEq] at hm
    obtain ⟨h1, h2, h3⟩ := hm
    rw [h1, h2, h3]
    exact ⟨rfl, he, Nat.le_refl _⟩
  · intro j x hm
    simp at hm
  · exact hI.l_batch_le i hi
  · exact hI.owes i hi
  · exact hI.reported i hi
  · exact Rcu_sys.queue_call _ _ _ _ _ _ _ e _ (hI.queue i hi)
  · exact Rcu_sys.ordered_call _ _ _ _ hI.ordered hI.recent
  · apply Rcu_sys.safe_append _ _ _ hI.safe
    intro j x hm
    simp at hm

/-- The first two statements of `update` on CPU `i` keep the invariant; afterwards
the CPU has seen the current batch. -/
theorem Rcu_sys.Inv.update_begin (E : Rcu.Env) (hEc : E.complete_sound) (k : Nat) (s : Rcu_sys)
    (hI : Rcu_sys.Inv E k s) (i : Nat) (hi : i < s.cpu_count) :
    Rcu_sys.Inv E k (s.store i [] (Rcu.update_complete E (Rcu.update_owe (s.view i)))) ∧
    (Rcu.update_complete E (Rcu.update_owe (s.view i))).log = [] ∧
    (Rcu.update_complete E (Rcu.update_owe (s.view i))).cpu_count = s.cpu_count ∧
    (Rcu.update_complete E (Rcu.update_owe (s.view i))).l_batch = s.state >>> 2 ∧
    (Rcu.update_complete E (Rcu.update_owe (s.view i))).state = s.state := by
  obtain ⟨ol, oh, ost, oct, ocb, onx, ocu, odn, olg, ocn⟩ := Rcu.update_owe_eq (s.view i)
  have hnull : nullptr ∉ (Rcu.update_owe (s.view i)).curr := by
    rw [ocu]
    exact (Rcu_sys.Inv.nonnull E k s hI i hi).2.1
  obtain ⟨cnx, ccb, cl, cst, cct, clg, cyes, cno⟩ :=
    Rcu.update_complete_eq E (Rcu.update_owe (s.view i)) hnull
  obtain ⟨chz, cn⟩ := Rcu.update_complete_frame E (Rcu.update_owe (s.view i))
  rw [ocu, ost, ocb, odn] at cyes cno
  have hvs : (s.view i).state = s.state := Eq.refl _
  have hvl : (s.view i).l_batch = (s.cpus i).l_batch := Eq.refl _
  have hvh : (s.view i).hazard = (s.cpus i).hazard := Eq.refl _
  have hvcu : (s.view i).curr = (s.cpus i).curr := Eq.refl _
  have hvd : (s.view i).done = (s.cpus i).done := Eq.refl _
  have hvcb : (s.view i).c_batch = (s.cpus i).c_batch := Eq.refl _
  have hvnx : (s.view i).next = (s.cpus i).next := Eq.refl _
  have hvlog : (s.view i).log = [] := Eq.refl _
  rw [hvs, hvcu, hvd, hvcb] at cyes cno
  rw [hvs] at ol
  rw [hvs, hvl, hvh] at oh
  have xlog : (Rcu.update_complete E (Rcu.update_owe (s.view i))).log = [] :=
    (clg.trans olg).trans hvlog
  refine ⟨?_, xlog, cn.trans ocn, cl.trans ol, cst.trans ost⟩
  apply Rcu_sys.Inv.frame E k s hI i hi _ _ []
    (by rw [xlog]; rfl) (cst.trans ost) (cct.trans oct)
  · intro j b hm
    cases hm
  · intro j x b hm
    cases hm
  · intro j x hm
    cases hm
  · rw [cl, ol]
  · rw [chz, oh, cl, ol]
    intro hh
    by_cases hlb : (s.cpus i).l_batch = s.state >>> 2
    · rw [if_neg (not_not.mpr hlb)] at hh
      exact ⟨rfl, (hI.owes i hi hh).2⟩
    · have hnq : Rcu_sys.Event.quiet i (s.state >>> 2) ∉ s.trace := fun hm =>
        hlb (hI.reported i hi hm).1
      refine ⟨rfl, ?_, hnq⟩
      by_contra hcmp
      have hle := hI.l_batch_le i hi
      by_cases hb0 : s.state >>> 2 = 0
      · omega
      · exact hnq (hI.completed hcmp (by omega) i hi)
  · rw [chz, oh, cl, ol]
    intro hm
    obtain ⟨h1, h2⟩ := hI.reported i hi hm
    rw [if_neg (not_not.mpr h1)]
    exact ⟨rfl, h2⟩
  · rw [List.append_nil, cnx, onx, ccb, ocb, hvnx, hvcb]
    by_cases hcm : (s.cpus i).curr ≠ [] ∧ E.complete s.state (s.cpus i).c_batch = true
    · rw [(cyes hcm).1, (cyes hcm).2]
      apply Rcu_sys.queue_complete _ _ _ _ _ _ _ (hI.queue i hi)
      intro p1 p2 e b ht hb
      refine ⟨(s.cpus i).c_batch, hb, ?_⟩
      intro j hj
      have hall : Rcu_sys.Event.quiet j (s.cpus i).c_batch ∈ s.trace := by
        rcases hEc _ _ hcm.2 with hlt | ⟨heq, hcmp⟩
        · exact hI.earlier _ (by omega) hlt j hj
        · rw [heq]
          exact hI.completed hcmp (by omega) j hj
      rw [ht] at hall
      rcases List.mem_append.mp hall with h | h
      · have := hI.ordered p1 p2 i e b ht j _ h
        omega
      · rcases List.mem_cons.mp h with h | h
        · cases h
        · exact h
    · rw [(cno hcm).1, (cno hcm).2]
      exact hI.queue i hi
  · rw [List.append_nil]
    exact hI.ordered
  · rw [List.append_nil]
    exact hI.safe

/-- The promotion of `next` on a CPU that has seen the current batch and whose
`curr` is empty keeps the invariant. -/
theorem Rcu_sys.Inv.update_move (E : Rcu.Env) (k : Nat) (s : Rcu_sys) (hI : Rcu_sys.Inv E k s)
    (hk : k + 1 < 2 ^ 62) (i : Nat) (hi : i < s.cpu_count)
    (hlb : (s.cpus i).l_batch = s.state >>> 2) (hcu : (s.cpus i).curr = []) :
    Rcu_sys.Inv E k (s.store i []
      { s.view i with
        curr := (Rcu_list.append (s.view i).curr (s.view i).next).1,
        next := (Rcu_list.append (s.view i).curr (s.view i).next).2,
        c_batch := ((s.view i).l_batch + 1) % 2 ^ 64 }) := by
  have hB := hI.batch_le
  have hcb : ((s.cpus i).l_batch + 1) % 2 ^ 64 = s.state >>> 2 + 1 := by
    rw [hlb]
    apply Nat.mod_eq_of_lt
    have h62 : (2 : Nat) ^ 62 < 2 ^ 64 := by decide
    omega
  apply Rcu_sys.Inv.frame E k s hI i hi _ _ [] (by simp [Rcu_sys.view]) (Eq.refl _) (Eq.refl _)
  · intro j b hm
    cases hm
  · intro j x b hm
    cases hm
  · intro j x hm
    cases hm
  · exact hI.l_batch_le i hi
  · exact hI.owes i hi
  · exact hI.reported i hi
  · rw [List.append_nil]
    have hq := hI.queue i hi
    rw [hcu] at hq
    have hq2 := Rcu_sys.queue_move _ _ _ _ _ _ (s.state >>> 2 + 1) hq
      (fun e b hm => Nat.lt_succ_of_le (hI.registered i e b hm).2)
    rw [← hcb] at hq2
    have hc1 : (Rcu_list.append (s.view i).curr (s.view i).next).1 = (s.cpus i).next := by
      show (s.cpus i).curr ++ (s.cpus i).next = (s.cpus i).next
      rw [hcu, List.nil_append]
    have hc2 : (Rcu_list.append (s.view i).curr (s.view i).next).2 = [] := Eq.refl _
    show Rcu_sys.Queue s.cpu_count s.trace i (s.cpus i).done
      (Rcu_list.append (s.view i).curr (s.view i).next).1
      (Rcu_list.append (s.view i).curr (s.view i).next).2
      (((s.cpus i).l_batch + 1) % 2 ^ 64)
    rw [hc1, hc2]
    exact hq2
  · rw [List.append_nil]
    exact hI.ordered
  · rw [List.append_nil]
    exact hI.safe

/-- The last statement of `update` on CPU `i` keeps the invariant: the elements it
invokes are its next registrations, and each has had its grace period. -/
theorem Rcu_sys.Inv.update_end (E : Rcu.Env) (k : Nat) (s : Rcu_sys) (hI : Rcu_sys.Inv E k s)
    (i : Nat) (hi : i < s.cpu_count) :
    Rcu_sys.Inv E k (s.store i [] (Rcu.update_invoke (s.view i))) := by
  have hnull : nullptr ∉ (s.view i).done := (Rcu_sys.Inv.nonnull E k s hI i hi).1
  obtain ⟨il, idn, inx, icu, icb, ist, ict⟩ := Rcu.update_invoke_eq (s.view i) hnull
  obtain ⟨ilb, ihz, _⟩ := Rcu.update_invoke_frame (s.view i)
  have hvd : (s.view i).done = (s.cpus i).done := Eq.refl _
  have hvlog : (s.view i).log = [] := Eq.refl _
  rw [hvlog, List.nil_append, hvd] at il
  apply Rcu_sys.Inv.frame E k s hI i hi _ _
    (((s.cpus i).done.map Rcu.Event.invoke).map (Rcu_sys.Event.of_rcu i))
    (by rw [il]; rfl) ist ict
  · intro j b
    exact (Rcu_sys.Event.of_rcu_ne i _).1 j b
  · intro j x b hm
    exact absurd hm ((Rcu_sys.Event.of_rcu_ne i _).2 j x b)
  · intro j x hm
    exact Rcu_sys.Event.of_rcu_invoke i j x _ hm
  · rw [ilb]
    exact hI.l_batch_le i hi
  · rw [ilb, ihz]
    exact hI.owes i hi
  · rw [ilb, ihz]
    exact hI.reported i hi
  · rw [idn, inx, icu, icb]
    exact Rcu_sys.queue_invoke _ _ _ _ _ _ _ (hI.queue i hi)
  · apply Rcu_sys.ordered_append _ _ hI.ordered
    intro j x b
    exact (Rcu_sys.Event.of_rcu_ne i _).2 j x b
  · exact Rcu_sys.safe_invokes _ i _ _ hI.safe
      (Rcu_sys.queue_done_grace _ _ _ _ _ _ _ (hI.queue i hi))

/-- Source `Rcu::quiet` on what CPU `i` sees, statement by statement. -/
theorem Rcu_sys.quiet_view (E : Rcu.Env) (fuel : Nat) (s : Rcu_sys) (i : Nat) :
    Rcu.quiet E fuel (s.view i)
      = if atomic_sub_fetch64 s.count 1 = 0 then
          Rcu.start_batch E fuel Rcu.State.RCU_CMP
            (Rcu.mk s.state (atomic_sub_fetch64 s.count 1) (s.cpus i).l_batch (s.cpus i).c_batch
              (s.cpus i).next (s.cpus i).curr (s.cpus i).done
              ((s.cpus i).hazard &&& not32 Hazard.RCU) s.cpu_count [])
        else
          some (Rcu.mk s.state (atomic_sub_fetch64 s.count 1) (s.cpus i).l_batch
            (s.cpus i).c_batch (s.cpus i).next (s.cpus i).curr (s.cpus i).done
            ((s.cpus i).hazard &&& not32 Hazard.RCU) s.cpu_count []) := rfl

/-- The report of a CPU that owes one keeps the invariant: `count` was positive and
is decremented, and the CPU owes nothing any more. -/
theorem Rcu_sys.Inv.report_of (E : Rcu.Env) (k : Nat) (s : Rcu_sys) (hI : Rcu_sys.Inv E k s)
    (i : Nat) (hi : i < s.cpu_count) (hh : (s.cpus i).hazard &&& Hazard.RCU ≠ 0)
    (r : Rcu) (hst : r.state = s.state) (hcnt0 : r.count = atomic_sub_fetch64 s.count 1)
    (hl : r.l_batch = (s.cpus i).l_batch) (hhz : r.hazard &&& Hazard.RCU = 0)
    (hnx : r.next = (s.cpus i).next) (hcu : r.curr = (s.cpus i).curr)
    (hcb : r.c_batch = (s.cpus i).c_batch)
    (hdn : r.done = (s.cpus i).done) (hlog : r.log = []) :
    0 < s.count ∧ s.count < 2 ^ 64 ∧
    Rcu_sys.Inv E k (s.store i [Rcu_sys.Event.quiet i (s.state >>> 2)] r) := by
  obtain ⟨hlb, hcmp, hnq⟩ := hI.owes i hi hh
  obtain ⟨hq1, hqlt⟩ := Rcu_sys.quieted_report s.trace s.cpu_count (s.state >>> 2) i hi hnq
  have hcount := hI.counted hcmp
  have hNlt := hI.count_lt
  refine ⟨by omega, by omega, ?_⟩
  have hcnt : r.count = s.count - 1 := by
    rw [hcnt0]
    exact (atomic_sub_fetch64_one s.count).1 (by omega) (by omega)
  have htr : (s.store i [Rcu_sys.Event.quiet i (s.state >>> 2)] r).trace
        = s.trace ++ [Rcu_sys.Event.quiet i (s.state >>> 2)] := by
    simp only [Rcu_sys.store, hlog, List.map_nil, List.append_nil]
  have hS : (s.store i [Rcu_sys.Event.quiet i (s.state >>> 2)] r).state = s.state := hst
  have hC : (s.store i [Rcu_sys.Event.quiet i (s.state >>> 2)] r).count = s.count - 1 := hcnt
  have hN : (s.store i [Rcu_sys.Event.quiet i (s.state >>> 2)] r).cpu_count = s.cpu_count := rfl
  have hP : ∀ j, j ≠ i →
      (s.store i [Rcu_sys.Event.quiet i (s.state >>> 2)] r).cpus j = s.cpus j :=
    fun j hji => Rcu_sys.store_cpus_other s i j _ r hji
  have hQ : (s.store i [Rcu_sys.Event.quiet i (s.state >>> 2)] r).cpus i = r.cpu_part :=
    Rcu_sys.store_cpus_self s i _ r
  have h1 : r.cpu_part.l_batch = r.l_batch := rfl
  have h2 : r.cpu_part.hazard = r.hazard := rfl
  have h3 : r.cpu_part.next = r.next := rfl
  have h4 : r.cpu_part.curr = r.curr := rfl
  have h5 : r.cpu_part.done = r.done := rfl
  have h6 : r.cpu_part.c_batch = r.c_batch := rfl
  have hmem : ∀ j b, Rcu_sys.Event.quiet j b ∈
      s.trace ++ [Rcu_sys.Event.quiet i (s.state >>> 2)] ↔
      (Rcu_sys.Event.quiet j b ∈ s.trace ∨ (j = i ∧ b = s.state >>> 2)) := by
    intro j b
    simp only [List.mem_append, List.mem_singleton, Rcu_sys.Event.quiet.injEq]
  have hmono : ∀ x, x ∈ s.trace → x ∈ s.trace ++ [Rcu_sys.Event.quiet i (s.state >>> 2)] :=
    fun x hx => List.mem_append_left _ hx
  refine ⟨?_, ?_, ?_, ?_, ?_, ?_, ?_, ?_, ?_, ?_, ?_, ?_, ?_, ?_, ?_⟩
  · rw [hS]
    exact hI.state_lt
  · rw [hS]
    exact hI.batch_le
  · exact hI.count_lt
  · intro j hj
    rw [hS]
    by_cases hji : j = i
    · subst hji
      rw [hQ, h1, hl]
      exact hI.l_batch_le j hj
    · rw [hP j hji]
      exact hI.l_batch_le j hj
  · rw [hS]
    exact hI.first
  · intro j hj
    rw [hS, htr]
    by_cases hji : j = i
    · subst hji
      rw [hQ, h2]
      intro hx
      exact absurd hhz hx
    · rw [hP j hji]
      intro hx
      obtain ⟨a1, a2, a3⟩ := hI.owes j hj hx
      refine ⟨a1, a2, ?_⟩
      intro hm
      rcases (hmem _ _).mp hm with h | ⟨h, _⟩
      · exact a3 h
      · exact hji h
  · rw [hS]
    intro hx
    exact absurd hcmp hx
  · intro j hj
    rw [hS, htr]
    by_cases hji : j = i
    · subst hji
      rw [hQ, h1, h2, hl]
      intro _
      exact ⟨hlb, hhz⟩
    · rw [hP j hji]
      intro hm
      rcases (hmem _ _).mp hm with h | ⟨h, _⟩
      · exact hI.reported j hj h
      · exact absurd h hji
  · rw [hS, hC, hN, htr]
    intro _
    rw [hq1]
    omega
  · intro j c
    rw [hS, htr]
    intro hm
    rcases (hmem _ _).mp hm with h | ⟨_, h⟩
    · exact hI.recent j c h
    · rw [h]
  · rw [hS, htr]
    intro c a1 a2 j hj
    exact hmono _ (hI.earlier c a1 a2 j hj)
  · intro j e b
    rw [hS, htr]
    intro hm
    rcases List.mem_append.mp hm with h | h
    · exact hI.registered j e b h
    · simp at h
  · rw [htr]
    apply Rcu_sys.ordered_append _ _ hI.ordered
    intro j e b hm
    simp at hm
  · intro j hj
    rw [hN, htr]
    have hqa : Rcu_sys.Queue s.cpu_count (s.trace ++ [Rcu_sys.Event.quiet i (s.state >>> 2)]) j
        (s.cpus j).done (s.cpus j).curr (s.cpus j).next (s.cpus j).c_batch := by
      apply Rcu_sys.queue_append _ _ _ _ _ _ _ _ (hI.queue j hj)
      · apply Rcu_sys.calls_eq_nil
        intro e b hm
        simp at hm
      · apply Rcu_sys.invokes_eq_nil
        intro e hm
        simp at hm
    by_cases hji : j = i
    · subst hji
      rw [hQ, h3, h4, h5, h6, hnx, hcu, hcb, hdn]
      exact hqa
    · rw [hP j hji]
      exact hqa
  · rw [hN, htr]
    apply Rcu_sys.safe_append _ _ _ hI.safe
    intro j e hm
    simp at hm

/-- The invariant only bounds the batch number by the number of steps. -/
theorem Rcu_sys.Inv.mono (E : Rcu.Env) (k k1 : Nat) (s : Rcu_sys) (hI : Rcu_sys.Inv E k s)
    (hk : k ≤ k1) : Rcu_sys.Inv E k1 s :=
  ⟨hI.state_lt, Nat.le_trans hI.batch_le hk, hI.count_lt, hI.l_batch_le, hI.first, hI.owes,
    hI.completed, hI.reported, hI.counted, hI.recent, hI.earlier, hI.registered, hI.ordered,
    hI.queue, hI.safe⟩

/-- The last statement of `update` after an operation of the same CPU. -/
theorem Rcu_sys.store_update_invoke (s : Rcu_sys) (i : Nat) (pre : List Rcu_sys.Event) (r : Rcu)
    (hn : r.cpu_count = s.cpu_count) :
    (s.store i pre r).store i [] (Rcu.update_invoke ((s.store i pre r).view i))
      = s.store i pre (Rcu.update_invoke r) := by
  rw [Rcu_sys.store_store]
  cases r with
  | mk st ct lb cb nx cu dn hz n lg =>
    simp only at hn
    subst hn
    simp only [Rcu.update_invoke, Rcu.invoke_batch_seq, Rcu_sys.view, Rcu_sys.store,
      Rcu.cpu_part, if_true, Rcu.invoke_list_eq, Rcu_list.clear]
    split_ifs <;> simp [List.append_assoc]

theorem Hazard.clr_RCU (x : Nat) : (x &&& not32 Hazard.RCU) &&& Hazard.RCU = 0 :=
  Hazard.clr_and_BIT x 4

theorem Rcu_sys.store_cpu_count (s : Rcu_sys) (i : Nat) (pre : List Rcu_sys.Event) (r : Rcu) :
    (s.store i pre r).cpu_count = s.cpu_count := rfl

/-- A call of `quiet` on a CPU that owes a report returns and keeps the invariant. -/
theorem Rcu_sys.Inv.step_quiet (E : Rcu.Env) (hE : E.phase_bits) (k fuel : Nat) (s : Rcu_sys)
    (hI : Rcu_sys.Inv E k s) (hk : k + 1 < 2 ^ 62) (i : Nat) (hi : i < s.cpu_count)
    (hh : (s.cpus i).hazard &&& Hazard.RCU ≠ 0) :
    ∃ s1, Rcu_sys.step E (fuel + 1) s (Rcu_sys.Op.quiet i) = some s1 ∧
      Rcu_sys.Inv E (k + 1) s1 ∧ s1.cpu_count = s.cpu_count := by
  have hstep : Rcu_sys.step E (fuel + 1) s (Rcu_sys.Op.quiet i)
      = (Rcu.quiet E (fuel + 1) (s.view i)).map
          (s.store i [Rcu_sys.Event.quiet i (s.state >>> 2)]) := by
    have hc : (Rcu_sys.Op.quiet i).cpu < s.cpu_count := hi
    simp only [Rcu_sys.step, if_pos hc]
  rw [hstep, Rcu_sys.quiet_view]
  have e4 := Hazard.clr_RCU (s.cpus i).hazard
  generalize hhz : (s.cpus i).hazard &&& not32 Hazard.RCU = z at e4
  generalize hr2 : Rcu.mk s.state (atomic_sub_fetch64 s.count 1) (s.cpus i).l_batch
      (s.cpus i).c_batch (s.cpus i).next (s.cpus i).curr (s.cpus i).done
      z s.cpu_count [] = r2
  have e1 : r2.state = s.state := by rw [← hr2]
  have e2 : r2.count = atomic_sub_fetch64 s.count 1 := by rw [← hr2]
  have e3 : r2.l_batch = (s.cpus i).l_batch := by rw [← hr2]
  have e4 : r2.hazard &&& Hazard.RCU = 0 := by
    rw [← hr2]
    exact e4
  have e5 : r2.next = (s.cpus i).next := by rw [← hr2]
  have e6 : r2.curr = (s.cpus i).curr := by rw [← hr2]
  have e7 : r2.c_batch = (s.cpus i).c_batch := by rw [← hr2]
  have e8 : r2.done = (s.cpus i).done := by rw [← hr2]
  have e9 : r2.log = [] := by rw [← hr2]
  have e10 : r2.cpu_count = s.cpu_count := by rw [← hr2]
  obtain ⟨_, _, hI1⟩ := Rcu_sys.Inv.report_of E k s hI i hi hh r2 e1 e2 e3 e4 e5 e6 e7 e8 e9
  by_cases hz : atomic_sub_fetch64 s.count 1 = 0
  · rw [if_pos hz]
    have hv := Rcu_sys.view_store s i [Rcu_sys.Event.quiet i (s.state >>> 2)] r2 e9 e10
    have hc0 : (s.store i [Rcu_sys.Event.quiet i (s.state >>> 2)] r2).count = 0 :=
      e2.trans hz
    obtain ⟨r1, hr1, hI2, _, _, hn⟩ := Rcu_sys.Inv.start_batch E hE k fuel _ hI1 hk i
      Rcu.State.RCU_CMP (Or.inr ⟨rfl, hc0⟩)
    rw [hv] at hr1
    rw [hr1, Option.map_some']
    rw [Rcu_sys.store_store, e9, List.map_nil, List.append_nil, List.append_nil] at hI2
    exact ⟨_, rfl, hI2, Rcu_sys.store_cpu_count _ _ _ _⟩
  · rw [if_neg hz, Option.map_some']
    exact ⟨_, rfl, Rcu_sys.Inv.mono E k (k + 1) _ hI1 (Nat.le_succ k),
      Rcu_sys.store_cpu_count _ _ _ _⟩

/-- A registration of a non-null element returns and keeps the invariant. -/
theorem Rcu_sys.Inv.step_call (E : Rcu.Env) (k fuel : Nat) (s : Rcu_sys)
    (hI : Rcu_sys.Inv E k s) (i : Nat) (hi : i < s.cpu_count) (e : Ptr) (he : e ≠ nullptr) :
    ∃ s1, Rcu_sys.step E fuel s (Rcu_sys.Op.call i e) = some s1 ∧
      Rcu_sys.Inv E (k + 1) s1 ∧ s1.cpu_count = s.cpu_count := by
  have hc : (Rcu_sys.Op.call i e).cpu < s.cpu_count := hi
  refine ⟨s.store i [Rcu_sys.Event.call i e (s.state >>> 2)] (Rcu.call e (s.view i)),
    by simp only [Rcu_sys.step, if_pos hc], ?_, Rcu_sys.store_cpu_count _ _ _ _⟩
  exact Rcu_sys.Inv.mono E k (k + 1) _ (Rcu_sys.Inv.call E k s hI i hi e he) (Nat.le_succ k)

/-- A call of `update` returns and keeps the invariant. -/
theorem Rcu_sys.Inv.step_update (E : Rcu.Env) (hE : E.phase_bits) (hEc : E.complete_sound)
    (k fuel : Nat) (s : Rcu_sys) (hI : Rcu_sys.Inv E k s) (hk : k + 1 < 2 ^ 62) (i : Nat)
    (hi : i < s.cpu_count) :
    ∃ s1, Rcu_sys.step E (fuel + 1) s (Rcu_sys.Op.update i) = some s1 ∧
      Rcu_sys.Inv E (k + 1) s1 ∧ s1.cpu_count = s.cpu_count := by
  have hstep : Rcu_sys.step E (fuel + 1) s (Rcu_sys.Op.update i)
      = (Rcu.update E (fuel + 1) (s.view i)).map (s.store i []) := by
    have hc : (Rcu_sys.Op.update i).cpu < s.cpu_count := hi
    simp only [Rcu_sys.step, if_pos hc]
  rw [hstep]
  obtain ⟨hI1, xlog, xn, xl, xst⟩ := Rcu_sys.Inv.update_begin E hEc k s hI i hi
  unfold Rcu.update Rcu.update_promote
  generalize Rcu.update_complete E (Rcu.update_owe (s.view i)) = x at hI1 xlog xn xl xst
  have hv := Rcu_sys.view_store s i [] x xlog xn
  have hi1 : i < (s.store i [] x).cpu_count := hi
  split_ifs with hp
  · have hnull : nullptr ∉ x.curr := by
      have := (Rcu_sys.Inv.nonnull E k _ hI1 i hi1).2.1
      rw [Rcu_sys.store_cpus_self] at this
      exact this
    have hcu : x.curr = [] := (Rcu_list.head_eq_nullptr_iff x.curr hnull).mp hp.1
    have hI2 := Rcu_sys.Inv.update_move E k _ hI1 hk i hi1
      (by rw [Rcu_sys.store_cpus_self]; show x.l_batch = x.state >>> 2; rw [xl, xst])
      (by rw [Rcu_sys.store_cpus_self]; exact hcu)
    rw [hv] at hI2
    generalize hy : ({ x with
        curr := (Rcu_list.append x.curr x.next).1,
        next := (Rcu_list.append x.curr x.next).2,
        c_batch := (x.l_batch + 1) % 2 ^ 64 } : Rcu) = y at hI2
    have ylog : y.log = [] := by rw [← hy]; exact xlog
    have yn : y.cpu_count = s.cpu_count := by rw [← hy]; exact xn
    rw [Rcu_sys.store_store, xlog, List.map_nil, List.append_nil, List.append_nil] at hI2
    have hv2 := Rcu_sys.view_store s i [] y ylog yn
    obtain ⟨r1, hr1, hI3, _, _, _⟩ := Rcu_sys.Inv.start_batch E hE k fuel _ hI2 hk i
      Rcu.State.RCU_PND (Or.inl rfl)
    rw [hv2] at hr1
    rw [Rcu_sys.store_store, ylog, List.map_nil, List.append_nil, List.append_nil] at hI3
    obtain ⟨r1b, hr1b, _, _, _, _, _, _, _, hn1⟩ :=
      Rcu.start_batch_frame E fuel Rcu.State.RCU_PND y
    rw [hr1] at hr1b
    have hrr : r1 = r1b := Option.some.inj hr1b
    subst hrr
    have hn2 : r1.cpu_count = s.cpu_count := by rw [hn1, yn]
    have hi3 : i < (s.store i [] r1).cpu_count := hi
    have hI4 := Rcu_sys.Inv.update_end E (k + 1) _ hI3 i hi3
    rw [Rcu_sys.store_update_invoke s i [] r1 hn2] at hI4
    simp only [hr1, Option.map_some']
    exact ⟨_, rfl, hI4, Rcu_sys.store_cpu_count _ _ _ _⟩
  · have hI4 := Rcu_sys.Inv.update_end E k _ hI1 i hi1
    rw [Rcu_sys.store_update_invoke s i [] x xn] at hI4
    simp only [Option.map_some']
    exact ⟨_, rfl, Rcu_sys.Inv.mono E k (k + 1) _ hI4 (Nat.le_succ k),
      Rcu_sys.store_cpu_count _ _ _ _⟩

/-- The initial state satisfies the invariant. -/
theorem Rcu_sys.Inv.init (E : Rcu.Env) (hE : E.phase_bits) (n : Nat) (hn : n < 2 ^ 64) :
    Rcu_sys.Inv E 0 (Rcu_sys.init E n) := by
  have hv : (E.RCU_CMP = 1 ∨ E.RCU_CMP = 2) := by
    rcases hE with ⟨h, _⟩ | ⟨h, _⟩
    · exact Or.inl h
    · exact Or.inr h
  have hst : (Rcu_sys.init E n).state = E.RCU_CMP := rfl
  have htr : (Rcu_sys.init E n).trace = [] := rfl
  have hcp : ∀ j, (Rcu_sys.init E n).cpus j = Rcu_cpu.mk 0 0 [] [] [] 0 := fun _ => rfl
  have hb : E.RCU_CMP >>> 2 = 0 := by
    rcases hv with h | h <;> rw [h] <;> decide
  have hc : E.RCU_CMP &&& E.RCU_CMP ≠ 0 := by
    rcases hv with h | h <;> rw [h] <;> decide
  have hlt : E.RCU_CMP < 2 ^ 64 := by
    rcases hv with h | h <;> rw [h] <;> decide
  refine ⟨?_, ?_, hn, ?_, ?_, ?_, ?_, ?_, ?_, ?_, ?_, ?_, ?_, ?_, ?_⟩
  · rw [hst]
    exact hlt
  · rw [hst, hb]
  · intro j _
    rw [hcp]
    exact Nat.zero_le _
  · intro _
    rw [hst]
    exact hc
  · intro j _ h
    rw [hcp] at h
    exact absurd (Nat.zero_and _) h
  · rw [hst, hb]
    intro _ h
    omega
  · intro j _ h
    rw [htr] at h
    cases h
  · rw [hst]
    intro h
    exact absurd h hc
  · intro j c h
    rw [htr] at h
    cases h
  · rw [hst, hb]
    intro c _ h
    omega
  · intro j e b h
    rw [htr] at h
    cases h
  · intro p1 p2 j e b h
    rw [htr] at h
    cases p1 <;> cases h
  · intro j _
    rw [htr, hcp]
    exact Rcu_sys.queue_nil _ _ _
  · intro pre post i e h
    rw [htr] at h
    cases pre <;> cases h

/-- An allowed operation on an existing CPU returns and keeps the invariant. -/
theorem Rcu_sys.Inv.step (E : Rcu.Env) (hE : E.phase_bits) (hEc : E.complete_sound)
    (k fuel : Nat) (s : Rcu_sys) (hI : Rcu_sys.Inv E k s) (hk : k + 1 < 2 ^ 62)
    (op : Rcu_sys.Op) (hop : op.cpu < s.cpu_count) (hal : op.allowed s = true) :
    ∃ s1, Rcu_sys.step E (fuel + 1) s op = some s1 ∧
      Rcu_sys.Inv E (k + 1) s1 ∧ s1.cpu_count = s.cpu_count := by
  cases op with
  | call i e =>
    exact Rcu_sys.Inv.step_call E k (fuel + 1) s hI i hop e (of_decide_eq_true hal)
  | update i => exact Rcu_sys.Inv.step_update E hE hEc k fuel s hI hk i hop
  | quiet i => exact Rcu_sys.Inv.step_quiet E hE k fuel s hI hk i hop (of_decide_eq_true hal)
  | start_batch i st => cases hal

/-- A disciplined sequence of operations on existing CPUs returns and keeps the
invariant, as long as the batch number cannot wrap. -/
theorem Rcu_sys.Inv.run (E : Rcu.Env) (hE : E.phase_bits) (hEc : E.complete_sound)
    (fuel : Nat) (ops : List Rcu_sys.Op) :
    ∀ (k : Nat) (s : Rcu_sys), Rcu_sys.Inv E k s → k + ops.length < 2 ^ 62 →
      (∀ op, op ∈ ops → op.cpu < s.cpu_count) →
      Rcu_sys.guarded E (fuel + 1) ops s = true →
      ∃ s1, Rcu_sys.run E (fuel + 1) ops s = some s1 ∧
        Rcu_sys.Inv E (k + ops.length) s1 ∧ s1.cpu_count = s.cpu_count := by
  induction ops with
  | nil =>
    intro k s hI _ _ _
    exact ⟨s, rfl, hI, Eq.refl _⟩
  | cons op ops ih =>
    intro k s hI hk hcpu hg
    rw [List.length_cons] at hk
    simp only [Rcu_sys.guarded, Bool.and_eq_true] at hg
    obtain ⟨s1, h1, hI1, hn1⟩ := Rcu_sys.Inv.step E hE hEc k fuel s hI (by omega) op
      (hcpu op (List.mem_cons_self _ _)) hg.1
    rw [h1] at hg
    obtain ⟨s2, h2, hI2, hn2⟩ := ih (k + 1) s1 hI1 (by omega)
      (fun o ho => by rw [hn1]; exact hcpu o (List.mem_cons_of_mem _ ho)) hg.2
    refine ⟨s2, ?_, ?_, hn2.trans hn1⟩
    · simp only [Rcu_sys.run, h1]
      exact h2
    · rw [List.length_cons]
      have he : k + (ops.length + 1) = k + 1 + ops.length := by omega
      rw [he]
      exact hI2

theorem Rcu.Env.standard_phase_bits : Rcu.Env.standard.phase_bits := Or.inl ⟨rfl, rfl⟩

/-! ### Grace-period safety -/

/-- What the safety of a trace excludes: an element that has been invoked, is
registered again and is invoked at once, with no call of `quiet` in between, does
not pass for safe on the strength of its first registration. -/
theorem Rcu_sys.safe_excludes_reuse :
    ¬ Rcu_sys.safe 2
      [.call 0 8 0, .start_batch 0 .RCU_PND, .quiet 0 1, .quiet 1 1, .start_batch 1 .RCU_CMP,
       .invoke 0 8, .call 0 8 1, .invoke 0 8] := by
  intro h
  obtain ⟨p1, p2, b, c, heq, hlen, hbc, hq⟩ := h
    [.call 0 8 0, .start_batch 0 .RCU_PND, .quiet 0 1, .quiet 1 1, .start_batch 1 .RCU_CMP,
     .invoke 0 8, .call 0 8 1] [] 0 8 rfl
  have hinv : (Rcu_sys.invokes 0
      [.call 0 8 0, .start_batch 0 .RCU_PND, .quiet 0 1, .quiet 1 1, .start_batch 1 .RCU_CMP,
       .invoke 0 8, .call 0 8 1]).length = 1 := by decide
  rw [hinv] at hlen
  have h0 := hq 0 (by decide)
  rcases p1 with _ | ⟨x1, _ | ⟨x2, _ | ⟨x3, _ | ⟨x4, _ | ⟨x5, _ | ⟨x6, _ | ⟨x7, p1⟩⟩⟩⟩⟩⟩⟩
  · simp [Rcu_sys.calls] at hlen
  · simp at heq
  · simp at heq
  · simp at heq
  · simp at heq
  · simp at heq
  · simp only [List.cons_append, List.nil_append, List.cons.injEq] at heq
    have hp2 : p2 = [] := heq.2.2.2.2.2.2.2.symm
    rw [hp2] at h0
    cases h0
  · simp at heq

/-- The batch number of the state word that `start_batch` leaves when it advances. -/
theorem Rcu.batch_advance (b : Nat) :
    (((b + 1) <<< 2) % 2 ^ 64) >>> 2 = (b + 1) % 2 ^ 62 := by
  rw [Nat.shiftLeft_eq, Nat.shiftRight_eq_div_pow]
  have h : (2 : Nat) ^ 64 = 2 ^ 62 * 2 ^ 2 := by decide
  rw [h, Nat.mul_mod_mul_right]
  exact Nat.mul_div_cancel _ (by decide)

/-- What `start_batch` does to the state word: it returns, the phase bits are not
both set afterwards if they were not before, and the batch number is unchanged or
one more. -/
theorem Rcu.start_batch_word (E : Rcu.Env) (hE : E.phase_bits) (fuel : Nat) (st : Rcu.State)
    (r : Rcu) (hst : r.state < 2 ^ 64) :
    ∃ r1, Rcu.start_batch E (fuel + 1) st r = some r1 ∧ r1.state < 2 ^ 64 ∧
      r1.cpu_count = r.cpu_count ∧
      (¬ (r.state &&& E.RCU_CMP ≠ 0 ∧ r.state &&& E.RCU_PND ≠ 0) →
        ¬ (r1.state &&& E.RCU_CMP ≠ 0 ∧ r1.state &&& E.RCU_PND ≠ 0)) ∧
      (r1.state >>> 2 = r.state >>> 2 ∨ r1.state >>> 2 = (r.state >>> 2 + 1) % 2 ^ 62) := by
  obtain ⟨r1, h1, _, _, _, _, _, _, _, hn, hlt, hcases⟩ :=
    Rcu.start_batch_cases E hE fuel st r hst
  refine ⟨r1, h1, hlt, hn, ?_, ?_⟩
  · rcases hcases with ⟨_, hs1, _⟩ | ⟨_, _, _, _, hs1, ho1, _⟩ | ⟨_, _, _, _, hcm, _, _⟩
    · rw [hs1]
      exact id
    · intro _ hb
      cases st with
      | RCU_CMP => exact hb.2 ho1
      | RCU_PND => exact hb.1 ho1
    · intro _ hb
      exact hb.1 hcm
  · rcases hcases with ⟨_, hs1, _⟩ | ⟨_, _, _, hb1, _, _, _⟩ | ⟨_, _, _, hv1, _, _, _⟩
    · rw [hs1]
      exact Or.inl rfl
    · exact Or.inl hb1
    · rw [hv1, Rcu.batch_advance]
      exact Or.inr rfl

/-- What `quiet` does to the state word. -/
theorem Rcu.quiet_word (E : Rcu.Env) (hE : E.phase_bits) (fuel : Nat) (r : Rcu)
    (hst : r.state < 2 ^ 64) :
    ∃ r1, Rcu.quiet E (fuel + 1) r = some r1 ∧ r1.state < 2 ^ 64 ∧
      r1.cpu_count = r.cpu_count ∧
      (¬ (r.state &&& E.RCU_CMP ≠ 0 ∧ r.state &&& E.RCU_PND ≠ 0) →
        ¬ (r1.state &&& E.RCU_CMP ≠ 0 ∧ r1.state &&& E.RCU_PND ≠ 0)) ∧
      (r1.state >>> 2 = r.state >>> 2 ∨ r1.state >>> 2 = (r.state >>> 2 + 1) % 2 ^ 62) := by
  unfold Rcu.quiet
  simp only
  split_ifs with hz
  · exact Rcu.start_batch_word E hE fuel Rcu.State.RCU_CMP _ hst
  · exact ⟨_, rfl, hst, Eq.refl _, id, Or.inl (Eq.refl _)⟩

/-- What `update` does to the state word. -/
theorem Rcu.update_word (E : Rcu.Env) (hE : E.phase_bits) (fuel : Nat) (r : Rcu)
    (hst : r.state < 2 ^ 64) :
    ∃ r1, Rcu.update E (fuel + 1) r = some r1 ∧ r1.state < 2 ^ 64 ∧
      r1.cpu_count = r.cpu_count ∧
      (¬ (r.state &&& E.RCU_CMP ≠ 0 ∧ r.state &&& E.RCU_PND ≠ 0) →
        ¬ (r1.state &&& E.RCU_CMP ≠ 0 ∧ r1.state &&& E.RCU_PND ≠ 0)) ∧
      (r1.state >>> 2 = r.state >>> 2 ∨ r1.state >>> 2 = (r.state >>> 2 + 1) % 2 ^ 62) := by
  have hi : ∀ x : Rcu, (Rcu.update_invoke x).state = x.state ∧
      (Rcu.update_invoke x).cpu_count = x.cpu_count := by
    intro x
    unfold Rcu.update_invoke Rcu.invoke_batch_seq
    split_ifs <;> exact ⟨rfl, rfl⟩
  have hc : (Rcu.update_complete E (Rcu.update_owe r)).state = r.state ∧
      (Rcu.update_complete E (Rcu.update_owe r)).cpu_count = r.cpu_count := by
    obtain ⟨_, _, ost, _, _, _, _, _, _, ocn⟩ := Rcu.update_owe_eq r
    rw [← ost, ← ocn]
    unfold Rcu.update_complete
    split_ifs <;> exact ⟨rfl, rfl⟩
  unfold Rcu.update Rcu.update_promote
  generalize Rcu.update_complete E (Rcu.update_owe r) = x at hc
  obtain ⟨xs, xn⟩ := hc
  split_ifs with hp
  · obtain ⟨r1, h1, hlt, hn, hnb, hb⟩ := Rcu.start_batch_word E hE fuel Rcu.State.RCU_PND
      { x with curr := (Rcu_list.append x.curr x.next).1,
               next := (Rcu_list.append x.curr x.next).2,
               c_batch := (x.l_batch + 1) % 2 ^ 64 } (by show x.state < 2 ^ 64; rw [xs]; exact hst)
    rw [h1]
    have e1 : x.state = r.state := xs
    have e2 : x.cpu_count = r.cpu_count := xn
    refine ⟨_, rfl, ?_, ?_, ?_, ?_⟩
    · rw [(hi r1).1]
      exact hlt
    · rw [(hi r1).2, hn]
      exact e2
    · rw [(hi r1).1, ← e1]
      exact hnb
    · rw [(hi r1).1, ← e1]
      exact hb
  · refine ⟨_, rfl, ?_, ?_, ?_, ?_⟩
    · rw [(hi x).1, xs]
      exact hst
    · rw [(hi x).2, xn]
    · rw [(hi x).1, xs]
      exact id
    · rw [(hi x).1, xs]
      exact Or.inl rfl

theorem Rcu_sys.store_state (s : Rcu_sys) (i : Nat) (pre : List Rcu_sys.Event) (r : Rcu) :
    (s.store i pre r).state = r.state := rfl

/-- What one operation on an existing CPU does to the state word: it returns, the
phase bits are not both set afterwards if they were not before, and the batch
number is unchanged or one more. -/
theorem Rcu_sys.step_word (E : Rcu.Env) (hE : E.phase_bits) (fuel : Nat) (s : Rcu_sys)
    (op : Rcu_sys.Op) (hst : s.state < 2 ^ 64) (hop : op.cpu < s.cpu_count) :
    ∃ s1, Rcu_sys.step E (fuel + 1) s op = some s1 ∧ s1.state < 2 ^ 64 ∧
      s1.cpu_count = s.cpu_count ∧
      (¬ (s.state &&& E.RCU_CMP ≠ 0 ∧ s.state &&& E.RCU_PND ≠ 0) →
        ¬ (s1.state &&& E.RCU_CMP ≠ 0 ∧ s1.state &&& E.RCU_PND ≠ 0)) ∧
      (s1.state >>> 2 = s.state >>> 2 ∨ s1.state >>> 2 = (s.state >>> 2 + 1) % 2 ^ 62) := by
  have hvs : (s.view op.cpu).state = s.state := Eq.refl _
  have hvn : (s.view op.cpu).cpu_count = s.cpu_count := Eq.refl _
  have fin : ∀ (pre : List Rcu_sys.Event) (r1 : Rcu), r1.state < 2 ^ 64 →
      r1.cpu_count = s.cpu_count →
      (¬ (s.state &&& E.RCU_CMP ≠ 0 ∧ s.state &&& E.RCU_PND ≠ 0) →
        ¬ (r1.state &&& E.RCU_CMP ≠ 0 ∧ r1.state &&& E.RCU_PND ≠ 0)) →
      (r1.state >>> 2 = s.state >>> 2 ∨ r1.state >>> 2 = (s.state >>> 2 + 1) % 2 ^ 62) →
      (s.store op.cpu pre r1).state < 2 ^ 64 ∧
      (s.store op.cpu pre r1).cpu_count = s.cpu_count ∧
      (¬ (s.state &&& E.RCU_CMP ≠ 0 ∧ s.state &&& E.RCU_PND ≠ 0) →
        ¬ ((s.store op.cpu pre r1).state &&& E.RCU_CMP ≠ 0 ∧
            (s.store op.cpu pre r1).state &&& E.RCU_PND ≠ 0)) ∧
      ((s.store op.cpu pre r1).state >>> 2 = s.state >>> 2 ∨
        (s.store op.cpu pre r1).state >>> 2 = (s.state >>> 2 + 1) % 2 ^ 62) := by
    intro pre r1 h1 _ h3 h4
    rw [Rcu_sys.store_state]
    exact ⟨h1, Rcu_sys.store_cpu_count _ _ _ _, h3, h4⟩
  have hvlt : (s.view op.cpu).state < 2 ^ 64 := hst
  cases op with
  | call i e =>
    refine ⟨s.store i [Rcu_sys.Event.call i e (s.state >>> 2)] (Rcu.call e (s.view i)),
      by simp only [Rcu_sys.step, if_pos hop], ?_⟩
    exact fin _ _ hst (Eq.refl _) id (Or.inl (Eq.refl _))
  | update i =>
    obtain ⟨r1, h1, hlt, hn, hnb, hb⟩ := Rcu.update_word E hE fuel (s.view i) hvlt
    refine ⟨s.store i [] r1, by simp only [Rcu_sys.step, if_pos hop, h1, Option.map_some'], ?_⟩
    exact fin _ _ hlt hn hnb hb
  | quiet i =>
    obtain ⟨r1, h1, hlt, hn, hnb, hb⟩ := Rcu.quiet_word E hE fuel (s.view i) hvlt
    refine ⟨s.store i [Rcu_sys.Event.quiet i (s.state >>> 2)] r1,
      by simp only [Rcu_sys.step, if_pos hop, h1, Option.map_some'], ?_⟩
    exact fin _ _ hlt hn hnb hb
  | start_batch i st =>
    obtain ⟨r1, h1, hlt, hn, hnb, hb⟩ := Rcu.start_batch_word E hE fuel st (s.view i) hvlt
    refine ⟨s.store i [] r1, by simp only [Rcu_sys.step, if_pos hop, h1, Option.map_some'], ?_⟩
    exact fin _ _ hlt hn hnb hb

/-- A sequence of operations on existing CPUs returns and never leaves both phase
bits set. -/
theorem Rcu_sys.run_word (E : Rcu.Env) (hE : E.phase_bits) (fuel : Nat)
    (ops : List Rcu_sys.Op) :
    ∀ s : Rcu_sys, s.state < 2 ^ 64 →
      ¬ (s.state &&& E.RCU_CMP ≠ 0 ∧ s.state &&& E.RCU_PND ≠ 0) →
      (∀ op, op ∈ ops → op.cpu < s.cpu_count) →
      ∃ s1, Rcu_sys.run E (fuel + 1) ops s = some s1 ∧ s1.state < 2 ^ 64 ∧
        s1.cpu_count = s.cpu_count ∧
        ¬ (s1.state &&& E.RCU_CMP ≠ 0 ∧ s1.state &&& E.RCU_PND ≠ 0) := by
  induction ops with
  | nil =>
    intro s hst hnb _
    exact ⟨s, rfl, hst, Eq.refl _, hnb⟩
  | cons op ops ih =>
    intro s hst hnb hcpu
    obtain ⟨s1, h1, hlt1, hn1, hnb1, _⟩ := Rcu_sys.step_word E hE fuel s op hst
      (hcpu op (List.mem_cons_self _ _))
    obtain ⟨s2, h2, hlt2, hn2, hnb2⟩ := ih s1 hlt1 (hnb1 hnb)
      (fun o ho => by rw [hn1]; exact hcpu o (List.mem_cons_of_mem _ ho))
    refine ⟨s2, ?_, hlt2, hn2.trans hn1, hnb2⟩
    simp only [Rcu_sys.run, h1]
    exact h2

/-- C29: from the initial state (batch 0 with only `RCU_CMP` set), every finite
sequence of `start_batch`, `quiet`, `update` (and `call`) operations on the CPUs
below `Cpu::count`, each taken as one step, returns and leaves a state word in
which `RCU_PND` and `RCU_CMP` are not both set; and every operation run next
returns and leaves the batch number `state >> 2` unchanged or makes it the next
batch number, `batch + 1` as a 62-bit number. -/
theorem Rcu_sys.phase_bits_never_both_set (E : Rcu.Env) (hE : E.phase_bits) (n fuel : Nat)
    (ops : List Rcu_sys.Op) (hcpu : ∀ op, op ∈ ops → op.cpu < n) :
    ∃ s, Rcu_sys.run E (fuel + 1) ops (Rcu_sys.init E n) = some s ∧
      ¬ (s.state &&& E.RCU_CMP ≠ 0 ∧ s.state &&& E.RCU_PND ≠ 0) ∧
      ∀ op : Rcu_sys.Op, op.cpu < n →
        ∃ s1, Rcu_sys.step E (fuel + 1) s op = some s1 ∧
          (s1.state >>> 2 = s.state >>> 2 ∨
            s1.state >>> 2 = (s.state >>> 2 + 1) % 2 ^ 62) := by
  have h0 : (Rcu_sys.init E n).state = E.RCU_CMP := Eq.refl _
  have hlt0 : (Rcu_sys.init E n).state < 2 ^ 64 := by
    rw [h0]
    rcases hE with ⟨h, _⟩ | ⟨h, _⟩ <;> rw [h] <;> decide
  have hnb0 : ¬ ((Rcu_sys.init E n).state &&& E.RCU_CMP ≠ 0 ∧
      (Rcu_sys.init E n).state &&& E.RCU_PND ≠ 0) := by
    rw [h0]
    rcases hE with ⟨h1, h2⟩ | ⟨h1, h2⟩ <;> rw [h1, h2] <;> decide
  obtain ⟨s, hs, hlt, hn, hnb⟩ := Rcu_sys.run_word E hE fuel ops (Rcu_sys.init E n) hlt0 hnb0 hcpu
  refine ⟨s, hs, hnb, ?_⟩
  intro op hop
  have hn2 : s.cpu_count = n := hn
  obtain ⟨s1, h1, _, _, _, hb⟩ := Rcu_sys.step_word E hE fuel s op hlt (by rw [hn2]; exact hop)
  exact ⟨s1, h1, hb⟩

/-- C29, witness: two CPUs with the standard parameters, after a registration, two
calls of `update`, two of `quiet` and one of `start_batch`. -/
theorem Rcu_sys.phase_bits_never_both_set_witness :
    ∃ s, Rcu_sys.run Rcu.Env.standard 1
        [.call 0 8, .update 0, .update 1, .quiet 0, .quiet 1, .start_batch 0 .RCU_PND]
        (Rcu_sys.init Rcu.Env.standard 2) = some s ∧
      ¬ (s.state &&& Rcu.Env.standard.RCU_CMP ≠ 0 ∧
          s.state &&& Rcu.Env.standard.RCU_PND ≠ 0) ∧
      ∀ op : Rcu_sys.Op, op.cpu < 2 →
        ∃ s1, Rcu_sys.step Rcu.Env.standard 1 s op = some s1 ∧
          (s1.state >>> 2 = s.state >>> 2 ∨
            s1.state >>> 2 = (s.state >>> 2 + 1) % 2 ^ 62) :=
  Rcu_sys.phase_bits_never_both_set Rcu.Env.standard Rcu.Env.standard_phase_bits 2 0
    [.call 0 8, .update 0, .update 1, .quiet 0, .quiet 1, .start_batch 0 .RCU_PND]
    (by decide)

end Nova
